import Mathlib

/-
  Verification development for core/domain/classifier_services.py
  (class StringClassifier: a Labeled-LDA string classifier fit by
  collapsed Gibbs sampling).

  Modelling choices, stated once:
  * numpy float arithmetic on probabilities is modelled by exact rationals
    (the claims under study are about the algebraic structure of the
    computation, not float rounding); numpy integer arithmetic is modelled
    exactly, including the Python 2 floor division of the dtype=int mask
    rows by their sums in the initializer of the load path, and
    numpy.random.multinomial's treatment of the last category as the
    remainder 1 - sum(pvals[:-1]);
  * count matrices are dense lists of lists of integers, exactly mirroring
    the numpy integer arrays (including the zero-padding concatenations of
    add_examples);
  * numpy's seeded global generator is modelled by an explicit
    deterministic generator state threaded through the engine
    (an LCG producing rationals in [0,1)); `numpy.random.multinomial(1, p)
    .argmax()` is modelled by inverse-CDF selection `catDraw`, which, like
    the numpy call, never selects an index of zero probability;
  * Python dicts (word_to_id / label_to_id) are association lists in
    insertion order.
-/

namespace StringClassifier

abbrev Mat := List (List ℤ)

/-- Entry of an integer matrix; 0 outside the stored rows/columns. -/
def getZ (M : Mat) (i j : ℕ) : ℤ := (M.getD i []).getD j 0

/-- Write one entry of an integer matrix (no-op out of range; reachable
states only write in range). -/
def setZ (M : Mat) (i j : ℕ) (v : ℤ) : Mat := M.set i ((M.getD i []).set j v)

/-- Entry of a natural-number matrix (masks, word ids, assignments). -/
def getN (M : List (List ℕ)) (i j : ℕ) : ℕ := (M.getD i []).getD j 0

/-- Sum of one matrix row (`M[i].sum()`). -/
def rowSumZ (M : Mat) (i : ℕ) : ℤ := (M.getD i []).sum

/-- Association-list lookup modelling Python dict lookup. -/
def alookup (k : String) : List (String × β) → Option β
  | [] => none
  | p :: ps => if p.1 = k then some p.2 else alookup k ps

/-- The reserved label string. -/
def defaultLabel : String := "_default"

/-- Internal model representation of StringClassifier (its private fields),
plus the state of the seeded random generator, which in the source is
numpy's global generator. -/
structure State where
  alpha : ℚ
  beta : ℚ
  labelCount : ℕ
  labelToId : List (String × ℕ)
  wordCount : ℕ
  wordToId : List (String × ℕ)
  docCount : ℕ
  w_dc : List (List ℕ)
  b_dl : List (List ℕ)
  l_dc : List (List ℕ)
  c_dl : Mat
  c_lw : Mat
  c_l : List ℤ
  rng : ℕ
deriving DecidableEq

/-- _DEFAULT_ALPHA = 0.1 -/
def defaultAlpha : ℚ := 1 / 10

/-- _DEFAULT_BETA = 0.001 -/
def defaultBeta : ℚ := 1 / 1000

/-- StringClassifier.__init__: seeds the generator (seed 4) and sets the
hyperparameters; the remaining fields are uninitialized in Python and are
modelled as empty. -/
def init : State :=
  { alpha := defaultAlpha, beta := defaultBeta
    labelCount := 0, labelToId := []
    wordCount := 0, wordToId := []
    docCount := 0
    w_dc := [], b_dl := [], l_dc := []
    c_dl := [], c_lw := [], c_l := []
    rng := 4 }

/-- One step of the deterministic generator state. -/
def lcg (s : ℕ) : ℕ := (1103515245 * s + 12345) % 2147483648

/-- Model of one draw from numpy's seeded generator: a rational in [0,1)
plus the successor generator state. -/
def nextRand (s : ℕ) : ℚ × ℕ :=
  let t := lcg s
  (((t % 65536 : ℕ) : ℚ) / 65536, t)

/-- Model of `numpy.random.multinomial(1, p).argmax()` by inverse-CDF
selection: walk the vector accumulating mass; a nonpositive entry is never
selected (numpy assigns it no probability); if the remaining mass runs out
the last positive entry seen is kept, so whenever the vector has a positive
entry the selected index carries positive probability. -/
def catDraw : List ℚ → ℚ → ℕ
  | [], _ => 0
  | q :: qs, r =>
    if 0 < q then
      if r < q then 0
      else if qs.any (fun x => 0 < x) then catDraw qs (r - q) + 1 else 0
    else catDraw qs r + 1

/-- StringClassifier._get_word_id: id of a word, allocating the next id for
an unseen word. -/
def getWordId (s : State) (word : String) : ℕ × State :=
  match alookup word s.wordToId with
  | some i => (i, s)
  | none =>
    (s.wordCount,
     { s with wordToId := s.wordToId ++ [(word, s.wordCount)]
              wordCount := s.wordCount + 1 })

/-- StringClassifier._get_label_id: id of a label, allocating the next id
for an unseen label. -/
def getLabelId (s : State) (lab : String) : ℕ × State :=
  match alookup lab s.labelToId with
  | some i => (i, s)
  | none =>
    (s.labelCount,
     { s with labelToId := s.labelToId ++ [(lab, s.labelCount)]
              labelCount := s.labelCount + 1 })

/-- Python's `map` with a state-threading function. -/
def mapState (f : State → α → β × State) (s : State) : List α → List β × State
  | [] => ([], s)
  | x :: xs =>
    let (y, s1) := f s x
    let (ys, s2) := mapState f s1 xs
    (y :: ys, s2)

/-- The loop `for label in labels: label_vector[_get_label_id(label)] = 1`. -/
def setLabelBits (v : List ℕ) (s : State) : List String → List ℕ × State
  | [] => (v, s)
  | lab :: rest =>
    let (i, s1) := getLabelId s lab
    setLabelBits (v.set i 1) s1 rest

/-- StringClassifier._get_label_vector: all-ones when the example has no
labels, otherwise the indicator vector of its labels with the default bit
always set. -/
def getLabelVector (s : State) (labels : List String) : List ℕ × State :=
  if labels.length = 0 then (List.replicate s.labelCount 1, s)
  else
    let (v, s1) := setLabelBits (List.replicate s.labelCount 0) s labels
    (v.set ((alookup defaultLabel s1.labelToId).getD 0) 1, s1)

/-- StringClassifier._update_counting_matrices. -/
def updateCountingMatrices (s : State) (d w l : ℕ) (val : ℤ) : State :=
  { s with
    c_dl := setZ s.c_dl d l (getZ s.c_dl d l + val)
    c_lw := setZ s.c_lw l w (getZ s.c_lw l w + val)
    c_l := s.c_l.set l (s.c_l.getD l 0 + val) }

/-- n draws from the per-token initial label distribution. -/
def drawList (pvec : List ℚ) (g : ℕ) : ℕ → List ℕ × ℕ
  | 0 => ([], g)
  | n + 1 =>
    let (r, g1) := nextRand g
    let a := catDraw pvec r
    let (rest, g2) := drawList pvec g1 n
    (a :: rest, g2)

/-- The per-token distribution `labels / labels.sum()` of _init_docs: numpy
elementwise division of the mask row by its sum. On the load_examples path
b_dl has dtype=int (Python 2), so this is integer floor division — the
all-zeros vector whenever the mask has two or more set bits; on the
add_examples path b_dl has been promoted to float by the concatenation
with _get_label_vector's float rows, and the division is exact. -/
def initPvec : Bool → State → ℕ → List ℚ
  | true, s, d =>
    (s.b_dl.getD d []).map
      (fun b : ℕ => ((b / (s.b_dl.getD d []).sum : ℕ) : ℚ))
  | false, s, d =>
    (s.b_dl.getD d []).map
      (fun b : ℕ => (b : ℚ) / (((s.b_dl.getD d []).sum : ℕ) : ℚ))

/-- numpy.random.multinomial's pvals convention: the last category always
accounts for the remaining probability 1 - sum(pvals[:-1]); in particular
an all-zeros pvals vector makes the draw deterministically the last
index. -/
def npEffective (p : List ℚ) : List ℚ := p.dropLast ++ [1 - p.dropLast.sum]

/-- StringClassifier._init_docs for a single doc id: draw one label per
token from multinomial(1, labels / labels.sum()), append the assignment
row, and increment the three count matrices for every token; the flag
records whether b_dl holds ints (the load path) or floats (the add
path). -/
def initDoc (intMask : Bool) (s : State) (d : ℕ) : State :=
  let doc := s.w_dc.getD d []
  let (l_c, g) := drawList (npEffective (initPvec intMask s d)) s.rng doc.length
  let s1 := { s with l_dc := s.l_dc ++ [l_c], rng := g }
  (doc.zip l_c).foldl (fun t p => updateCountingMatrices t d p.1 p.2 1) s1

/-- StringClassifier._init_docs over a list of doc ids. -/
def initDocs (intMask : Bool) (s : State) (ds : List ℕ) : State :=
  ds.foldl (initDoc intMask) s

/-- The assignment row drawn by _init_docs for one doc, with the successor
generator state. -/
def initDraw (intMask : Bool) (s : State) (d : ℕ) : List ℕ × ℕ :=
  drawList (npEffective (initPvec intMask s d)) s.rng (s.w_dc.getD d []).length

/-- The state of _init_docs after appending the assignment row, before the
count increments. -/
def initMid (intMask : Bool) (s : State) (d : ℕ) : State :=
  { s with l_dc := (s.l_dc ++ [(initDraw intMask s d).1])
           rng := ((initDraw intMask s d).2) }

/-- The unnormalized Gibbs conditional computed in _infer_docs:
`labels * coeff_a * (c_dl[d] + alpha) * coeff_b * (c_lw[:, w] + beta)`
with `coeff_a = 1 / (c_dl[d].sum() + label_count * alpha)` and
`coeff_b = 1 / (c_lw.sum(axis=1) + word_count * beta)`. -/
def gibbsProb (s : State) (d w : ℕ) : List ℚ :=
  let coeffA : ℚ := 1 / (((rowSumZ s.c_dl d : ℤ) : ℚ) + (s.labelCount : ℚ) * s.alpha)
  (List.range s.labelCount).map (fun i =>
    ((getN s.b_dl d i : ℕ) : ℚ) * coeffA * (((getZ s.c_dl d i : ℤ) : ℚ) + s.alpha) *
      (1 / (((rowSumZ s.c_lw i : ℤ) : ℚ) + (s.wordCount : ℚ) * s.beta)) *
      (((getZ s.c_lw i w : ℤ) : ℚ) + s.beta))

/-- The body of the token loop of StringClassifier._infer_docs: decrement
the counts for the token's current assignment, compute the Gibbs
conditional, draw the new label from its normalization, store it, and
re-increment the counts; the Bool reports whether the label changed. -/
def inferToken (s : State) (d c : ℕ) : State × Bool :=
  let w := getN s.w_dc d c
  let l := getN s.l_dc d c
  let s1 := updateCountingMatrices s d w l (-1)
  let probL := gibbsProb s1 d w
  let (r, g) := nextRand s1.rng
  let newL := catDraw (probL.map (fun p => p / probL.sum)) r
  let s2 := { s1 with l_dc := s1.l_dc.set d ((s1.l_dc.getD d []).set c newL)
                      rng := g }
  (updateCountingMatrices s2 d w newL 1, decide (l ≠ newL))

/-- The word id of the token at position c of doc d. -/
def inferW (s : State) (d c : ℕ) : ℕ := getN s.w_dc d c

/-- The current label assignment of the token at position c of doc d. -/
def inferL (s : State) (d c : ℕ) : ℕ := getN s.l_dc d c

/-- The state after the leave-one-out decrement of _infer_docs. -/
def inferMid (s : State) (d c : ℕ) : State :=
  updateCountingMatrices s d (inferW s d c) (inferL s d c) (-1)

/-- The unnormalized Gibbs conditional of the token at position c of doc d,
computed on the decremented counts. -/
def inferProb (s : State) (d c : ℕ) : List ℚ :=
  gibbsProb (inferMid s d c) d (inferW s d c)

/-- The label drawn by _infer_docs for the token at position c of doc d. -/
def inferNewL (s : State) (d c : ℕ) : ℕ :=
  catDraw ((inferProb s d c).map (fun p => p / (inferProb s d c).sum))
    (nextRand (inferMid s d c).rng).1

/-- The state of _infer_docs after storing the redrawn label, before the
re-increment. -/
def inferSet (s : State) (d c : ℕ) : State :=
  { inferMid s d c with
    l_dc := (inferMid s d c).l_dc.set d
      (((inferMid s d c).l_dc.getD d []).set c (inferNewL s d c))
    rng := (nextRand (inferMid s d c).rng).2 }

/-- The token loop of _infer_docs for one document, threading the statez
counters (updates, computes). -/
def inferPositions (d : ℕ) : State → ℕ × ℕ → List ℕ → State × (ℕ × ℕ)
  | s, st, [] => (s, st)
  | s, st, c :: cs =>
    let (s1, changed) := inferToken s d c
    inferPositions d s1 (if changed then st.1 + 1 else st.1, st.2 + 1) cs

/-- One document pass of StringClassifier._infer_docs. -/
def inferDoc (s : State) (st : ℕ × ℕ) (d : ℕ) : State × (ℕ × ℕ) :=
  inferPositions d s st (List.range (s.w_dc.getD d []).length)

/-- StringClassifier._infer_docs over the given doc ids, returning the
statez counters (updates, computes). -/
def inferDocs (s : State) (ds : List ℕ) : State × (ℕ × ℕ) :=
  ds.foldl (fun acc d => inferDoc acc.1 acc.2 d) (s, (0, 0))

/-- StringClassifier._train_docs: the requested number of _infer_docs
passes (their statez results are discarded). -/
def trainDocs (s : State) (iterations : ℕ) (ds : List ℕ) : State :=
  match iterations with
  | 0 => s
  | n + 1 => trainDocs (inferDocs s ds).1 n ds

/-- Character-level splitter on spaces, keeping empty segments
(structural recursion, so concrete models evaluate). -/
def splitAuxCh : List Char → List Char → List (List Char)
  | [], acc => [acc.reverse]
  | c :: cs, acc =>
    if c = ' ' then acc.reverse :: splitAuxCh cs []
    else splitAuxCh cs (c :: acc)

/-- `example[0].split()`: whitespace split dropping empty tokens. -/
def splitDoc (text : String) : List String :=
  ((splitAuxCh text.data []).map (fun cs => String.mk cs)).filter
    (fun t => t ≠ "")

abbrev TrainExample := String × List String

/-- StringClassifier._parse_examples: docs (split on spaces, empty docs
dropped) and their label lists. -/
def parseExamples : List TrainExample → List (List String) × List (List String)
  | [] => ([], [])
  | e :: es =>
    let (ds, ls) := parseExamples es
    let doc := splitDoc e.1
    if doc.length > 0 then (doc :: ds, e.2 :: ls) else (ds, ls)

/-- Deduplication keeping first occurrences: a deterministic model of
Python's `set(...)` construction of the label set. -/
def dedupFirst : List String → List String
  | [] => []
  | x :: xs => x :: (dedupFirst xs).filter (fun y => y ≠ x)

/-- StringClassifier.load_examples: reset all model state from the given
examples, initialize every document and train for the given number of
iterations. -/
def loadExamples (s : State) (examples : List TrainExample) (iterations : ℕ) : State :=
  let (docs, labels) := parseExamples examples
  let labelSet := dedupFirst (defaultLabel :: labels.foldr (· ++ ·) [])
  let s1 := { s with labelCount := labelSet.length
                     labelToId := labelSet.enum.map (fun p => (p.2, p.1))
                     wordCount := 0, wordToId := []
                     docCount := docs.length }
  let (bList, s2) := mapState getLabelVector s1 labels
  let (wList, s3) := mapState (fun t doc => mapState getWordId t doc) s2 docs
  let s4 := { s3 with b_dl := bList
                      w_dc := wList
                      l_dc := []
                      c_dl := List.replicate docs.length (List.replicate labelSet.length (0 : ℤ))
                      c_lw := List.replicate labelSet.length (List.replicate s3.wordCount (0 : ℤ))
                      c_l := List.replicate labelSet.length (0 : ℤ) }
  let s5 := initDocs true s4 (List.range s4.docCount)
  trainDocs s5 iterations (List.range s4.docCount)

/-- StringClassifier.add_examples: register new labels and words, zero-pad
the mask and count matrices, append the new documents, then initialize and
train each new document in turn; returns the new doc id range. -/
def addExamples (s : State) (examples : List TrainExample) (iterations : ℕ) : State × List ℕ :=
  let (docs, labels) := parseExamples examples
  let lastLabelCount := s.labelCount
  let lastDocCount := s.docCount
  let lastWordCount := s.wordCount
  let s1 := labels.foldl (fun t ls => ls.foldl (fun u lab => (getLabelId u lab).2) t) s
  let s2 := { s1 with docCount := s1.docCount + docs.length }
  let s3 := { s2 with b_dl := (s2.b_dl.map
                (fun row => row ++ List.replicate (s2.labelCount - lastLabelCount) 0)) }
  let (newB, s4) := mapState getLabelVector s3 labels
  let s5 := { s4 with b_dl := s4.b_dl ++ newB }
  let (newW, s6) := mapState (fun t doc => mapState getWordId t doc) s5 docs
  let s7 := { s6 with w_dc := s6.w_dc ++ newW }
  let s8 := { s7 with c_dl :=
      (s7.c_dl.map (fun row => row ++ List.replicate (s7.labelCount - lastLabelCount) (0 : ℤ)))
        ++ List.replicate (s7.docCount - lastDocCount) (List.replicate s7.labelCount (0 : ℤ)) }
  let s9 := { s8 with c_lw :=
      (s8.c_lw.map (fun row => row ++ List.replicate (s8.wordCount - lastWordCount) (0 : ℤ)))
        ++ List.replicate (s8.labelCount - lastLabelCount) (List.replicate s8.wordCount (0 : ℤ)) }
  let s10 := { s9 with c_l := s9.c_l ++ List.replicate (s9.labelCount - lastLabelCount) (0 : ℤ) }
  let s11 := (List.range' lastDocCount (s10.docCount - lastDocCount)).foldl
      (fun t d => trainDocs (initDoc false t d) iterations [d]) s10
  (s11, List.range' lastDocCount (s11.docCount - lastDocCount))

/-- numpy integer row indexing: nonnegative indices below the length are
taken as is, negative indices wrap from the end, anything else raises
IndexError (modelled as none). -/
def npIndex (n : ℕ) (i : ℤ) : Option ℕ :=
  if 0 ≤ i ∧ i < (n : ℤ) then some i.toNat
  else if -(n : ℤ) ≤ i ∧ i < 0 then some (i + (n : ℤ)).toNat
  else none

/-- Row of a matrix under numpy indexing. -/
def getRow (M : List (List α)) (i : ℤ) : Option (List α) :=
  (npIndex M.length i).map (fun j => M.getD j [])

/-- StringClassifier._get_probabilities:
`probs = (c_dl[d] + b_dl[d] * alpha) / sum`. -/
def getProbabilities (s : State) (d : ℤ) : Option (List ℚ) :=
  match getRow s.c_dl d, getRow s.b_dl d with
  | some crow, some brow =>
    let base := (crow.zip brow).map (fun p => ((p.1 : ℤ) : ℚ) + ((p.2 : ℕ) : ℚ) * s.alpha)
    some (base.map (fun p => p / base.sum))
  | _, _ => none

/-- StringClassifier._get_probabilities_with_label: the label-keyed view of
_get_probabilities, iterating the label dict. -/
def getProbabilitiesWithLabel (s : State) (d : ℤ) : Option (List (String × ℚ)) :=
  (getProbabilities s d).map (fun probs =>
    s.labelToId.map (fun p => (p.1, probs.getD p.2 0)))

/-- Stable insertion into a probability-descending list. -/
def insertDesc (x : String × ℚ) : List (String × ℚ) → List (String × ℚ)
  | [] => [x]
  | y :: ys => if x.2 > y.2 then x :: y :: ys else y :: insertDesc x ys

/-- `sorted(probs_l, key=probs_l.get, reverse=True)`: stable descending
sort by probability. -/
def sortDesc (xs : List (String × ℚ)) : List (String × ℚ) :=
  xs.foldl (fun acc x => insertDesc x acc) []

/-- The scan of _predict over the sorted labels: the first non-default
label whose renormalized confidence exceeds the threshold. -/
def predictScan (defaultProb threshold : ℚ) : List (String × ℚ) → Option (String × ℚ)
  | [] => none
  | (lab, p) :: rest =>
    if lab ≠ defaultLabel ∧ p / (1 - defaultProb) > threshold then
      some (lab, p / (1 - defaultProb))
    else predictScan defaultProb threshold rest

/-- StringClassifier._predict: prediction data (label, confidence ratio,
full distribution) for a doc; none models the IndexError of an invalid doc
id. The division by (1 - default_prob) is exactly as in the source,
unguarded. -/
def predict (s : State) (d : ℤ) (threshold : ℚ) :
    Option (String × ℚ × List (String × ℚ)) :=
  (getProbabilitiesWithLabel s d).map (fun probsL =>
    let defaultProb := (alookup defaultLabel probsL).getD 0
    match predictScan defaultProb threshold (sortDesc probsL) with
    | some (lab, r) => (lab, r, probsL)
    | none => (defaultLabel, defaultProb / (1 - defaultProb), probsL))

/-- StringClassifier.predict_label. -/
def predictLabel (s : State) (d : ℤ) (threshold : ℚ) : Option String :=
  (predict s d threshold).map (fun t => t.1)

/-- The flat mapping produced by StringClassifier.to_dict (the generator
state is not part of it: the source serializes only the listed fields). -/
structure ModelDict where
  alpha : ℚ
  beta : ℚ
  labelCount : ℕ
  docCount : ℕ
  wordCount : ℕ
  labelToId : List (String × ℕ)
  wordToId : List (String × ℕ)
  w_dc : List (List ℕ)
  b_dl : List (List ℕ)
  l_dc : List (List ℕ)
  c_dl : Mat
  c_lw : Mat
  c_l : List ℤ
deriving DecidableEq

/-- StringClassifier.to_dict. -/
def toDict (s : State) : ModelDict :=
  { alpha := s.alpha, beta := s.beta
    labelCount := s.labelCount, docCount := s.docCount, wordCount := s.wordCount
    labelToId := s.labelToId, wordToId := s.wordToId
    w_dc := s.w_dc, b_dl := s.b_dl, l_dc := s.l_dc
    c_dl := s.c_dl, c_lw := s.c_lw, c_l := s.c_l }

/-- StringClassifier.from_dict: overwrite every serialized field of the
receiving instance; the generator state is untouched (numpy's global
generator is not serialized). -/
def fromDict (s : State) (m : ModelDict) : State :=
  { s with alpha := m.alpha, beta := m.beta
           labelCount := m.labelCount, docCount := m.docCount, wordCount := m.wordCount
           labelToId := m.labelToId, wordToId := m.wordToId
           w_dc := m.w_dc, b_dl := m.b_dl, l_dc := m.l_dc
           c_dl := m.c_dl, c_lw := m.c_lw, c_l := m.c_l }

/-- The Gibbs token update exactly as claim C1 describes it: decrement the
three counts for (d, w, l); for each label i take
mask * (docLabelCount + alpha) / (docRowSum + labelCount * alpha)
     * (labelWordCount + beta) / (labelTotal + wordCount * beta)
with the cached label total c_l in the second denominator; normalize; draw
the new label from that categorical distribution; re-increment the three
counts for (d, w, new label). -/
def claimGibbsStep (s : State) (d c : ℕ) : State :=
  let w := getN s.w_dc d c
  let l := getN s.l_dc d c
  let s1 := updateCountingMatrices s d w l (-1)
  let probL := (List.range s1.labelCount).map (fun i =>
    ((getN s1.b_dl d i : ℕ) : ℚ) *
      ((((getZ s1.c_dl d i : ℤ) : ℚ) + s1.alpha) /
        (((rowSumZ s1.c_dl d : ℤ) : ℚ) + (s1.labelCount : ℚ) * s1.alpha)) *
      ((((getZ s1.c_lw i w : ℤ) : ℚ) + s1.beta) /
        (((s1.c_l.getD i 0 : ℤ) : ℚ) + (s1.wordCount : ℚ) * s1.beta)))
  let (r, g) := nextRand s1.rng
  let newL := catDraw (probL.map (fun p => p / probL.sum)) r
  let s2 := { s1 with l_dc := s1.l_dc.set d ((s1.l_dc.getD d []).set c newL)
                      rng := g }
  updateCountingMatrices s2 d w newL 1

/-- The unnormalized probability vector exactly as claim C1 states it, on
the decremented counts: the second denominator uses the cached label total
c_l. -/
def claimProb (s : State) (d c : ℕ) : List ℚ :=
  (List.range (inferMid s d c).labelCount).map (fun i =>
    ((getN (inferMid s d c).b_dl d i : ℕ) : ℚ) *
      ((((getZ (inferMid s d c).c_dl d i : ℤ) : ℚ) + (inferMid s d c).alpha) /
        (((rowSumZ (inferMid s d c).c_dl d : ℤ) : ℚ)
          + ((inferMid s d c).labelCount : ℚ) * (inferMid s d c).alpha)) *
      ((((getZ (inferMid s d c).c_lw i (inferW s d c) : ℤ) : ℚ)
          + (inferMid s d c).beta) /
        ((((inferMid s d c).c_l.getD i 0 : ℤ) : ℚ)
          + ((inferMid s d c).wordCount : ℚ) * (inferMid s d c).beta)))

/-- The label drawn by claim C1's step from the normalized claim vector. -/
def claimNewL (s : State) (d c : ℕ) : ℕ :=
  catDraw ((claimProb s d c).map (fun p => p / (claimProb s d c).sum))
    (nextRand (inferMid s d c).rng).1

/-- Histogram of assignments: how many tokens of doc d are assigned l. -/
def histDL (ldc : List (List ℕ)) (d l : ℕ) : ℤ :=
  (((ldc.getD d []).filter (fun a => a = l)).length : ℤ)

/-- Histogram of assignments: how many tokens in total are assigned l. -/
def histL (ldc : List (List ℕ)) (l : ℕ) : ℤ :=
  (ldc.map (fun row => (((row.filter (fun a => a = l)).length : ℕ) : ℤ))).sum

/-- Histogram of assignments: how many tokens of word w are assigned l. -/
def histLW (wdc ldc : List (List ℕ)) (l w : ℕ) : ℤ :=
  ((wdc.zip ldc).map (fun p =>
    ((((p.1.zip p.2).filter (fun q => q.1 = w ∧ q.2 = l)).length : ℕ) : ℤ))).sum

/-- The internal consistency invariant of a model state whose first k
documents have been initialized (assignment rows exist for exactly the
first k documents). -/
structure InvUpTo (s : State) (k : ℕ) : Prop where
  alphaPos : 0 < s.alpha
  betaPos : 0 < s.beta
  labelPos : 0 < s.labelCount
  labelReg : ∀ p ∈ s.labelToId, p.2 < s.labelCount
  wordReg : ∀ p ∈ s.wordToId, p.2 < s.wordCount
  defaultIdSome : ∃ i0, alookup defaultLabel s.labelToId = some i0
  defaultBit : ∀ d, d < s.docCount →
    getN s.b_dl d ((alookup defaultLabel s.labelToId).getD 0) = 1
  wdcLen : s.w_dc.length = s.docCount
  bdlLen : s.b_dl.length = s.docCount
  bdlRow : ∀ row ∈ s.b_dl, row.length = s.labelCount
  bdl01 : ∀ row ∈ s.b_dl, ∀ b ∈ row, b = 0 ∨ b = 1
  ldcLen : s.l_dc.length = k
  kLe : k ≤ s.docCount
  ldcRow : ∀ d, d < k → (s.l_dc.getD d []).length = (s.w_dc.getD d []).length
  wordsLt : ∀ row ∈ s.w_dc, ∀ w ∈ row, w < s.wordCount
  assignLt : ∀ d, ∀ a ∈ s.l_dc.getD d [], a < s.labelCount
  cdlLen : s.c_dl.length = s.docCount
  cdlRow : ∀ row ∈ s.c_dl, row.length = s.labelCount
  clwLen : s.c_lw.length = s.labelCount
  clwRow : ∀ row ∈ s.c_lw, row.length = s.wordCount
  clLen : s.c_l.length = s.labelCount
  cdlEq : ∀ d l, getZ s.c_dl d l = histDL s.l_dc d l
  clwEq : ∀ l w, getZ s.c_lw l w = histLW s.w_dc s.l_dc l w
  clEq : ∀ l, s.c_l.getD l 0 = histL s.l_dc l

/-- The invariant of a fully initialized model state. -/
def Inv (s : State) : Prop := InvUpTo s s.docCount

/-- States reachable through the public operations of a constructed engine:
a first load, then any interleaving of further loads, incremental adds and
inference passes over valid doc ids. -/
inductive Reachable : State → Prop
  | load : ∀ ex its, Reachable (loadExamples init ex its)
  | loadAgain : ∀ s ex its, Reachable s → Reachable (loadExamples s ex its)
  | add : ∀ s ex its, Reachable s → Reachable (addExamples s ex its).1
  | infer : ∀ s ds, Reachable s → (∀ d ∈ ds, d < s.docCount) →
      Reachable (inferDocs s ds).1

/-- The word registry maps into the allocated id range. -/
def WordReg (t : State) : Prop := ∀ p ∈ t.wordToId, p.2 < t.wordCount

/-- The second state agrees with the first except on the word registry. -/
def SameNonWord (t t' : State) : Prop :=
  t'.alpha = t.alpha ∧ t'.beta = t.beta ∧ t'.labelCount = t.labelCount
    ∧ t'.labelToId = t.labelToId ∧ t'.docCount = t.docCount
    ∧ t'.w_dc = t.w_dc ∧ t'.b_dl = t.b_dl ∧ t'.l_dc = t.l_dc
    ∧ t'.c_dl = t.c_dl ∧ t'.c_lw = t.c_lw ∧ t'.c_l = t.c_l ∧ t'.rng = t.rng

/-- The label registry maps into the allocated id range. -/
def LabelReg (t : State) : Prop := ∀ p ∈ t.labelToId, p.2 < t.labelCount

/-- The second state agrees with the first except on the label registry. -/
def SameNonLabel (t t' : State) : Prop :=
  t'.alpha = t.alpha ∧ t'.beta = t.beta ∧ t'.wordCount = t.wordCount
    ∧ t'.wordToId = t.wordToId ∧ t'.docCount = t.docCount
    ∧ t'.w_dc = t.w_dc ∧ t'.b_dl = t.b_dl ∧ t'.l_dc = t.l_dc
    ∧ t'.c_dl = t.c_dl ∧ t'.c_lw = t.c_lw ∧ t'.c_l = t.c_l ∧ t'.rng = t.rng

/-- The state built by load_examples before _init_docs runs: fresh
registries, documents, masks and zeroed count matrices. -/
def loadSetup (s : State) (examples : List TrainExample) : State :=
  let (docs, labels) := parseExamples examples
  let labelSet := dedupFirst (defaultLabel :: labels.foldr (· ++ ·) [])
  let s1 := { s with labelCount := labelSet.length
                     labelToId := labelSet.enum.map (fun p => (p.2, p.1))
                     wordCount := 0, wordToId := []
                     docCount := docs.length }
  let (bList, s2) := mapState getLabelVector s1 labels
  let (wList, s3) := mapState (fun t doc => mapState getWordId t doc) s2 docs
  { s3 with b_dl := bList
            w_dc := wList
            l_dc := []
            c_dl := List.replicate docs.length (List.replicate labelSet.length (0 : ℤ))
            c_lw := List.replicate labelSet.length (List.replicate s3.wordCount (0 : ℤ))
            c_l := List.replicate labelSet.length (0 : ℤ) }

/-- Count of (word id, label id) pairs carrying the given label. -/
def pairCountL (ps : List (ℕ × ℕ)) (i : ℕ) : ℤ :=
  ((ps.filter (fun q => q.2 = i)).length : ℤ)

/-- Count of (word id, label id) pairs carrying the given word and label. -/
def pairCountLW (ps : List (ℕ × ℕ)) (i w : ℕ) : ℤ :=
  ((ps.filter (fun q => q.1 = w ∧ q.2 = i)).length : ℤ)

/-- The shapes of the three count matrices match the registry sizes. -/
def ShapeOk (t : State) : Prop :=
  t.c_dl.length = t.docCount ∧ (∀ row ∈ t.c_dl, row.length = t.labelCount)
    ∧ t.c_lw.length = t.labelCount ∧ (∀ row ∈ t.c_lw, row.length = t.wordCount)
    ∧ t.c_l.length = t.labelCount

/-- The second state agrees with the first on every field other than the
three count matrices. -/
def SameSkel (t t' : State) : Prop :=
  t'.alpha = t.alpha ∧ t'.beta = t.beta ∧ t'.labelCount = t.labelCount
    ∧ t'.labelToId = t.labelToId ∧ t'.wordCount = t.wordCount
    ∧ t'.wordToId = t.wordToId ∧ t'.docCount = t.docCount
    ∧ t'.w_dc = t.w_dc ∧ t'.b_dl = t.b_dl ∧ t'.l_dc = t.l_dc ∧ t'.rng = t.rng

/-- The second state agrees with the first on every field other than the
count matrices, the assignment store and the generator state. -/
def SameCore (t t' : State) : Prop :=
  t'.alpha = t.alpha ∧ t'.beta = t.beta ∧ t'.labelCount = t.labelCount
    ∧ t'.labelToId = t.labelToId ∧ t'.wordCount = t.wordCount
    ∧ t'.wordToId = t.wordToId ∧ t'.docCount = t.docCount
    ∧ t'.w_dc = t.w_dc ∧ t'.b_dl = t.b_dl

/-- The label set computed by load_examples. -/
def loadLabelSet (examples : List TrainExample) : List String :=
  dedupFirst (defaultLabel :: ((parseExamples examples).2.foldr (· ++ ·) []))

/-- The state of load_examples after resetting the registries. -/
def loadS1 (s : State) (examples : List TrainExample) : State :=
  { s with labelCount := (loadLabelSet examples).length
           labelToId := ((loadLabelSet examples).enum.map (fun p => (p.2, p.1)))
           wordCount := 0, wordToId := []
           docCount := (parseExamples examples).1.length }

/-- The mask rows built by load_examples. -/
def loadBList (s : State) (examples : List TrainExample) : List (List ℕ) :=
  (mapState getLabelVector (loadS1 s examples) (parseExamples examples).2).1

/-- The state of load_examples after building the mask rows. -/
def loadS2 (s : State) (examples : List TrainExample) : State :=
  (mapState getLabelVector (loadS1 s examples) (parseExamples examples).2).2

/-- The word-id documents built by load_examples. -/
def loadWList (s : State) (examples : List TrainExample) : List (List ℕ) :=
  (mapState (fun t doc => mapState getWordId t doc) (loadS2 s examples)
    (parseExamples examples).1).1

/-- The state of load_examples after registering the words. -/
def loadS3 (s : State) (examples : List TrainExample) : State :=
  (mapState (fun t doc => mapState getWordId t doc) (loadS2 s examples)
    (parseExamples examples).1).2

/-- The label-registration fold of add_examples:
`[map(self._get_label_id, label_list) for label_list in labels]`. -/
def addS1 (s : State) (examples : List TrainExample) : State :=
  (parseExamples examples).2.foldl
    (fun t ls => ls.foldl (fun u lab => (getLabelId u lab).2) t) s

/-- The state of add_examples after extending the document counter. -/
def addS2 (s : State) (examples : List TrainExample) : State :=
  { addS1 s examples with
    docCount := ((addS1 s examples).docCount + (parseExamples examples).1.length) }

/-- The state of add_examples after zero-padding the mask columns. -/
def addS3 (s : State) (examples : List TrainExample) : State :=
  { addS2 s examples with
    b_dl := ((addS2 s examples).b_dl.map
      (fun row => row ++ List.replicate ((addS2 s examples).labelCount - s.labelCount) 0)) }

/-- The mask rows of the documents added by add_examples. -/
def addBList (s : State) (examples : List TrainExample) : List (List ℕ) :=
  (mapState getLabelVector (addS3 s examples) (parseExamples examples).2).1

/-- The state of add_examples after building the new mask rows. -/
def addS4 (s : State) (examples : List TrainExample) : State :=
  (mapState getLabelVector (addS3 s examples) (parseExamples examples).2).2

/-- The state of add_examples after appending the new mask rows. -/
def addS5 (s : State) (examples : List TrainExample) : State :=
  { addS4 s examples with b_dl := ((addS4 s examples).b_dl ++ addBList s examples) }

/-- The word-id documents added by add_examples. -/
def addWList (s : State) (examples : List TrainExample) : List (List ℕ) :=
  (mapState (fun t doc => mapState getWordId t doc) (addS5 s examples)
    (parseExamples examples).1).1

/-- The state of add_examples after registering the new words. -/
def addS6 (s : State) (examples : List TrainExample) : State :=
  (mapState (fun t doc => mapState getWordId t doc) (addS5 s examples)
    (parseExamples examples).1).2

/-- The state of add_examples after appending the new documents. -/
def addS7 (s : State) (examples : List TrainExample) : State :=
  { addS6 s examples with w_dc := ((addS6 s examples).w_dc ++ addWList s examples) }

/-- The state of add_examples after zero-padding the doc-label counts. -/
def addS8 (s : State) (examples : List TrainExample) : State :=
  { addS7 s examples with c_dl :=
    (((addS7 s examples).c_dl.map
      (fun row => row ++ List.replicate ((addS7 s examples).labelCount - s.labelCount) (0 : ℤ)))
      ++ List.replicate ((addS7 s examples).docCount - s.docCount)
          (List.replicate ((addS7 s examples).labelCount) (0 : ℤ))) }

/-- The state of add_examples after zero-padding the label-word counts. -/
def addS9 (s : State) (examples : List TrainExample) : State :=
  { addS8 s examples with c_lw :=
    (((addS8 s examples).c_lw.map
      (fun row => row ++ List.replicate ((addS8 s examples).wordCount - s.wordCount) (0 : ℤ)))
      ++ List.replicate ((addS8 s examples).labelCount - s.labelCount)
          (List.replicate ((addS8 s examples).wordCount) (0 : ℤ))) }

/-- The state of add_examples after zero-padding the label totals: the full
setup of add_examples before the per-document init/train loop. -/
def addS10 (s : State) (examples : List TrainExample) : State :=
  { addS9 s examples with c_l :=
    ((addS9 s examples).c_l
      ++ List.replicate ((addS9 s examples).labelCount - s.labelCount) (0 : ℤ)) }

/-- The final state of add_examples: each new document initialized and
trained in turn. -/
def addS11 (s : State) (examples : List TrainExample) (its : ℕ) : State :=
  (List.range' s.docCount ((addS10 s examples).docCount - s.docCount)).foldl
    (fun t d => trainDocs (initDoc false t d) its [d]) (addS10 s examples)

/-- A model trained on one unlabeled example: its label set is only the
default label, so document 0 carries probability 1 on the default label. -/
def c5model : State := loadExamples init [("hello world", [])] 0

/-- A model trained on one labeled two-token example. -/
def c8model : State := loadExamples init [("a b", ["x"])] 0

/-- A model used to witness the add_examples frame property. -/
def c6model : State := loadExamples init [("a b", ["x"])] 0

/-- A model with two differently labeled examples: each document's mask
has two set bits (its own label and the default), so the integer division
labels / labels.sum() of the load path zeroes the whole vector and every
token is assigned the last label index, including document 0's tokens,
whose mask bit for that label is 0. -/
def c9model : State := loadExamples init [("a b", ["x"]), ("c d", ["y"])] 0

/-- A model used to witness the Gibbs-step refinement. -/
def c1model : State := loadExamples init [("a b", ["x"])] 0

/-- A model used to witness the counting invariants. -/
def c2model : State := loadExamples init [("a b", ["x"])] 0

/-- A model used to witness the row-sum invariant. -/
def c3model : State := loadExamples init [("a b", ["x"])] 0

/-- A model used to witness the serialization round trip. -/
def c4model : State := loadExamples init [("a b", ["x"])] 0

/-- A model used to witness the mask-safety property. -/
def c10model : State := loadExamples init [("a b", ["x"])] 0

/-! ### Generic list lemmas -/

theorem getD_set_eq (xs : List α) (i : ℕ) (v d0 : α) (h : i < xs.length) :
    (xs.set i v).getD i d0 = v := by
  induction xs generalizing i with
  | nil => simp at h
  | cons x xs ih =>
    cases i with
    | zero => rfl
    | succ n => simpa using ih n (by simpa using h)

theorem getD_set_ne (xs : List α) (i j : ℕ) (v d0 : α) (h : i ≠ j) :
    (xs.set i v).getD j d0 = xs.getD j d0 := by
  induction xs generalizing i j with
  | nil => simp
  | cons x xs ih =>
    cases i with
    | zero =>
      cases j with
      | zero => exact absurd rfl h
      | succ m => simp [List.getD]
    | succ n =>
      cases j with
      | zero => simp [List.getD]
      | succ m => simpa using ih n m (fun hc => h (by simp [hc]))

theorem set_of_length_le (xs : List α) (i : ℕ) (v : α) (h : xs.length ≤ i) :
    xs.set i v = xs := by
  induction xs generalizing i with
  | nil => rfl
  | cons x xs ih =>
    cases i with
    | zero => simp at h
    | succ n => simpa using ih n (by simpa using h)

theorem getD_mem (xs : List α) (i : ℕ) (d0 : α) (h : i < xs.length) :
    xs.getD i d0 ∈ xs := by
  induction xs generalizing i with
  | nil => simp at h
  | cons x xs ih =>
    cases i with
    | zero => simp [List.getD]
    | succ n =>
      simp only [List.getD_cons_succ]
      exact List.mem_cons_of_mem _ (ih n (by simpa using h))

theorem getD_of_length_le (xs : List α) (i : ℕ) (d0 : α) (h : xs.length ≤ i) :
    xs.getD i d0 = d0 := by
  induction xs generalizing i with
  | nil => simp [List.getD]
  | cons x xs ih =>
    cases i with
    | zero => simp at h
    | succ n => simpa using ih n (by simpa using h)

theorem length_set' (xs : List α) (i : ℕ) (v : α) :
    (xs.set i v).length = xs.length := List.length_set xs i v

theorem sum_set (xs : List ℤ) (i : ℕ) (v : ℤ) (h : i < xs.length) :
    (xs.set i v).sum = xs.sum - xs.getD i 0 + v := by
  induction xs generalizing i with
  | nil => simp at h
  | cons x xs ih =>
    cases i with
    | zero => simp [List.getD]; ring
    | succ n =>
      simp only [List.set_cons_succ, List.sum_cons, List.getD_cons_succ]
      rw [ih n (by simpa using h)]
      ring

theorem map_sum_set (rows : List α) (f : α → ℤ) (i : ℕ) (v : α) (d0 : α)
    (h : i < rows.length) :
    ((rows.set i v).map f).sum = (rows.map f).sum - f (rows.getD i d0) + f v := by
  induction rows generalizing i with
  | nil => simp at h
  | cons x xs ih =>
    cases i with
    | zero => simp [List.getD]; ring
    | succ n =>
      simp only [List.set_cons_succ, List.map_cons, List.sum_cons, List.getD_cons_succ]
      rw [ih n (by simpa using h)]
      ring

theorem filter_length_set (p : α → Bool) (xs : List α) (i : ℕ) (b d0 : α)
    (h : i < xs.length) :
    (((xs.set i b).filter p).length : ℤ) =
      ((xs.filter p).length : ℤ) - (if p (xs.getD i d0) then 1 else 0)
        + (if p b then 1 else 0) := by
  induction xs generalizing i with
  | nil => simp at h
  | cons x xs ih =>
    cases i with
    | zero =>
      simp only [List.set_cons_zero, List.getD_cons_zero, List.filter_cons]
      by_cases hb : p b <;> by_cases hx : p x <;> simp [hb, hx]
    | succ n =>
      simp only [List.set_cons_succ, List.getD_cons_succ, List.filter_cons]
      by_cases hx : p x
      · simp only [hx, if_true, List.length_cons]
        push_cast
        rw [ih n (by simpa using h)]
        ring
      · simp only [hx, if_false]
        exact ih n (by simpa using h)

theorem zip_set_right (ws as : List α) (i : ℕ) (b d0 : α) (h : i < ws.length) :
    ws.zip (as.set i b) = (ws.zip as).set i (ws.getD i d0, b) := by
  induction ws generalizing as i with
  | nil => simp at h
  | cons w ws ih =>
    cases as with
    | nil => simp
    | cons a as =>
      cases i with
      | zero => simp [List.getD]
      | succ n =>
        simp only [List.set_cons_succ, List.zip_cons_cons, List.getD_cons_succ]
        rw [ih as n (by simpa using h)]

theorem sum_indicator (N a : ℕ) :
    (((List.range N).map (fun j => if a = j then (1 : ℤ) else 0)).sum) =
      if a < N then 1 else 0 := by
  induction N with
  | zero => simp
  | succ n ih =>
    rw [List.range_succ, List.map_append, List.sum_append, ih]
    by_cases h1 : a < n
    · simp [h1, Nat.lt_succ_of_lt h1, Nat.ne_of_lt h1]
    · by_cases h2 : a = n
      · simp [h2, Nat.lt_irrefl]
      · have : ¬ a < n + 1 := by omega
        simp [h1, h2, this]

theorem count_all (xs : List ℕ) (N : ℕ) (h : ∀ x ∈ xs, x < N) :
    ((List.range N).map (fun j => (((xs.filter (fun a => a = j)).length : ℕ) : ℤ))).sum
      = (xs.length : ℤ) := by
  induction xs with
  | nil => simp
  | cons x xs ih =>
    have hx : x < N := h x (List.mem_cons_self x xs)
    have hxs : ∀ y ∈ xs, y < N := fun y hy => h y (List.mem_cons_of_mem _ hy)
    have step : ∀ j : ℕ,
        ((((x :: xs).filter (fun a => a = j)).length : ℕ) : ℤ)
          = (if x = j then (1 : ℤ) else 0)
            + (((xs.filter (fun a => a = j)).length : ℕ) : ℤ) := by
      intro j
      by_cases hj : x = j
      · simp [List.filter_cons, hj]; omega
      · simp [List.filter_cons, hj]
    calc ((List.range N).map (fun j =>
            ((((x :: xs).filter (fun a => a = j)).length : ℕ) : ℤ))).sum
        = ((List.range N).map (fun j => (if x = j then (1 : ℤ) else 0)
            + (((xs.filter (fun a => a = j)).length : ℕ) : ℤ))).sum := by
          exact congrArg List.sum (List.map_congr_left (fun j _ => step j))
      _ = (((List.range N).map (fun j => if x = j then (1 : ℤ) else 0)).sum)
            + ((List.range N).map (fun j =>
                (((xs.filter (fun a => a = j)).length : ℕ) : ℤ))).sum := by
          rw [← List.sum_map_add]
      _ = ((x :: xs).length : ℤ) := by
          rw [sum_indicator, ih hxs]; simp [hx]; omega

theorem pair_count_all (ps : List (ℕ × ℕ)) (W l : ℕ) (h : ∀ p ∈ ps, p.1 < W) :
    ((List.range W).map (fun w =>
        (((ps.filter (fun q => q.1 = w ∧ q.2 = l)).length : ℕ) : ℤ))).sum
      = (((ps.filter (fun q => q.2 = l)).length : ℕ) : ℤ) := by
  induction ps with
  | nil => simp
  | cons p ps ih =>
    have hp : p.1 < W := h p (List.mem_cons_self p ps)
    have hps : ∀ q ∈ ps, q.1 < W := fun q hq => h q (List.mem_cons_of_mem _ hq)
    have step : ∀ w : ℕ,
        ((((p :: ps).filter (fun q => q.1 = w ∧ q.2 = l)).length : ℕ) : ℤ)
          = (if p.1 = w ∧ p.2 = l then (1 : ℤ) else 0)
            + (((ps.filter (fun q => q.1 = w ∧ q.2 = l)).length : ℕ) : ℤ) := by
      intro w
      by_cases hw : p.1 = w ∧ p.2 = l
      · simp [List.filter_cons, hw.1, hw.2]; omega
      · rcases not_and_or.1 hw with hw1 | hw2
        · simp [List.filter_cons, hw, hw1]
        · simp [List.filter_cons, hw, hw2]
    calc ((List.range W).map (fun w =>
            ((((p :: ps).filter (fun q => q.1 = w ∧ q.2 = l)).length : ℕ) : ℤ))).sum
        = ((List.range W).map (fun w => (if p.1 = w ∧ p.2 = l then (1 : ℤ) else 0)
            + (((ps.filter (fun q => q.1 = w ∧ q.2 = l)).length : ℕ) : ℤ))).sum := by
          exact congrArg List.sum (List.map_congr_left (fun w _ => step w))
      _ = (((List.range W).map (fun w => if p.1 = w ∧ p.2 = l then (1 : ℤ) else 0)).sum)
            + ((List.range W).map (fun w =>
                (((ps.filter (fun q => q.1 = w ∧ q.2 = l)).length : ℕ) : ℤ))).sum := by
          rw [← List.sum_map_add]
      _ = (((p :: ps).filter (fun q => q.2 = l)).length : ℤ) := by
          rw [ih hps]
          by_cases hl : p.2 = l
          · have heq : ∀ w : ℕ, (if p.1 = w ∧ p.2 = l then (1 : ℤ) else 0)
                = if p.1 = w then (1 : ℤ) else 0 := by
              intro w; by_cases hw : p.1 = w <;> simp [hw, hl]
            rw [List.map_congr_left (fun w _ => heq w) |> congrArg List.sum,
                sum_indicator]
            simp [List.filter_cons, hl, hp]
            omega
          · have heq : ∀ w : ℕ, (if p.1 = w ∧ p.2 = l then (1 : ℤ) else 0) = 0 := by
              intro w; simp [hl]
            rw [List.map_congr_left (fun w _ => heq w) |> congrArg List.sum]
            simp [List.filter_cons, hl]

theorem sum_eq_range_getD (xs : List ℤ) :
    xs.sum = ((List.range xs.length).map (fun j => xs.getD j 0)).sum := by
  induction xs with
  | nil => simp
  | cons x xs ih =>
    rw [List.sum_cons, ih]
    simp only [List.length_cons, List.range_succ_eq_map, List.map_cons,
      List.map_map, List.sum_cons]
    congr 1

theorem sum_map_idx (xs : List α) (ys : List β) (f : α → ℤ) (g : β → ℤ)
    (d0 : α) (d1 : β) (hlen : xs.length = ys.length)
    (h : ∀ i, i < xs.length → f (xs.getD i d0) = g (ys.getD i d1)) :
    (xs.map f).sum = (ys.map g).sum := by
  induction xs generalizing ys with
  | nil =>
    cases ys with
    | nil => simp
    | cons y ys => simp at hlen
  | cons x xs ih =>
    cases ys with
    | nil => simp at hlen
    | cons y ys =>
      simp only [List.map_cons, List.sum_cons]
      have h0 := h 0 (by simp)
      simp only [List.getD_cons_zero] at h0
      rw [h0, ih ys (by simpa using hlen)
        (fun i hi => by simpa using h (i + 1) (by simpa using hi))]

theorem getD_map_lt (xs : List α) (f : α → β) (i : ℕ) (d0 : β) (d1 : α)
    (h : i < xs.length) : (xs.map f).getD i d0 = f (xs.getD i d1) := by
  induction xs generalizing i with
  | nil => simp at h
  | cons x xs ih =>
    cases i with
    | zero => rfl
    | succ n => simpa using ih n (by simpa using h)

theorem count_pos_of_getD (xs : List ℕ) (c : ℕ) (h : c < xs.length) :
    1 ≤ (((xs.filter (fun a => a = xs.getD c 0)).length : ℕ) : ℤ) := by
  have hm : xs.getD c 0 ∈ xs.filter (fun a => a = xs.getD c 0) := by
    rw [List.mem_filter]
    exact ⟨getD_mem xs c 0 h, by simp⟩
  have : 0 < (xs.filter (fun a => a = xs.getD c 0)).length :=
    List.length_pos.2 (List.ne_nil_of_mem hm)
  exact_mod_cast this

theorem single_le_sum_q (xs : List ℚ) (h : ∀ x ∈ xs, 0 ≤ x) (a : ℚ) (ha : a ∈ xs) :
    a ≤ xs.sum := by
  induction xs with
  | nil => simp at ha
  | cons x xs ih =>
    rw [List.sum_cons]
    rcases List.mem_cons.1 ha with rfl | hmem
    · have : (0 : ℚ) ≤ xs.sum :=
        List.sum_nonneg (fun y hy => h y (List.mem_cons_of_mem _ hy))
      linarith
    · have hx : 0 ≤ x := h x (List.mem_cons_self x xs)
      have := ih (fun y hy => h y (List.mem_cons_of_mem _ hy)) hmem
      linarith

/-! ### Matrix access and update lemmas -/

theorem zip_getD (ws : List α) (ls : List β) (i : ℕ) (a0 : α) (b0 : β)
    (h1 : i < ws.length) (h2 : i < ls.length) :
    (ws.zip ls).getD i (a0, b0) = (ws.getD i a0, ls.getD i b0) := by
  induction ws generalizing ls i with
  | nil => simp at h1
  | cons x xs ih =>
    cases ls with
    | nil => simp at h2
    | cons y ys =>
      cases i with
      | zero => rfl
      | succ n => simpa using ih ys n (by simpa using h1) (by simpa using h2)

theorem getZ_setZ (M : Mat) (i j : ℕ) (v : ℤ) (i' j' : ℕ)
    (hi : i < M.length) (hj : j < (M.getD i []).length) :
    getZ (setZ M i j v) i' j' = if i' = i ∧ j' = j then v else getZ M i' j' := by
  by_cases hii : i' = i
  · subst hii
    by_cases hjj : j' = j
    · subst hjj
      simp only [getZ, setZ]
      rw [getD_set_eq _ _ _ _ hi, getD_set_eq _ _ _ _ hj]
      simp
    · simp only [getZ, setZ]
      rw [getD_set_eq _ _ _ _ hi, getD_set_ne _ _ _ _ _ (fun h => hjj h.symm)]
      simp [hjj]
  · simp only [getZ, setZ]
    rw [getD_set_ne _ _ _ _ _ (fun h => hii h.symm)]
    simp [hii]

theorem setZ_length (M : Mat) (i j : ℕ) (v : ℤ) :
    (setZ M i j v).length = M.length := by
  simp [setZ]

theorem setZ_row_length (M : Mat) (i j : ℕ) (v : ℤ) (i' : ℕ) :
    ((setZ M i j v).getD i' []).length = (M.getD i' []).length := by
  by_cases h : i < M.length
  · by_cases hii : i' = i
    · subst hii
      simp only [setZ]
      rw [getD_set_eq _ _ _ _ h]
      simp
    · simp only [setZ]
      rw [getD_set_ne _ _ _ _ _ (fun hh => hii hh.symm)]
  · simp only [setZ]
    rw [set_of_length_le _ _ _ (Nat.le_of_not_lt h)]

theorem updateCM_c_dl (s : State) (d w l : ℕ) (v : ℤ) (d' l' : ℕ)
    (hd : d < s.c_dl.length) (hl : l < (s.c_dl.getD d []).length) :
    getZ (updateCountingMatrices s d w l v).c_dl d' l'
      = getZ s.c_dl d' l' + (if d' = d ∧ l' = l then v else 0) := by
  show getZ (setZ s.c_dl d l (getZ s.c_dl d l + v)) d' l' = _
  rw [getZ_setZ _ _ _ _ _ _ hd hl]
  by_cases h : d' = d ∧ l' = l
  · rcases h with ⟨h1, h2⟩; subst h1; subst h2; simp
  · simp [h]

theorem updateCM_c_lw (s : State) (d w l : ℕ) (v : ℤ) (l' w' : ℕ)
    (hl : l < s.c_lw.length) (hw : w < (s.c_lw.getD l []).length) :
    getZ (updateCountingMatrices s d w l v).c_lw l' w'
      = getZ s.c_lw l' w' + (if l' = l ∧ w' = w then v else 0) := by
  show getZ (setZ s.c_lw l w (getZ s.c_lw l w + v)) l' w' = _
  rw [getZ_setZ _ _ _ _ _ _ hl hw]
  by_cases h : l' = l ∧ w' = w
  · rcases h with ⟨h1, h2⟩; subst h1; subst h2; simp
  · simp [h]

theorem updateCM_c_l (s : State) (d w l : ℕ) (v : ℤ) (l' : ℕ)
    (hl : l < s.c_l.length) :
    (updateCountingMatrices s d w l v).c_l.getD l' 0
      = s.c_l.getD l' 0 + (if l' = l then v else 0) := by
  show (s.c_l.set l (s.c_l.getD l 0 + v)).getD l' 0 = _
  by_cases h : l' = l
  · subst h; rw [getD_set_eq _ _ _ _ hl]; simp
  · rw [getD_set_ne _ _ _ _ _ (fun hh => h hh.symm)]; simp [h]

theorem updateCM_rowSum_cdl (s : State) (d w l : ℕ) (v : ℤ) (d' : ℕ)
    (hd : d < s.c_dl.length) (hl : l < (s.c_dl.getD d []).length) :
    rowSumZ (updateCountingMatrices s d w l v).c_dl d'
      = rowSumZ s.c_dl d' + (if d' = d then v else 0) := by
  show rowSumZ (setZ s.c_dl d l (getZ s.c_dl d l + v)) d' = _
  by_cases h : d' = d
  · subst h
    simp only [setZ, rowSumZ, getD_set_eq _ _ _ _ hd]
    rw [sum_set _ _ _ hl]
    simp [getZ]
    ring
  · simp only [setZ, rowSumZ]
    rw [getD_set_ne _ _ _ _ _ (fun hh => h hh.symm)]
    simp [h]

theorem updateCM_rowSum_clw (s : State) (d w l : ℕ) (v : ℤ) (l' : ℕ)
    (hl : l < s.c_lw.length) (hw : w < (s.c_lw.getD l []).length) :
    rowSumZ (updateCountingMatrices s d w l v).c_lw l'
      = rowSumZ s.c_lw l' + (if l' = l then v else 0) := by
  show rowSumZ (setZ s.c_lw l w (getZ s.c_lw l w + v)) l' = _
  by_cases h : l' = l
  · subst h
    simp only [setZ, rowSumZ, getD_set_eq _ _ _ _ hl]
    rw [sum_set _ _ _ hw]
    simp [getZ]
    ring
  · simp only [setZ, rowSumZ]
    rw [getD_set_ne _ _ _ _ _ (fun hh => h hh.symm)]
    simp [h]

/-! ### Drawing lemmas -/

theorem catDraw_spec (p : List ℚ) (r : ℚ) (h : ∃ q ∈ p, 0 < q) :
    catDraw p r < p.length ∧ 0 < p.getD (catDraw p r) 0 := by
  induction p generalizing r with
  | nil => simp at h
  | cons q qs ih =>
    by_cases hq : 0 < q
    · by_cases hr : r < q
      · simp [catDraw, hq, hr, List.getD]
      · by_cases hqs : qs.any (fun x => 0 < x)
        · have hex : ∃ x ∈ qs, 0 < x := by
            simpa [List.any_eq_true] using hqs
          have hrec := ih (r - q) hex
          simp only [catDraw, if_pos hq, if_neg hr, if_pos hqs]
          exact ⟨by simpa using Nat.succ_lt_succ hrec.1,
            by simpa [List.getD] using hrec.2⟩
        · simp [catDraw, hq, hr, hqs, List.getD]
    · have hex : ∃ x ∈ qs, 0 < x := by
        rcases h with ⟨x, hx, hpos⟩
        rcases List.mem_cons.1 hx with rfl | hmem
        · exact absurd hpos hq
        · exact ⟨x, hmem, hpos⟩
      have hrec := ih r hex
      simp only [catDraw, if_neg hq]
      exact ⟨by simpa using Nat.succ_lt_succ hrec.1,
        by simpa [List.getD] using hrec.2⟩

/-! ### Histogram update lemmas -/

theorem histDL_set (ldc : List (List ℕ)) (d c b : ℕ)
    (hd : d < ldc.length) (hc : c < (ldc.getD d []).length) (d' t : ℕ) :
    histDL (ldc.set d ((ldc.getD d []).set c b)) d' t
      = histDL ldc d' t
        - (if d' = d ∧ (ldc.getD d []).getD c 0 = t then 1 else 0)
        + (if d' = d ∧ b = t then 1 else 0) := by
  by_cases h : d' = d
  · subst h
    unfold histDL
    rw [getD_set_eq _ _ _ _ hd,
      filter_length_set (fun a => decide (a = t)) _ c b 0 hc]
    simp
  · unfold histDL
    rw [getD_set_ne _ _ _ _ _ (fun hh => h hh.symm)]
    simp [h]

theorem histL_set (ldc : List (List ℕ)) (d c b : ℕ)
    (hd : d < ldc.length) (hc : c < (ldc.getD d []).length) (t : ℕ) :
    histL (ldc.set d ((ldc.getD d []).set c b)) t
      = histL ldc t
        - (if (ldc.getD d []).getD c 0 = t then 1 else 0)
        + (if b = t then 1 else 0) := by
  unfold histL
  rw [map_sum_set ldc _ d _ [] hd,
    filter_length_set (fun a => decide (a = t)) _ c b 0 hc]
  simp only [decide_eq_true_eq]
  ring

theorem histLW_set (wdc ldc : List (List ℕ)) (d c b : ℕ)
    (hd : d < ldc.length) (hw : d < wdc.length)
    (hc : c < (ldc.getD d []).length)
    (hlen : (wdc.getD d []).length = (ldc.getD d []).length) (l w : ℕ) :
    histLW wdc (ldc.set d ((ldc.getD d []).set c b)) l w
      = histLW wdc ldc l w
        - (if (wdc.getD d []).getD c 0 = w ∧ (ldc.getD d []).getD c 0 = l then 1 else 0)
        + (if (wdc.getD d []).getD c 0 = w ∧ b = l then 1 else 0) := by
  have hcw : c < (wdc.getD d []).length := by rw [hlen]; exact hc
  have hzlen : d < (wdc.zip ldc).length := by
    rw [List.length_zip]; exact lt_min hw hd
  unfold histLW
  rw [zip_set_right wdc ldc d _ [] hw,
    map_sum_set (wdc.zip ldc) _ d _ ([], []) hzlen,
    zip_getD wdc ldc d [] [] hw hd]
  simp only
  rw [zip_set_right _ _ c b 0 hcw,
    filter_length_set (fun q => decide (q.1 = w ∧ q.2 = l)) _ c _ (0, 0) (by
      rw [List.length_zip]; exact lt_min hcw hc),
    zip_getD _ _ c 0 0 hcw hc]
  simp only [decide_eq_true_eq]
  ring

/-! ### Append, zip and counting helpers -/

theorem getD_append_lt (xs ys : List α) (i : ℕ) (d0 : α) (h : i < xs.length) :
    (xs ++ ys).getD i d0 = xs.getD i d0 := by
  induction xs generalizing i with
  | nil => simp at h
  | cons x xs ih =>
    cases i with
    | zero => rfl
    | succ n => simpa using ih n (by simpa using h)

theorem getD_append_ge (xs ys : List α) (i : ℕ) (d0 : α) (h : xs.length ≤ i) :
    (xs ++ ys).getD i d0 = ys.getD (i - xs.length) d0 := by
  induction xs generalizing i with
  | nil => simp
  | cons x xs ih =>
    cases i with
    | zero => simp at h
    | succ n => simpa using ih n (by simpa using h)

theorem zip_append_one (ws ls : List α) (x : α) (d0 : α)
    (h : ls.length < ws.length) :
    ws.zip (ls ++ [x]) = (ws.zip ls) ++ [(ws.getD ls.length d0, x)] := by
  induction ws generalizing ls with
  | nil => simp at h
  | cons w ws ih =>
    cases ls with
    | nil =>
      cases ws with
      | nil => rfl
      | cons w' ws' => rfl
    | cons l ls' =>
      simp only [List.cons_append, List.zip_cons_cons, List.length_cons,
        List.getD_cons_succ]
      rw [ih ls' (by simpa using h)]

theorem zip_snd (ws ls : List α) (h : ls.length ≤ ws.length) :
    (ws.zip ls).map Prod.snd = ls := by
  induction ws generalizing ls with
  | nil =>
    cases ls with
    | nil => rfl
    | cons l ls' => simp at h
  | cons w ws ih =>
    cases ls with
    | nil => rfl
    | cons l ls' =>
      simp only [List.zip_cons_cons, List.map_cons]
      rw [ih ls' (by simpa using h)]

theorem filter_snd_length (ps : List (ℕ × ℕ)) (l : ℕ) :
    (ps.filter (fun q => q.2 = l)).length
      = ((ps.map Prod.snd).filter (fun a => a = l)).length := by
  induction ps with
  | nil => rfl
  | cons q qs ih =>
    by_cases h : q.2 = l
    · simp [List.filter_cons, h, ih]
    · simp [List.filter_cons, h, ih]

theorem nat_le_sum (l : List ℕ) (a : ℕ) (h : a ∈ l) : a ≤ l.sum := by
  induction l with
  | nil => simp at h
  | cons x xs ih =>
    rcases List.mem_cons.1 h with rfl | hmem
    · simp
    · simp only [List.sum_cons]
      exact le_add_of_nonneg_of_le (Nat.zero_le x) (ih hmem)

theorem int_single_le_sum (l : List ℤ) (h : ∀ x ∈ l, 0 ≤ x) (a : ℤ) (ha : a ∈ l) :
    a ≤ l.sum := by
  induction l with
  | nil => simp at ha
  | cons x xs ih =>
    rw [List.sum_cons]
    rcases List.mem_cons.1 ha with rfl | hmem
    · have : (0 : ℤ) ≤ xs.sum :=
        List.sum_nonneg (fun y hy => h y (List.mem_cons_of_mem _ hy))
      linarith
    · have hx : 0 ≤ x := h x (List.mem_cons_self x xs)
      have := ih (fun y hy => h y (List.mem_cons_of_mem _ hy)) hmem
      linarith

theorem range_getD (n i : ℕ) (h : i < n) : (List.range n).getD i 0 = i := by
  induction n with
  | zero => simp at h
  | succ m ih =>
    rw [List.range_succ]
    by_cases hi : i < m
    · rw [getD_append_lt _ _ _ _ (by simpa using hi)]
      exact ih hi
    · have : i = m := by omega
      subst this
      rw [getD_append_ge _ _ _ _ (by simp)]
      simp

theorem sum_pos_of_mem (l : List ℚ) (h0 : ∀ x ∈ l, 0 ≤ x) (a : ℚ)
    (ha : a ∈ l) (hpos : 0 < a) : 0 < l.sum :=
  lt_of_lt_of_le hpos (single_le_sum_q l h0 a ha)

/-! ### Row sums of count matrices as histogram sums -/

theorem histL_nonneg (ldc : List (List ℕ)) (l : ℕ) : 0 ≤ histL ldc l := by
  unfold histL
  exact List.sum_nonneg (by
    intro x hx
    rcases List.mem_map.1 hx with ⟨row, _, rfl⟩
    positivity)

theorem histDL_nonneg (ldc : List (List ℕ)) (d l : ℕ) : 0 ≤ histDL ldc d l := by
  unfold histDL
  positivity

theorem histLW_nonneg (wdc ldc : List (List ℕ)) (l w : ℕ) :
    0 ≤ histLW wdc ldc l w := by
  unfold histLW
  exact List.sum_nonneg (by
    intro x hx
    rcases List.mem_map.1 hx with ⟨p, _, rfl⟩
    positivity)

theorem histDL_le_histL (ldc : List (List ℕ)) (d l : ℕ) (hd : d < ldc.length) :
    histDL ldc d l ≤ histL ldc l := by
  unfold histDL histL
  refine int_single_le_sum _ (by
    intro x hx
    rcases List.mem_map.1 hx with ⟨row, _, rfl⟩
    positivity) _ ?_
  refine List.mem_map.2 ⟨ldc.getD d [], getD_mem _ _ _ hd, rfl⟩

theorem histLW_pos (wdc ldc : List (List ℕ)) (d c l w : ℕ)
    (hd : d < ldc.length) (hw : d < wdc.length)
    (hc : c < (ldc.getD d []).length) (hcw : c < (wdc.getD d []).length)
    (hl : (ldc.getD d []).getD c 0 = l) (hww : (wdc.getD d []).getD c 0 = w) :
    1 ≤ histLW wdc ldc l w := by
  subst hl; subst hww
  have hz : d < (wdc.zip ldc).length := by
    rw [List.length_zip]; exact lt_min hw hd
  have hcz : c < ((wdc.getD d []).zip (ldc.getD d [])).length := by
    rw [List.length_zip]; exact lt_min hcw hc
  have hmem : (((wdc.getD d []).zip (ldc.getD d [])).filter
      (fun q => decide (q.1 = (wdc.getD d []).getD c 0
        ∧ q.2 = (ldc.getD d []).getD c 0))).length > 0 := by
    have hin : ((wdc.getD d []).zip (ldc.getD d [])).getD c (0, 0)
        ∈ ((wdc.getD d []).zip (ldc.getD d [])).filter
          (fun q => decide (q.1 = (wdc.getD d []).getD c 0
            ∧ q.2 = (ldc.getD d []).getD c 0)) := by
      rw [List.mem_filter]
      refine ⟨getD_mem _ _ _ hcz, ?_⟩
      rw [zip_getD _ _ c 0 0 hcw hc]
      simp
    exact List.length_pos.2 (List.ne_nil_of_mem hin)
  unfold histLW
  have helem : ((((wdc.getD d []).zip (ldc.getD d [])).filter
      (fun q => decide (q.1 = (wdc.getD d []).getD c 0
        ∧ q.2 = (ldc.getD d []).getD c 0))).length : ℤ)
      ∈ ((wdc.zip ldc).map (fun p =>
        ((((p.1.zip p.2).filter (fun q => q.1 = (wdc.getD d []).getD c 0
          ∧ q.2 = (ldc.getD d []).getD c 0)).length : ℕ) : ℤ))) := by
    refine List.mem_map.2 ⟨(wdc.getD d [], ldc.getD d []), ?_, rfl⟩
    have := getD_mem (wdc.zip ldc) d (([], []) : List ℕ × List ℕ) hz
    rwa [zip_getD wdc ldc d [] [] hw hd] at this
  calc (1 : ℤ) ≤ ((((wdc.getD d []).zip (ldc.getD d [])).filter
        (fun q => decide (q.1 = (wdc.getD d []).getD c 0
          ∧ q.2 = (ldc.getD d []).getD c 0))).length : ℤ) := by exact_mod_cast hmem
    _ ≤ _ := int_single_le_sum _ (by
        intro x hx
        rcases List.mem_map.1 hx with ⟨p, _, rfl⟩
        positivity) _ helem

theorem histLW_rowsum (wdc ldc : List (List ℕ)) (W l : ℕ)
    (hlen : ldc.length ≤ wdc.length)
    (hrow : ∀ d, d < ldc.length → (ldc.getD d []).length ≤ (wdc.getD d []).length)
    (hW : ∀ row ∈ wdc, ∀ w ∈ row, w < W) :
    ((List.range W).map (fun w => histLW wdc ldc l w)).sum = histL ldc l := by
  induction ldc generalizing wdc with
  | nil =>
    simp only [histL, List.map_nil, List.sum_nil]
    have : ∀ w : ℕ, histLW wdc [] l w = 0 := by
      intro w; simp [histLW]
    rw [List.map_congr_left (fun w _ => this w) |> congrArg List.sum]
    simp
  | cons lrow ldc' ih =>
    cases wdc with
    | nil => simp at hlen
    | cons wrow wdc' =>
      have hsplit : ∀ w : ℕ, histLW (wrow :: wdc') (lrow :: ldc') l w
          = (((wrow.zip lrow).filter (fun q => q.1 = w ∧ q.2 = l)).length : ℤ)
            + histLW wdc' ldc' l w := by
        intro w; simp [histLW]
      rw [List.map_congr_left (fun w _ => hsplit w) |> congrArg List.sum,
        List.sum_map_add]
      have hr0 : lrow.length ≤ wrow.length := by
        have := hrow 0 (by simp)
        simpa using this
      have hwr : ∀ w ∈ wrow, w < W := hW wrow (List.mem_cons_self _ _)
      have hz : ∀ p ∈ wrow.zip lrow, p.1 < W := by
        intro p hp
        exact hwr p.1 (List.of_mem_zip hp).1
      rw [pair_count_all _ _ _ hz,
        ih wdc' (by simpa using hlen)
          (fun d hd => by simpa using hrow (d + 1) (by simpa using hd))
          (fun row hrm => hW row (List.mem_cons_of_mem _ hrm))]
      have heq2 : ((wrow.zip lrow).filter (fun q => q.2 = l)).length
          = (lrow.filter (fun a => a = l)).length := by
        rw [filter_snd_length, zip_snd _ _ hr0]
      rw [heq2]
      simp [histL]

/-! ### Association list lemmas -/

theorem alookup_mem (k : String) (l : List (String × ℕ)) (v : ℕ)
    (h : alookup k l = some v) : ∃ p ∈ l, p.1 = k ∧ p.2 = v := by
  induction l with
  | nil => simp [alookup] at h
  | cons p ps ih =>
    by_cases hp : p.1 = k
    · refine ⟨p, List.mem_cons_self _ _, hp, ?_⟩
      simp [alookup, hp] at h
      omega
    · simp only [alookup, if_neg hp] at h
      rcases ih h with ⟨q, hq, hq1, hq2⟩
      exact ⟨q, List.mem_cons_of_mem _ hq, hq1, hq2⟩

theorem alookup_append_some (k : String) (xs ys : List (String × β)) (v : β)
    (h : alookup k xs = some v) : alookup k (xs ++ ys) = some v := by
  induction xs with
  | nil => simp [alookup] at h
  | cons p ps ih =>
    by_cases hp : p.1 = k
    · simpa [alookup, hp] using h
    · simp only [alookup, if_neg hp] at h ⊢
      simpa [List.cons_append, alookup, hp] using ih h

theorem alookup_isSome_iff (k : String) (l : List (String × ℕ)) :
    (alookup k l).isSome ↔ ∃ v, alookup k l = some v := by
  cases h : alookup k l with
  | none => simp
  | some v => simp

/-! ### Invariant consequences -/

theorem histL_zero_of_ge (ldc : List (List ℕ)) (L l : ℕ)
    (ha : ∀ d, ∀ a ∈ ldc.getD d [], a < L) (hl : L ≤ l) :
    histL ldc l = 0 := by
  unfold histL
  have : ∀ row ∈ ldc, (((row.filter (fun a => a = l)).length : ℕ) : ℤ) = 0 := by
    intro row hrow
    rcases List.mem_iff_get.1 hrow with ⟨n, rfl⟩
    have hn : (n : ℕ) < ldc.length := n.isLt
    have hrow' : ldc.get n = ldc.getD n [] := by
      rw [List.getD_eq_getElem _ _ hn, List.get_eq_getElem]
    have hfil : (ldc.get n).filter (fun a => a = l) = [] := by
      rw [List.filter_eq_nil_iff]
      intro a hmem
      have : a < L := by
        rw [hrow'] at hmem
        exact ha n a hmem
      simp only [decide_eq_true_eq]
      omega
    rw [hfil]
    rfl
  rw [List.map_congr_left this]
  simp

theorem inv_cdl_rowSum (s : State) (k : ℕ) (hv : InvUpTo s k) (d : ℕ) :
    rowSumZ s.c_dl d = ((s.l_dc.getD d []).length : ℤ) := by
  by_cases hd : d < s.docCount
  · have hrow : (s.c_dl.getD d []).length = s.labelCount :=
      hv.cdlRow _ (getD_mem _ _ _ (by rw [hv.cdlLen]; exact hd))
    unfold rowSumZ
    calc (s.c_dl.getD d []).sum
        = ((List.range (s.c_dl.getD d []).length).map
            (fun j => (s.c_dl.getD d []).getD j 0)).sum := sum_eq_range_getD _
      _ = ((List.range s.labelCount).map
            (fun j => (((s.l_dc.getD d []).filter (fun a => a = j)).length : ℤ))).sum := by
          rw [hrow]
          exact congrArg List.sum (List.map_congr_left (fun j _ => hv.cdlEq d j))
      _ = ((s.l_dc.getD d []).length : ℤ) := count_all _ _ (hv.assignLt d)
  · have h1 : s.c_dl.getD d [] = [] :=
      getD_of_length_le _ _ _ (by rw [hv.cdlLen]; omega)
    have h2 : s.l_dc.getD d [] = [] :=
      getD_of_length_le _ _ _ (by rw [hv.ldcLen]; have := hv.kLe; omega)
    rw [rowSumZ, h1, h2]
    simp

theorem inv_clw_rowSum (s : State) (k : ℕ) (hv : InvUpTo s k) (l : ℕ) :
    rowSumZ s.c_lw l = histL s.l_dc l := by
  by_cases hl : l < s.labelCount
  · have hrow : (s.c_lw.getD l []).length = s.wordCount :=
      hv.clwRow _ (getD_mem _ _ _ (by rw [hv.clwLen]; exact hl))
    unfold rowSumZ
    calc (s.c_lw.getD l []).sum
        = ((List.range (s.c_lw.getD l []).length).map
            (fun w => (s.c_lw.getD l []).getD w 0)).sum := sum_eq_range_getD _
      _ = ((List.range s.wordCount).map
            (fun w => histLW s.w_dc s.l_dc l w)).sum := by
          rw [hrow]
          exact congrArg List.sum (List.map_congr_left (fun w _ => hv.clwEq l w))
      _ = histL s.l_dc l := by
          refine histLW_rowsum _ _ _ _ ?_ ?_ hv.wordsLt
          · rw [hv.ldcLen, hv.wdcLen]; exact hv.kLe
          · intro d hd
            rw [hv.ldcRow d (by rw [hv.ldcLen] at hd; exact hd)]
  · have h1 : s.c_lw.getD l [] = [] :=
      getD_of_length_le _ _ _ (by rw [hv.clwLen]; omega)
    rw [rowSumZ, h1,
      histL_zero_of_ge s.l_dc s.labelCount l hv.assignLt (by omega)]
    rfl

theorem inv_clw_rowSum_eq_cl (s : State) (k : ℕ) (hv : InvUpTo s k) (l : ℕ) :
    rowSumZ s.c_lw l = s.c_l.getD l 0 := by
  rw [inv_clw_rowSum s k hv l, hv.clEq l]

/-! ### Shapes and the count-increment fold -/

theorem setZ_rows_length (M : Mat) (i j : ℕ) (v : ℤ) (c : ℕ)
    (h : ∀ row ∈ M, row.length = c) : ∀ row ∈ setZ M i j v, row.length = c := by
  intro row hrow
  by_cases hi : i < M.length
  · rcases List.mem_or_eq_of_mem_set hrow with hmem | rfl
    · exact h row hmem
    · rw [List.length_set]
      exact h _ (getD_mem _ _ _ hi)
  · rw [setZ, set_of_length_le _ _ _ (Nat.le_of_not_lt hi)] at hrow
    exact h row hrow

theorem updateCM_shape (s : State) (d w l : ℕ) (v : ℤ) (hs : ShapeOk s) :
    ShapeOk (updateCountingMatrices s d w l v) := by
  obtain ⟨h1, h2, h3, h4, h5⟩ := hs
  refine ⟨?_, ?_, ?_, ?_, ?_⟩
  · simpa [updateCountingMatrices, setZ_length] using h1
  · simpa [updateCountingMatrices] using setZ_rows_length _ d l _ _ h2
  · simpa [updateCountingMatrices, setZ_length] using h3
  · simpa [updateCountingMatrices] using setZ_rows_length _ l w _ _ h4
  · simpa [updateCountingMatrices] using h5

theorem updateCM_skel (s : State) (d w l : ℕ) (v : ℤ) :
    SameSkel s (updateCountingMatrices s d w l v) :=
  ⟨rfl, rfl, rfl, rfl, rfl, rfl, rfl, rfl, rfl, rfl, rfl⟩

theorem sameSkel_refl (t : State) : SameSkel t t :=
  ⟨rfl, rfl, rfl, rfl, rfl, rfl, rfl, rfl, rfl, rfl, rfl⟩

theorem sameSkel_trans (a b c : State) (h1 : SameSkel a b) (h2 : SameSkel b c) :
    SameSkel a c := by
  obtain ⟨x1, x2, x3, x4, x5, x6, x7, x8, x9, x10, x11⟩ := h1
  obtain ⟨y1, y2, y3, y4, y5, y6, y7, y8, y9, y10, y11⟩ := h2
  exact ⟨y1.trans x1, y2.trans x2, y3.trans x3, y4.trans x4, y5.trans x5,
    y6.trans x6, y7.trans x7, y8.trans x8, y9.trans x9, y10.trans x10,
    y11.trans x11⟩

theorem pairCountL_cons (p : ℕ × ℕ) (ps : List (ℕ × ℕ)) (i : ℕ) :
    pairCountL (p :: ps) i = (if p.2 = i then 1 else 0) + pairCountL ps i := by
  by_cases h : p.2 = i
  · simp [pairCountL, List.filter_cons, h]; omega
  · simp [pairCountL, List.filter_cons, h]

theorem pairCountLW_cons (p : ℕ × ℕ) (ps : List (ℕ × ℕ)) (i w : ℕ) :
    pairCountLW (p :: ps) i w
      = (if p.1 = w ∧ p.2 = i then 1 else 0) + pairCountLW ps i w := by
  by_cases h : p.1 = w ∧ p.2 = i
  · simp [pairCountLW, List.filter_cons, h.1, h.2]; omega
  · simp [pairCountLW, List.filter_cons, h]

theorem foldUpdate_spec (ps : List (ℕ × ℕ)) (t : State) (d : ℕ)
    (hs : ShapeOk t) (hd : d < t.docCount)
    (hp : ∀ p ∈ ps, p.1 < t.wordCount ∧ p.2 < t.labelCount) :
    SameSkel t (ps.foldl (fun u p => updateCountingMatrices u d p.1 p.2 1) t)
      ∧ ShapeOk (ps.foldl (fun u p => updateCountingMatrices u d p.1 p.2 1) t)
      ∧ (∀ d' i, getZ (ps.foldl (fun u p => updateCountingMatrices u d p.1 p.2 1) t).c_dl d' i
          = getZ t.c_dl d' i + (if d' = d then pairCountL ps i else 0))
      ∧ (∀ i w, getZ (ps.foldl (fun u p => updateCountingMatrices u d p.1 p.2 1) t).c_lw i w
          = getZ t.c_lw i w + pairCountLW ps i w)
      ∧ (∀ i, (ps.foldl (fun u p => updateCountingMatrices u d p.1 p.2 1) t).c_l.getD i 0
          = t.c_l.getD i 0 + pairCountL ps i) := by
  induction ps generalizing t with
  | nil =>
    refine ⟨sameSkel_refl t, hs, ?_, ?_, ?_⟩
    · intro d' i; simp [pairCountL]
    · intro i w; simp [pairCountLW]
    · intro i; simp [pairCountL]
  | cons p ps ih =>
    obtain ⟨h1, h2, h3, h4, h5⟩ := hs
    have hpw : p.1 < t.wordCount := (hp p (List.mem_cons_self _ _)).1
    have hpl : p.2 < t.labelCount := (hp p (List.mem_cons_self _ _)).2
    have hdl : d < t.c_dl.length := by rw [h1]; exact hd
    have hrowd : (t.c_dl.getD d []).length = t.labelCount :=
      h2 _ (getD_mem _ _ _ hdl)
    have hll : p.2 < t.c_lw.length := by rw [h3]; exact hpl
    have hroww : (t.c_lw.getD p.2 []).length = t.wordCount :=
      h4 _ (getD_mem _ _ _ hll)
    have hcl : p.2 < t.c_l.length := by rw [h5]; exact hpl
    have hs1 : ShapeOk (updateCountingMatrices t d p.1 p.2 1) :=
      updateCM_shape t d p.1 p.2 1 ⟨h1, h2, h3, h4, h5⟩
    have hskel1 : SameSkel t (updateCountingMatrices t d p.1 p.2 1) :=
      updateCM_skel t d p.1 p.2 1
    have hd1 : d < (updateCountingMatrices t d p.1 p.2 1).docCount := hd
    have hp1 : ∀ q ∈ ps, q.1 < (updateCountingMatrices t d p.1 p.2 1).wordCount
        ∧ q.2 < (updateCountingMatrices t d p.1 p.2 1).labelCount :=
      fun q hq => hp q (List.mem_cons_of_mem _ hq)
    have hrec := ih (updateCountingMatrices t d p.1 p.2 1) hs1 hd1 hp1
    rw [List.foldl_cons]
    refine ⟨sameSkel_trans _ _ _ hskel1 hrec.1, hrec.2.1, ?_, ?_, ?_⟩
    · intro d' i
      rw [hrec.2.2.1 d' i,
        updateCM_c_dl t d p.1 p.2 1 d' i hdl (by rw [hrowd]; exact hpl),
        pairCountL_cons]
      by_cases hdd : d' = d
      · subst hdd
        by_cases hi : i = p.2
        · subst hi; simp; ring
        · have hne : ¬ p.2 = i := fun hh => hi hh.symm
          simp [hi, hne]
      · simp [hdd]
    · intro i w
      rw [hrec.2.2.2.1 i w,
        updateCM_c_lw t d p.1 p.2 1 i w hll (by rw [hroww]; exact hpw),
        pairCountLW_cons]
      by_cases hi : i = p.2
      · subst hi
        by_cases hw : w = p.1
        · subst hw; simp; ring
        · have hne3 : ¬ p.1 = w := fun hh => hw hh.symm
          simp [hw, hne3]
      · have hne : ¬ (p.1 = w ∧ p.2 = i) := fun hh => hi hh.2.symm
        have hne2 : ¬ (i = p.2 ∧ w = p.1) := fun hh => hi hh.1
        simp [hne, hne2]
    · intro i
      rw [hrec.2.2.2.2 i, updateCM_c_l t d p.1 p.2 1 i hcl, pairCountL_cons]
      by_cases hi : i = p.2
      · subst hi; simp; ring
      · have hne : ¬ p.2 = i := fun hh => hi hh.symm
        simp [hi, hne]

/-! ### Initial-draw lemmas -/

theorem drawList_succ (pvec : List ℚ) (g n : ℕ) :
    drawList pvec g (n + 1)
      = (catDraw pvec (nextRand g).1 :: (drawList pvec (nextRand g).2 n).1,
         (drawList pvec (nextRand g).2 n).2) := rfl

theorem drawList_spec (pvec : List ℚ) (hpos : ∃ q ∈ pvec, 0 < q) (g n : ℕ) :
    (drawList pvec g n).1.length = n
      ∧ ∀ a ∈ (drawList pvec g n).1, a < pvec.length ∧ 0 < pvec.getD a 0 := by
  induction n generalizing g with
  | zero => simp [drawList]
  | succ m ih =>
    rw [drawList_succ]
    have hrec := ih (nextRand g).2
    have hdraw := catDraw_spec pvec (nextRand g).1 hpos
    refine ⟨by simp [hrec.1], ?_⟩
    intro a ha
    rcases List.mem_cons.1 ha with rfl | hmem
    · exact hdraw
    · exact hrec.2 a hmem

/-! ### Skeleton relations -/

theorem sameCore_refl (t : State) : SameCore t t :=
  ⟨rfl, rfl, rfl, rfl, rfl, rfl, rfl, rfl, rfl⟩

theorem sameCore_trans (a b c : State) (h1 : SameCore a b) (h2 : SameCore b c) :
    SameCore a c := by
  obtain ⟨x1, x2, x3, x4, x5, x6, x7, x8, x9⟩ := h1
  obtain ⟨y1, y2, y3, y4, y5, y6, y7, y8, y9⟩ := h2
  exact ⟨y1.trans x1, y2.trans x2, y3.trans x3, y4.trans x4, y5.trans x5,
    y6.trans x6, y7.trans x7, y8.trans x8, y9.trans x9⟩

theorem sameSkel_core (t t' : State) (h : SameSkel t t') : SameCore t t' := by
  obtain ⟨x1, x2, x3, x4, x5, x6, x7, x8, x9, x10, x11⟩ := h
  exact ⟨x1, x2, x3, x4, x5, x6, x7, x8, x9⟩

/-! ### Histogram append lemmas -/

theorem histDL_append_lt (ldc : List (List ℕ)) (lc : List ℕ) (d t : ℕ)
    (h : d < ldc.length) : histDL (ldc ++ [lc]) d t = histDL ldc d t := by
  unfold histDL
  rw [getD_append_lt _ _ _ _ h]

theorem histDL_append_self (ldc : List (List ℕ)) (lc : List ℕ) (t : ℕ) :
    histDL (ldc ++ [lc]) ldc.length t
      = ((lc.filter (fun a => a = t)).length : ℤ) := by
  unfold histDL
  rw [getD_append_ge _ _ _ _ le_rfl]
  simp

theorem histDL_append_gt (ldc : List (List ℕ)) (lc : List ℕ) (d t : ℕ)
    (h : ldc.length < d) : histDL (ldc ++ [lc]) d t = 0 := by
  unfold histDL
  rw [getD_of_length_le _ _ _ (by simp; omega)]
  simp

theorem histDL_zero_of_le (ldc : List (List ℕ)) (d t : ℕ)
    (h : ldc.length ≤ d) : histDL ldc d t = 0 := by
  unfold histDL
  rw [getD_of_length_le _ _ _ h]
  simp

theorem histL_append_one (ldc : List (List ℕ)) (lc : List ℕ) (t : ℕ) :
    histL (ldc ++ [lc]) t
      = histL ldc t + ((lc.filter (fun a => a = t)).length : ℤ) := by
  unfold histL
  rw [List.map_append, List.sum_append]
  simp

theorem histLW_append_one (wdc ldc : List (List ℕ)) (lc : List ℕ)
    (h : ldc.length < wdc.length) (l w : ℕ) :
    histLW wdc (ldc ++ [lc]) l w
      = histLW wdc ldc l w
        + ((((wdc.getD ldc.length []).zip lc).filter
            (fun q => q.1 = w ∧ q.2 = l)).length : ℤ) := by
  unfold histLW
  rw [zip_append_one _ _ _ [] h, List.map_append, List.sum_append]
  simp

/-! ### Initializer preserves the invariant -/

theorem initDoc_eq (b : Bool) (s : State) (d : ℕ) :
    initDoc b s d = ((s.w_dc.getD d []).zip (initDraw b s d).1).foldl
      (fun t p => updateCountingMatrices t d p.1 p.2 1) (initMid b s d) := rfl

theorem initPvec_len (b : Bool) (s : State) (d : ℕ) :
    (initPvec b s d).length = (s.b_dl.getD d []).length := by
  cases b <;> simp [initPvec]

theorem initPvec_nonneg (b : Bool) (s : State) (d : ℕ) :
    ∀ q ∈ initPvec b s d, 0 ≤ q := by
  intro q hq
  cases b with
  | true =>
    simp only [initPvec] at hq
    rcases List.mem_map.1 hq with ⟨x, _, rfl⟩
    positivity
  | false =>
    simp only [initPvec] at hq
    rcases List.mem_map.1 hq with ⟨x, _, rfl⟩
    positivity

theorem npEffective_len (p : List ℚ) (h : 0 < p.length) :
    (npEffective p).length = p.length := by
  rw [npEffective, List.length_append, List.length_dropLast]
  simp only [List.length_cons, List.length_nil]
  omega

theorem npEffective_pos (p : List ℚ) (hnn : ∀ q ∈ p.dropLast, 0 ≤ q) :
    ∃ q ∈ npEffective p, 0 < q := by
  by_cases hrem : 0 < 1 - p.dropLast.sum
  · exact ⟨1 - p.dropLast.sum,
      List.mem_append.2 (Or.inr (List.mem_singleton.2 rfl)), hrem⟩
  · by_contra hno
    push_neg at hno
    have hall : ∀ q ∈ p.dropLast, q = 0 := by
      intro q hq
      have h1 := hnn q hq
      have h2 := hno q (List.mem_append.2 (Or.inl hq))
      linarith
    have hzero : p.dropLast.sum = 0 := List.sum_eq_zero hall
    rw [hzero] at hrem
    simp at hrem

theorem initDoc_inv (b : Bool) (s : State) (k : ℕ) (hv : InvUpTo s k)
    (hk : k < s.docCount) :
    InvUpTo (initDoc b s k) (k + 1) ∧ SameCore s (initDoc b s k) := by
  have hwdck : k < s.w_dc.length := by rw [hv.wdcLen]; exact hk
  have hbdlk : k < s.b_dl.length := by rw [hv.bdlLen]; exact hk
  have hlablen : (s.b_dl.getD k []).length = s.labelCount :=
    hv.bdlRow _ (getD_mem _ _ _ hbdlk)
  have hpvlen : (initPvec b s k).length = s.labelCount := by
    rw [initPvec_len, hlablen]
  have hefflen : (npEffective (initPvec b s k)).length = s.labelCount := by
    rw [npEffective_len _ (by rw [hpvlen]; exact hv.labelPos), hpvlen]
  have hpos : ∃ q ∈ npEffective (initPvec b s k), 0 < q :=
    npEffective_pos _ (fun q hq =>
      initPvec_nonneg b s k q (List.dropLast_subset _ hq))
  have hdl := drawList_spec (npEffective (initPvec b s k)) hpos s.rng
    (s.w_dc.getD k []).length
  have hlclen : (initDraw b s k).1.length = (s.w_dc.getD k []).length := hdl.1
  have helem : ∀ a ∈ (initDraw b s k).1, a < s.labelCount := by
    intro a ha
    have h1 := (hdl.2 a ha).1
    rw [hefflen] at h1
    exact h1
  have hmidshape : ShapeOk (initMid b s k) :=
    ⟨hv.cdlLen, hv.cdlRow, hv.clwLen, hv.clwRow, hv.clLen⟩
  have hmidd : k < (initMid b s k).docCount := hk
  have hfold := foldUpdate_spec ((s.w_dc.getD k []).zip (initDraw b s k).1)
    (initMid b s k) k hmidshape hmidd
    (by
      intro p hp
      have hm := List.of_mem_zip hp
      exact ⟨hv.wordsLt _ (getD_mem _ _ _ hwdck) _ hm.1, helem _ hm.2⟩)
  rw [initDoc_eq]
  obtain ⟨hskel, hshape, hcdl, hclw, hcl⟩ := hfold
  obtain ⟨e1, e2, e3, e4, e5, e6, e7, e8, e9, e10, e11⟩ := hskel
  obtain ⟨g1, g2, g3, g4, g5⟩ := hshape
  have hmid10 : (initMid b s k).l_dc = s.l_dc ++ [(initDraw b s k).1] := rfl
  have hldck : s.l_dc.length = k := hv.ldcLen
  constructor
  · refine ⟨?_, ?_, ?_, ?_, ?_, ?_, ?_, ?_, ?_, ?_, ?_, ?_, ?_, ?_, ?_, ?_, ?_,
      ?_, ?_, ?_, ?_, ?_, ?_, ?_⟩
    · rw [e1]; exact hv.alphaPos
    · rw [e2]; exact hv.betaPos
    · rw [e3]; exact hv.labelPos
    · rw [e4, e3]; exact hv.labelReg
    · rw [e6, e5]; exact hv.wordReg
    · rw [e4]; exact hv.defaultIdSome
    · rw [e4, e9, e7]; exact hv.defaultBit
    · rw [e8, e7]; exact hv.wdcLen
    · rw [e9, e7]; exact hv.bdlLen
    · rw [e9, e3]; exact hv.bdlRow
    · rw [e9]; exact hv.bdl01
    · rw [e10, hmid10]; simp [hldck]
    · rw [e7]; omega
    · intro d hd
      rw [e10, hmid10, e8]
      show ((s.l_dc ++ [(initDraw b s k).1]).getD d []).length
        = ((initMid b s k).w_dc.getD d []).length
      by_cases hdk : d < k
      · rw [getD_append_lt _ _ _ _ (by omega)]
        exact hv.ldcRow d hdk
      · have hdk' : d = k := by omega
        subst hdk'
        rw [getD_append_ge _ _ _ _ (by omega)]
        simp only [hldck, Nat.sub_self, List.getD_cons_zero]
        exact hlclen
    · rw [e8, e5]; exact hv.wordsLt
    · intro d a ha
      rw [e10, hmid10] at ha
      rw [e3]
      by_cases hdk : d < k
      · rw [getD_append_lt _ _ _ _ (by omega)] at ha
        exact hv.assignLt d a ha
      · by_cases hdk2 : d = k
        · subst hdk2
          rw [getD_append_ge _ _ _ _ (by omega)] at ha
          simp only [hldck, Nat.sub_self, List.getD_cons_zero] at ha
          exact helem a ha
        · rw [getD_of_length_le _ _ _ (by simp only [List.length_append, List.length_cons, List.length_nil, hldck]; omega)] at ha
          simp at ha
    · exact g1
    · exact g2
    · exact g3
    · exact g4
    · exact g5
    · intro d i
      rw [hcdl d i, e10, hmid10]
      show getZ s.c_dl d i + _ = _
      rw [hv.cdlEq d i]
      have hcnt : pairCountL ((s.w_dc.getD k []).zip (initDraw b s k).1) i
          = (((initDraw b s k).1.filter (fun a => a = i)).length : ℤ) := by
        unfold pairCountL
        rw [filter_snd_length, zip_snd _ _ (le_of_eq hlclen)]
      by_cases hdk : d = k
      · rw [hdk, if_pos rfl, hcnt, histDL_zero_of_le s.l_dc k i (by omega)]
        have hself : histDL (s.l_dc ++ [(initDraw b s k).1]) k i
            = (((initDraw b s k).1.filter (fun a => a = i)).length : ℤ) := by
          rw [show k = s.l_dc.length from hldck.symm]
          exact histDL_append_self _ _ _
        rw [hself]
        ring
      · rw [if_neg hdk]
        by_cases hdlt : d < k
        · rw [histDL_append_lt _ _ _ _ (by omega)]
          ring
        · rw [histDL_append_gt _ _ _ _ (by omega),
            histDL_zero_of_le _ _ _ (by omega)]
          ring
    · intro l w
      rw [hclw l w, e10, hmid10]
      show getZ s.c_lw l w + _ = _
      rw [hv.clwEq l w, e8]
      show _ = histLW (initMid b s k).w_dc _ l w
      have hwd : (initMid b s k).w_dc = s.w_dc := rfl
      rw [hwd, histLW_append_one s.w_dc s.l_dc (initDraw b s k).1 (by omega) l w]
      have hget : s.w_dc.getD s.l_dc.length [] = s.w_dc.getD k [] := by
        rw [hldck]
      rw [hget]
      rfl
    · intro l
      rw [hcl l, e10, hmid10]
      show s.c_l.getD l 0 + _ = _
      rw [hv.clEq l, histL_append_one]
      have hcnt : pairCountL ((s.w_dc.getD k []).zip (initDraw b s k).1) l
          = (((initDraw b s k).1.filter (fun a => a = l)).length : ℤ) := by
        unfold pairCountL
        rw [filter_snd_length, zip_snd _ _ (le_of_eq hlclen)]
      rw [hcnt]
  · have hcore1 : SameCore s (initMid b s k) :=
      ⟨rfl, rfl, rfl, rfl, rfl, rfl, rfl, rfl, rfl⟩
    exact sameCore_trans _ _ _ hcore1
      (sameSkel_core _ _ ⟨e1, e2, e3, e4, e5, e6, e7, e8, e9, e10, e11⟩)
/-! ### Sampler probability positivity -/

theorem inferToken_eq (s : State) (d c : ℕ) :
    inferToken s d c
      = (updateCountingMatrices (inferSet s d c) d (inferW s d c) (inferNewL s d c) 1,
         decide (inferL s d c ≠ inferNewL s d c)) := rfl

theorem inferProb_spec (s : State) (k d c : ℕ) (hv : InvUpTo s k) (hd : d < k)
    (hc : c < (s.w_dc.getD d []).length) :
    (∀ x ∈ inferProb s d c, 0 ≤ x)
      ∧ 0 < (inferProb s d c).sum
      ∧ (inferProb s d c).length = s.labelCount
      ∧ inferNewL s d c < s.labelCount
      ∧ getN s.b_dl d (inferNewL s d c) = 1 := by
  have hddoc : d < s.docCount := lt_of_lt_of_le hd hv.kLe
  have hldcd : d < s.l_dc.length := by rw [hv.ldcLen]; exact hd
  have hwdcd : d < s.w_dc.length := by rw [hv.wdcLen]; exact hddoc
  have hbdld : d < s.b_dl.length := by rw [hv.bdlLen]; exact hddoc
  have hlrow : (s.l_dc.getD d []).length = (s.w_dc.getD d []).length :=
    hv.ldcRow d hd
  have hcl : c < (s.l_dc.getD d []).length := by rw [hlrow]; exact hc
  have hllt : inferL s d c < s.labelCount :=
    hv.assignLt d _ (getD_mem _ c 0 hcl)
  have hwlt : inferW s d c < s.wordCount :=
    hv.wordsLt _ (getD_mem _ d [] hwdcd) _ (getD_mem _ c 0 hc)
  have hdl2 : d < s.c_dl.length := by rw [hv.cdlLen]; exact hddoc
  have hrowd : (s.c_dl.getD d []).length = s.labelCount :=
    hv.cdlRow _ (getD_mem _ _ _ hdl2)
  have hlw2 : inferL s d c < s.c_lw.length := by rw [hv.clwLen]; exact hllt
  have hroww : (s.c_lw.getD (inferL s d c) []).length = s.wordCount :=
    hv.clwRow _ (getD_mem _ _ _ hlw2)
  have hllen2 : inferL s d c < (s.c_dl.getD d []).length := by
    rw [hrowd]; exact hllt
  have hwlen2 : inferW s d c < (s.c_lw.getD (inferL s d c) []).length := by
    rw [hroww]; exact hwlt
  -- decremented doc-label entries stay nonnegative
  have hcdl1 : ∀ i, 0 ≤ getZ (inferMid s d c).c_dl d i := by
    intro i
    rw [inferMid, updateCM_c_dl s d _ _ _ d i hdl2 hllen2, hv.cdlEq d i]
    by_cases hi : i = inferL s d c
    · rw [if_pos (And.intro rfl hi), hi]
      have h1 : 1 ≤ histDL s.l_dc d (inferL s d c) := by
        have := count_pos_of_getD (s.l_dc.getD d []) c hcl
        unfold histDL
        exact this
      omega
    · have hne : ¬ (d = d ∧ i = inferL s d c) := fun hh => hi hh.2
      rw [if_neg hne]
      have := histDL_nonneg s.l_dc d i
      omega
  have hrowA : 0 ≤ rowSumZ (inferMid s d c).c_dl d := by
    rw [inferMid, updateCM_rowSum_cdl s d _ _ _ d hdl2 hllen2,
      inv_cdl_rowSum s k hv d, if_pos rfl]
    have : 1 ≤ (s.l_dc.getD d []).length := by omega
    have hcast : (1 : ℤ) ≤ ((s.l_dc.getD d []).length : ℤ) := by exact_mod_cast this
    omega
  have hclw1 : ∀ i, 0 ≤ getZ (inferMid s d c).c_lw i (inferW s d c) := by
    intro i
    rw [inferMid, updateCM_c_lw s d _ _ _ i (inferW s d c) hlw2 hwlen2,
      hv.clwEq i (inferW s d c)]
    by_cases hi : i = inferL s d c
    · rw [if_pos (And.intro hi rfl), hi]
      have h1 : 1 ≤ histLW s.w_dc s.l_dc (inferL s d c) (inferW s d c) := by
        exact histLW_pos s.w_dc s.l_dc d c _ _ hldcd hwdcd hcl hc rfl rfl
      omega
    · have hne : ¬ (i = inferL s d c ∧ inferW s d c = inferW s d c) :=
        fun hh => hi hh.1
      rw [if_neg hne]
      have := histLW_nonneg s.w_dc s.l_dc i (inferW s d c)
      omega
  have hrowB : ∀ i, 0 ≤ rowSumZ (inferMid s d c).c_lw i := by
    intro i
    rw [inferMid, updateCM_rowSum_clw s d _ _ _ i hlw2 hwlen2,
      inv_clw_rowSum s k hv i]
    by_cases hi : i = inferL s d c
    · rw [if_pos hi, hi]
      have h1 : 1 ≤ histDL s.l_dc d (inferL s d c) := by
        have := count_pos_of_getD (s.l_dc.getD d []) c hcl
        unfold histDL
        exact this
      have h2 := histDL_le_histL s.l_dc d (inferL s d c) hldcd
      omega
    · rw [if_neg hi]
      have := histL_nonneg s.l_dc i
      omega
  -- positivity of the fixed factors
  have hWpos : (0 : ℚ) < ((inferMid s d c).wordCount : ℚ) * (inferMid s d c).beta := by
    show (0 : ℚ) < (s.wordCount : ℚ) * s.beta
    have h1 : (0 : ℚ) < (s.wordCount : ℚ) := by
      exact_mod_cast Nat.pos_of_ne_zero (by omega)
    exact mul_pos h1 hv.betaPos
  have hLpos : (0 : ℚ) < ((inferMid s d c).labelCount : ℚ) * (inferMid s d c).alpha := by
    show (0 : ℚ) < (s.labelCount : ℚ) * s.alpha
    have h1 : (0 : ℚ) < (s.labelCount : ℚ) := by exact_mod_cast hv.labelPos
    exact mul_pos h1 hv.alphaPos
  have hcoeffA : 0 < 1 / (((rowSumZ (inferMid s d c).c_dl d : ℤ) : ℚ)
      + ((inferMid s d c).labelCount : ℚ) * (inferMid s d c).alpha) := by
    apply one_div_pos.2
    have h0 : (0 : ℚ) ≤ ((rowSumZ (inferMid s d c).c_dl d : ℤ) : ℚ) := by
      exact_mod_cast hrowA
    linarith
  have hcoeffB : ∀ i, 0 < 1 / (((rowSumZ (inferMid s d c).c_lw i : ℤ) : ℚ)
      + ((inferMid s d c).wordCount : ℚ) * (inferMid s d c).beta) := by
    intro i
    apply one_div_pos.2
    have h0 : (0 : ℚ) ≤ ((rowSumZ (inferMid s d c).c_lw i : ℤ) : ℚ) := by
      exact_mod_cast hrowB i
    linarith
  have hfactor : ∀ i, 0 < (((getZ (inferMid s d c).c_dl d i : ℤ) : ℚ) + (inferMid s d c).alpha) := by
    intro i
    have h0 : (0 : ℚ) ≤ ((getZ (inferMid s d c).c_dl d i : ℤ) : ℚ) := by
      exact_mod_cast hcdl1 i
    have := hv.alphaPos
    show 0 < ((getZ (inferMid s d c).c_dl d i : ℤ) : ℚ) + s.alpha
    linarith
  have hfactor2 : ∀ i, 0 < (((getZ (inferMid s d c).c_lw i (inferW s d c) : ℤ) : ℚ)
      + (inferMid s d c).beta) := by
    intro i
    have h0 : (0 : ℚ) ≤ ((getZ (inferMid s d c).c_lw i (inferW s d c) : ℤ) : ℚ) := by
      exact_mod_cast hclw1 i
    have := hv.betaPos
    show 0 < ((getZ (inferMid s d c).c_lw i (inferW s d c) : ℤ) : ℚ) + s.beta
    linarith
  -- the entries of the unnormalized vector
  have hlen : (inferProb s d c).length = s.labelCount := by
    show ((List.range (inferMid s d c).labelCount).map _).length = s.labelCount
    rw [List.length_map, List.length_range]
    rfl
  have hentry : ∀ i, i < s.labelCount →
      (inferProb s d c).getD i 0
        = ((getN s.b_dl d i : ℕ) : ℚ)
          * (1 / (((rowSumZ (inferMid s d c).c_dl d : ℤ) : ℚ)
              + ((inferMid s d c).labelCount : ℚ) * (inferMid s d c).alpha))
          * (((getZ (inferMid s d c).c_dl d i : ℤ) : ℚ) + (inferMid s d c).alpha)
          * (1 / (((rowSumZ (inferMid s d c).c_lw i : ℤ) : ℚ)
              + ((inferMid s d c).wordCount : ℚ) * (inferMid s d c).beta))
          * (((getZ (inferMid s d c).c_lw i (inferW s d c) : ℤ) : ℚ)
              + (inferMid s d c).beta) := by
    intro i hi
    have hlc : (inferMid s d c).labelCount = s.labelCount := rfl
    show ((List.range (inferMid s d c).labelCount).map _).getD i 0 = _
    rw [hlc, getD_map_lt _ _ i 0 0 (by rw [List.length_range]; exact hi),
      range_getD _ _ hi]
    rfl
  have hnn : ∀ x ∈ inferProb s d c, 0 ≤ x := by
    intro x hx
    rcases List.mem_map.1 hx with ⟨i, hi, rfl⟩
    have h1 := hcoeffA
    have h2 := hcoeffB i
    have h3 := hfactor i
    have h4 := hfactor2 i
    have h5 : (0 : ℚ) ≤ ((getN (inferMid s d c).b_dl d i : ℕ) : ℚ) := by positivity
    positivity
  obtain ⟨i0, hi0⟩ := hv.defaultIdSome
  have hi0lt : i0 < s.labelCount := by
    rcases alookup_mem _ _ _ hi0 with ⟨p, hp, _, hp2⟩
    rw [← hp2]
    exact hv.labelReg p hp
  have hmask0 : getN s.b_dl d i0 = 1 := by
    have := hv.defaultBit d hddoc
    rw [hi0] at this
    exact this
  have hi0pos : 0 < (inferProb s d c).getD i0 0 := by
    rw [hentry i0 hi0lt, hmask0]
    have h1 := hcoeffA
    have h2 := hcoeffB i0
    have h3 := hfactor i0
    have h4 := hfactor2 i0
    push_cast
    have h5 := mul_pos (mul_pos (mul_pos h1 h3) h2) h4
    calc (0 : ℚ) < _ := h5
      _ = _ := by ring
  have hsumpos : 0 < (inferProb s d c).sum :=
    sum_pos_of_mem _ hnn _ (getD_mem _ i0 0 (by rw [hlen]; exact hi0lt)) hi0pos
  -- the drawn label
  have hnormlen : ((inferProb s d c).map
      (fun p => p / (inferProb s d c).sum)).length = s.labelCount := by
    rw [List.length_map]; exact hlen
  have hnormpos : ∃ q ∈ (inferProb s d c).map
      (fun p => p / (inferProb s d c).sum), 0 < q := by
    refine ⟨((inferProb s d c).map (fun p => p / (inferProb s d c).sum)).getD i0 0,
      getD_mem _ i0 0 (by rw [hnormlen]; exact hi0lt), ?_⟩
    rw [getD_map_lt _ _ i0 0 0 (by rw [hlen]; exact hi0lt)]
    exact div_pos hi0pos hsumpos
  have hdraw := catDraw_spec _ (nextRand (inferMid s d c).rng).1 hnormpos
  have hnewlt : inferNewL s d c < s.labelCount := by
    have := hdraw.1
    rw [hnormlen] at this
    exact this
  have hnewpos : 0 < (inferProb s d c).getD (inferNewL s d c) 0 := by
    have h2 := hdraw.2
    rw [getD_map_lt _ _ _ 0 0 (by rw [hlen]; exact hnewlt)] at h2
    by_contra hle
    push_neg at hle
    have : (inferProb s d c).getD (inferNewL s d c) 0 / (inferProb s d c).sum ≤ 0 :=
      div_nonpos_of_nonpos_of_nonneg hle (le_of_lt hsumpos)
    show False
    exact absurd h2 (not_lt.2 this)
  have hmasknew : getN s.b_dl d (inferNewL s d c) = 1 := by
    rw [hentry _ hnewlt] at hnewpos
    have hne : getN s.b_dl d (inferNewL s d c) ≠ 0 := by
      intro h0
      rw [h0] at hnewpos
      simp at hnewpos
    have hrowmem : s.b_dl.getD d [] ∈ s.b_dl := getD_mem _ _ _ hbdld
    have hblen : (s.b_dl.getD d []).length = s.labelCount := hv.bdlRow _ hrowmem
    have h01 := hv.bdl01 _ hrowmem ((s.b_dl.getD d []).getD (inferNewL s d c) 0)
      (getD_mem _ _ 0 (by rw [hblen]; exact hnewlt))
    rcases h01 with h0 | h0
    · exact absurd h0 hne
    · exact h0
  exact ⟨hnn, hsumpos, hlen, hnewlt, hmasknew⟩

/-! ### Conditional-term helpers -/

theorem if_and_of_left {P Q : Prop} [Decidable (P ∧ Q)] [Decidable Q]
    (hP : P) (z : ℤ) : (if P ∧ Q then z else 0) = (if Q then z else 0) := by
  by_cases h : Q
  · rw [if_pos ⟨hP, h⟩, if_pos h]
  · rw [if_neg (fun hh => h hh.2), if_neg h]

theorem if_and_not_left {P Q : Prop} [Decidable (P ∧ Q)] (hP : ¬ P) (z : ℤ) :
    (if P ∧ Q then z else 0) = 0 := if_neg (fun hh => hP hh.1)

theorem if_eq_comm (a b : ℕ) (z : ℤ) :
    (if a = b then z else 0) = (if b = a then z else 0) := by
  by_cases h : a = b
  · rw [if_pos h, if_pos h.symm]
  · rw [if_neg h, if_neg (fun hh => h hh.symm)]

theorem if_and_nest {P Q : Prop} [Decidable (P ∧ Q)] [Decidable P] [Decidable Q]
    (z : ℤ) : (if P ∧ Q then z else 0) = (if P then (if Q then z else 0) else 0) := by
  by_cases hp : P <;> by_cases hq : Q <;> simp [hp, hq]

/-! ### The sampler step preserves the invariant -/

theorem inferToken_inv (s : State) (k d c : ℕ) (hv : InvUpTo s k) (hd : d < k)
    (hc : c < (s.w_dc.getD d []).length) :
    InvUpTo (inferToken s d c).1 k ∧ SameCore s (inferToken s d c).1 := by
  obtain ⟨hnn, hsumpos, hlen, hnewlt, _⟩ := inferProb_spec s k d c hv hd hc
  have hddoc : d < s.docCount := lt_of_lt_of_le hd hv.kLe
  have hldcd : d < s.l_dc.length := by rw [hv.ldcLen]; exact hd
  have hwdcd : d < s.w_dc.length := by rw [hv.wdcLen]; exact hddoc
  have hbdld : d < s.b_dl.length := by rw [hv.bdlLen]; exact hddoc
  have hlrow : (s.l_dc.getD d []).length = (s.w_dc.getD d []).length :=
    hv.ldcRow d hd
  have hcl : c < (s.l_dc.getD d []).length := by rw [hlrow]; exact hc
  have hllt : inferL s d c < s.labelCount :=
    hv.assignLt d _ (getD_mem _ c 0 hcl)
  have hwlt : inferW s d c < s.wordCount :=
    hv.wordsLt _ (getD_mem _ d [] hwdcd) _ (getD_mem _ c 0 hc)
  have hdl2 : d < s.c_dl.length := by rw [hv.cdlLen]; exact hddoc
  have hrowd : (s.c_dl.getD d []).length = s.labelCount :=
    hv.cdlRow _ (getD_mem _ _ _ hdl2)
  have hlw2 : inferL s d c < s.c_lw.length := by rw [hv.clwLen]; exact hllt
  have hroww : (s.c_lw.getD (inferL s d c) []).length = s.wordCount :=
    hv.clwRow _ (getD_mem _ _ _ hlw2)
  have hllen2 : inferL s d c < (s.c_dl.getD d []).length := by
    rw [hrowd]; exact hllt
  have hwlen2 : inferW s d c < (s.c_lw.getD (inferL s d c) []).length := by
    rw [hroww]; exact hwlt
  have hcll : inferL s d c < s.c_l.length := by rw [hv.clLen]; exact hllt
  -- shapes of the mid state
  have hmidshape : ShapeOk (inferMid s d c) :=
    updateCM_shape s d _ _ _ ⟨hv.cdlLen, hv.cdlRow, hv.clwLen, hv.clwRow, hv.clLen⟩
  have hsetshape : ShapeOk (inferSet s d c) := hmidshape
  -- in-range facts for the re-increment
  have hdl3 : d < (inferSet s d c).c_dl.length := by
    have : (inferSet s d c).c_dl.length = s.c_dl.length := by
      show (setZ s.c_dl d (inferL s d c) _).length = s.c_dl.length
      exact setZ_length _ _ _ _
    rw [this]; exact hdl2
  have hrow3 : ((inferSet s d c).c_dl.getD d []).length = s.labelCount := by
    have : ((inferSet s d c).c_dl.getD d []).length = (s.c_dl.getD d []).length := by
      show ((setZ s.c_dl d (inferL s d c) _).getD d []).length = _
      exact setZ_row_length _ _ _ _ _
    rw [this]; exact hrowd
  have hnew3 : inferNewL s d c < ((inferSet s d c).c_dl.getD d []).length := by
    rw [hrow3]; exact hnewlt
  have hlw3 : inferNewL s d c < (inferSet s d c).c_lw.length := by
    have : (inferSet s d c).c_lw.length = s.c_lw.length := by
      show (setZ s.c_lw (inferL s d c) (inferW s d c) _).length = s.c_lw.length
      exact setZ_length _ _ _ _
    rw [this, hv.clwLen]; exact hnewlt
  have hroww3 : ((inferSet s d c).c_lw.getD (inferNewL s d c) []).length = s.wordCount := by
    have : ((inferSet s d c).c_lw.getD (inferNewL s d c) []).length
        = (s.c_lw.getD (inferNewL s d c) []).length := by
      show ((setZ s.c_lw (inferL s d c) (inferW s d c) _).getD (inferNewL s d c) []).length = _
      exact setZ_row_length _ _ _ _ _
    rw [this]
    exact hv.clwRow _ (getD_mem _ _ _ (by rw [hv.clwLen]; exact hnewlt))
  have hw3 : inferW s d c < ((inferSet s d c).c_lw.getD (inferNewL s d c) []).length := by
    rw [hroww3]; exact hwlt
  have hcl3 : inferNewL s d c < (inferSet s d c).c_l.length := by
    have : (inferSet s d c).c_l.length = s.c_l.length := by
      show (s.c_l.set (inferL s d c) _).length = s.c_l.length
      exact List.length_set _ _ _
    rw [this, hv.clLen]; exact hnewlt
  -- the count formulas for the final state
  have hgetc : (s.l_dc.getD d []).getD c 0 = inferL s d c := rfl
  have hA : ∀ d' i, getZ (inferToken s d c).1.c_dl d' i
      = histDL s.l_dc d' i
        + (if d' = d ∧ i = inferL s d c then (-1 : ℤ) else 0)
        + (if d' = d ∧ i = inferNewL s d c then (1 : ℤ) else 0) := by
    intro d' i
    rw [inferToken_eq]
    show getZ (updateCountingMatrices (inferSet s d c) d (inferW s d c)
      (inferNewL s d c) 1).c_dl d' i = _
    rw [updateCM_c_dl _ _ _ _ _ d' i hdl3 hnew3]
    have hmid : getZ (inferSet s d c).c_dl d' i
        = getZ s.c_dl d' i + (if d' = d ∧ i = inferL s d c then (-1 : ℤ) else 0) := by
      show getZ (inferMid s d c).c_dl d' i = _
      rw [inferMid, updateCM_c_dl s d _ _ _ d' i hdl2 hllen2]
    rw [hmid, hv.cdlEq d' i]
  have hB : ∀ i w', getZ (inferToken s d c).1.c_lw i w'
      = histLW s.w_dc s.l_dc i w'
        + (if i = inferL s d c ∧ w' = inferW s d c then (-1 : ℤ) else 0)
        + (if i = inferNewL s d c ∧ w' = inferW s d c then (1 : ℤ) else 0) := by
    intro i w'
    rw [inferToken_eq]
    show getZ (updateCountingMatrices (inferSet s d c) d (inferW s d c)
      (inferNewL s d c) 1).c_lw i w' = _
    rw [updateCM_c_lw _ _ _ _ _ i w' hlw3 hw3]
    have hmid : getZ (inferSet s d c).c_lw i w'
        = getZ s.c_lw i w'
          + (if i = inferL s d c ∧ w' = inferW s d c then (-1 : ℤ) else 0) := by
      show getZ (inferMid s d c).c_lw i w' = _
      rw [inferMid, updateCM_c_lw s d _ _ _ i w' hlw2 hwlen2]
    rw [hmid, hv.clwEq i w']
  have hC : ∀ i, (inferToken s d c).1.c_l.getD i 0
      = histL s.l_dc i
        + (if i = inferL s d c then (-1 : ℤ) else 0)
        + (if i = inferNewL s d c then (1 : ℤ) else 0) := by
    intro i
    rw [inferToken_eq]
    show (updateCountingMatrices (inferSet s d c) d (inferW s d c)
      (inferNewL s d c) 1).c_l.getD i 0 = _
    rw [updateCM_c_l _ _ _ _ _ i hcl3]
    have hmid : (inferSet s d c).c_l.getD i 0
        = s.c_l.getD i 0 + (if i = inferL s d c then (-1 : ℤ) else 0) := by
      show (inferMid s d c).c_l.getD i 0 = _
      rw [inferMid, updateCM_c_l s d _ _ _ i hcll]
    rw [hmid, hv.clEq i]
  -- the assignment store of the final state
  have hldc3 : (inferToken s d c).1.l_dc
      = s.l_dc.set d ((s.l_dc.getD d []).set c (inferNewL s d c)) := rfl
  have hcore1 : SameCore s (inferMid s d c) :=
    sameSkel_core _ _ (updateCM_skel s d (inferW s d c) (inferL s d c) (-1))
  have hcore2 : SameCore (inferMid s d c) (inferSet s d c) :=
    ⟨rfl, rfl, rfl, rfl, rfl, rfl, rfl, rfl, rfl⟩
  have hcore3 : SameCore (inferSet s d c)
      (updateCountingMatrices (inferSet s d c) d (inferW s d c) (inferNewL s d c) 1) :=
    sameSkel_core _ _ (updateCM_skel (inferSet s d c) d (inferW s d c) (inferNewL s d c) 1)
  have hrng3 : SameCore s (inferToken s d c).1 := by
    rw [inferToken_eq]
    exact sameCore_trans _ _ _ (sameCore_trans _ _ _ hcore1 hcore2) hcore3
  have hz := hrng3
  obtain ⟨z1, z2, z3, z4, z5, z6, z7, z8, z9⟩ := hz
  obtain ⟨g1, g2, g3, g4, g5⟩ :
      ShapeOk (inferToken s d c).1 := by
    rw [inferToken_eq]
    exact updateCM_shape _ _ _ _ _ hsetshape
  refine ⟨⟨?_, ?_, ?_, ?_, ?_, ?_, ?_, ?_, ?_, ?_, ?_, ?_, ?_, ?_, ?_, ?_, ?_,
    ?_, ?_, ?_, ?_, ?_, ?_, ?_⟩, hrng3⟩
  · rw [z1]; exact hv.alphaPos
  · rw [z2]; exact hv.betaPos
  · rw [z3]; exact hv.labelPos
  · rw [z4, z3]; exact hv.labelReg
  · rw [z6, z5]; exact hv.wordReg
  · rw [z4]; exact hv.defaultIdSome
  · rw [z4, z9, z7]; exact hv.defaultBit
  · rw [z8, z7]; exact hv.wdcLen
  · rw [z9, z7]; exact hv.bdlLen
  · rw [z9, z3]; exact hv.bdlRow
  · rw [z9]; exact hv.bdl01
  · rw [hldc3, List.length_set]; exact hv.ldcLen
  · exact hv.kLe
  · intro d' hd'
    rw [hldc3, z8]
    by_cases hdd : d' = d
    · rw [hdd, getD_set_eq _ _ _ _ hldcd, List.length_set]
      exact hv.ldcRow d hd
    · rw [getD_set_ne _ _ _ _ _ (fun hh => hdd hh.symm)]
      exact hv.ldcRow d' hd'
  · rw [z8, z5]; exact hv.wordsLt
  · intro d' a ha
    rw [hldc3] at ha
    rw [z3]
    by_cases hdd : d' = d
    · rw [hdd, getD_set_eq _ _ _ _ hldcd] at ha
      rcases List.mem_or_eq_of_mem_set ha with hmem | rfl
      · exact hv.assignLt d a hmem
      · exact hnewlt
    · rw [getD_set_ne _ _ _ _ _ (fun hh => hdd hh.symm)] at ha
      exact hv.assignLt d' a ha
  · rw [z7] at g1; exact g1
  · rw [z3] at g2; exact g2
  · rw [z3] at g3; exact g3
  · rw [z5] at g4; exact g4
  · rw [z3] at g5; exact g5
  · intro d' i
    rw [hA d' i, hldc3]
    by_cases hdd : d' = d
    · rw [hdd, histDL_set s.l_dc d c _ hldcd hcl d i, hgetc,
        if_and_of_left (rfl : d = d), if_and_of_left (rfl : d = d),
        if_and_of_left (rfl : d = d), if_and_of_left (rfl : d = d),
        if_eq_comm (inferL s d c) i, if_eq_comm (inferNewL s d c) i]
      omega
    · rw [histDL_set s.l_dc d c _ hldcd hcl d' i,
        if_and_not_left hdd, if_and_not_left hdd,
        if_and_not_left hdd, if_and_not_left hdd]
      ring
  · intro i w'
    rw [hB i w', hldc3, z8]
    show _ = histLW s.w_dc (s.l_dc.set d ((s.l_dc.getD d []).set c (inferNewL s d c))) i w'
    rw [histLW_set s.w_dc s.l_dc d c _ hldcd hwdcd hcl hlrow.symm i w', hgetc]
    have hgetw : (s.w_dc.getD d []).getD c 0 = inferW s d c := rfl
    rw [hgetw, if_and_nest, if_and_nest, if_and_nest, if_and_nest,
      if_eq_comm (inferW s d c) w', if_eq_comm (inferW s d c) w',
      if_eq_comm (inferL s d c) i, if_eq_comm (inferNewL s d c) i]
    omega
  · intro i
    rw [hC i, hldc3]
    show _ = histL (s.l_dc.set d ((s.l_dc.getD d []).set c (inferNewL s d c))) i
    rw [histL_set s.l_dc d c _ hldcd hcl i, hgetc,
      if_eq_comm (inferL s d c) i, if_eq_comm (inferNewL s d c) i]
    omega

/-! ### Loop-level preservation -/

theorem inferPositions_cons (d : ℕ) (s : State) (st : ℕ × ℕ) (c : ℕ) (cs : List ℕ) :
    inferPositions d s st (c :: cs)
      = inferPositions d (inferToken s d c).1
          (if (inferToken s d c).2 then st.1 + 1 else st.1, st.2 + 1) cs := rfl

theorem sameCore_w_dc (t t' : State) (h : SameCore t t') : t'.w_dc = t.w_dc :=
  h.2.2.2.2.2.2.2.1

theorem sameCore_docCount (t t' : State) (h : SameCore t t') :
    t'.docCount = t.docCount := h.2.2.2.2.2.2.1

theorem inferPositions_inv (d : ℕ) (cs : List ℕ) (s : State) (st : ℕ × ℕ) (k : ℕ)
    (hv : InvUpTo s k) (hd : d < k)
    (hcs : ∀ c ∈ cs, c < (s.w_dc.getD d []).length) :
    InvUpTo (inferPositions d s st cs).1 k
      ∧ SameCore s (inferPositions d s st cs).1 := by
  induction cs generalizing s st with
  | nil => exact ⟨hv, sameCore_refl s⟩
  | cons c cs ih =>
    have hc := hcs c (List.mem_cons_self _ _)
    have h1 := inferToken_inv s k d c hv hd hc
    rw [inferPositions_cons]
    have hwd : (inferToken s d c).1.w_dc = s.w_dc := sameCore_w_dc _ _ h1.2
    have hrec := ih (inferToken s d c).1
      (if (inferToken s d c).2 then st.1 + 1 else st.1, st.2 + 1) h1.1
      (by
        intro c' hc'
        rw [hwd]
        exact hcs c' (List.mem_cons_of_mem _ hc'))
    exact ⟨hrec.1, sameCore_trans _ _ _ h1.2 hrec.2⟩

theorem inferDoc_inv (s : State) (st : ℕ × ℕ) (d k : ℕ)
    (hv : InvUpTo s k) (hd : d < k) :
    InvUpTo (inferDoc s st d).1 k ∧ SameCore s (inferDoc s st d).1 := by
  exact inferPositions_inv d _ s st k hv hd
    (by intro c hc; exact List.mem_range.1 hc)

theorem inferFold_inv (ds : List ℕ) (s : State) (st : ℕ × ℕ) (k : ℕ)
    (hv : InvUpTo s k) (hds : ∀ d ∈ ds, d < k) :
    InvUpTo (ds.foldl (fun acc d => inferDoc acc.1 acc.2 d) (s, st)).1 k
      ∧ SameCore s (ds.foldl (fun acc d => inferDoc acc.1 acc.2 d) (s, st)).1 := by
  induction ds generalizing s st with
  | nil => exact ⟨hv, sameCore_refl s⟩
  | cons d ds ih =>
    have hd := hds d (List.mem_cons_self _ _)
    have h1 := inferDoc_inv s st d k hv hd
    rw [List.foldl_cons]
    have hrec := ih (inferDoc s st d).1 (inferDoc s st d).2 h1.1
      (fun d' hd' => hds d' (List.mem_cons_of_mem _ hd'))
    constructor
    · have : ((inferDoc s st d).1, (inferDoc s st d).2) = inferDoc s st d := rfl
      rw [this] at hrec
      exact hrec.1
    · have : ((inferDoc s st d).1, (inferDoc s st d).2) = inferDoc s st d := rfl
      rw [this] at hrec
      exact sameCore_trans _ _ _ h1.2 hrec.2

theorem inferDocs_inv (s : State) (ds : List ℕ) (k : ℕ)
    (hv : InvUpTo s k) (hds : ∀ d ∈ ds, d < k) :
    InvUpTo (inferDocs s ds).1 k ∧ SameCore s (inferDocs s ds).1 :=
  inferFold_inv ds s (0, 0) k hv hds

theorem trainDocs_inv (iterations : ℕ) (s : State) (ds : List ℕ) (k : ℕ)
    (hv : InvUpTo s k) (hds : ∀ d ∈ ds, d < k) :
    InvUpTo (trainDocs s iterations ds) k
      ∧ SameCore s (trainDocs s iterations ds) := by
  induction iterations generalizing s with
  | zero => exact ⟨hv, sameCore_refl s⟩
  | succ n ih =>
    have h1 := inferDocs_inv s ds k hv hds
    rw [trainDocs]
    have hrec := ih (inferDocs s ds).1 h1.1
    exact ⟨hrec.1, sameCore_trans _ _ _ h1.2 hrec.2⟩

theorem initDocs_range_inv (b : Bool) (m : ℕ) (s : State) (k : ℕ)
    (hv : InvUpTo s k) (hkm : k + m ≤ s.docCount) :
    InvUpTo (initDocs b s (List.range' k m)) (k + m)
      ∧ SameCore s (initDocs b s (List.range' k m)) := by
  induction m generalizing s k with
  | zero => exact ⟨by simpa using hv, sameCore_refl s⟩
  | succ n ih =>
    have hk : k < s.docCount := by omega
    have h1 := initDoc_inv b s k hv hk
    have hdc : (initDoc b s k).docCount = s.docCount := sameCore_docCount _ _ h1.2
    have hrec := ih (initDoc b s k) (k + 1) h1.1 (by rw [hdc]; omega)
    have hsteps : initDocs b s (List.range' k (n + 1))
        = initDocs b (initDoc b s k) (List.range' (k + 1) n) := rfl
    rw [hsteps]
    refine ⟨by
      have : k + 1 + n = k + (n + 1) := by omega
      rw [this] at hrec
      exact hrec.1, sameCore_trans _ _ _ h1.2 hrec.2⟩

/-! ### Registry lemmas -/

theorem getD_replicate (n : ℕ) (a : α) (i : ℕ) (d0 : α) :
    (List.replicate n a).getD i d0 = if i < n then a else d0 := by
  induction n generalizing i with
  | zero => simp
  | succ m ih =>
    cases i with
    | zero => simp [List.replicate]
    | succ j =>
      rw [List.replicate, List.getD_cons_succ, ih]
      by_cases h : j < m
      · rw [if_pos h, if_pos (by omega)]
      · rw [if_neg h, if_neg (by omega)]

theorem parse_lengths (examples : List TrainExample) :
    (parseExamples examples).1.length = (parseExamples examples).2.length := by
  induction examples with
  | nil => rfl
  | cons e es ih =>
    show (parseExamples (e :: es)).1.length = _
    rw [parseExamples]
    by_cases h : (splitDoc e.1).length > 0
    · simp only [h, if_pos h]
      simpa using ih
    · simp only [if_neg h]
      exact ih

theorem mem_dedupFirst (l : List String) (x : String) (h : x ∈ l) :
    x ∈ dedupFirst l := by
  induction l with
  | nil => simp at h
  | cons y ys ih =>
    rw [dedupFirst]
    rcases List.mem_cons.1 h with rfl | hmem
    · exact List.mem_cons_self _ _
    · by_cases hxy : x = y
      · rw [hxy]; exact List.mem_cons_self _ _
      · refine List.mem_cons_of_mem _ ?_
        rw [List.mem_filter]
        exact ⟨ih hmem, by simp [hxy]⟩

theorem mem_foldr_append (lists : List (List String)) (ls : List String)
    (x : String) (hls : ls ∈ lists) (hx : x ∈ ls) :
    x ∈ lists.foldr (· ++ ·) [] := by
  induction lists with
  | nil => simp at hls
  | cons l rest ih =>
    rcases List.mem_cons.1 hls with rfl | hmem
    · exact List.mem_append.2 (Or.inl hx)
    · exact List.mem_append.2 (Or.inr (ih hmem))

theorem alookup_exists (L : List (String × ℕ)) (x : String)
    (h : ∃ p ∈ L, p.1 = x) : ∃ v, alookup x L = some v := by
  induction L with
  | nil => simp at h
  | cons p ps ih =>
    by_cases hp : p.1 = x
    · exact ⟨p.2, by simp [alookup, hp]⟩
    · rcases h with ⟨q, hq, hq1⟩
      rcases List.mem_cons.1 hq with rfl | hmem
      · exact absurd hq1 hp
      · rcases ih ⟨q, hmem, hq1⟩ with ⟨v, hv⟩
        exact ⟨v, by simp [alookup, hp, hv]⟩

theorem mem_enum_swap (xs : List String) (x : String) (h : x ∈ xs) :
    ∃ p ∈ xs.enum.map (fun p => (p.2, p.1)), p.1 = x := by
  rcases List.mem_iff_get.1 h with ⟨n, rfl⟩
  refine ⟨(xs.get n, n.1), List.mem_map.2 ⟨(n.1, xs.get n), ?_, rfl⟩, rfl⟩
  rw [List.mem_enum_iff_getElem?, List.getElem?_eq_getElem n.isLt,
    List.get_eq_getElem]

theorem enum_swap_lt (xs : List String) (p : String × ℕ)
    (h : p ∈ xs.enum.map (fun q => (q.2, q.1))) : p.2 < xs.length := by
  rcases List.mem_map.1 h with ⟨q, hq, rfl⟩
  rw [List.mem_enum_iff_getElem?] at hq
  exact (List.getElem?_eq_some.1 hq).1

theorem alookup_enum_head (x : String) (xs : List String) :
    alookup x (((x :: xs).enum).map (fun p => (p.2, p.1))) = some 0 := by
  simp [List.enum_cons, alookup]

theorem getLabelId_reg (s : State) (lab : String) (v : ℕ)
    (h : alookup lab s.labelToId = some v) : getLabelId s lab = (v, s) := by
  simp [getLabelId, h]

theorem getWordId_reg (s : State) (word : String) (v : ℕ)
    (h : alookup word s.wordToId = some v) : getWordId s word = (v, s) := by
  simp [getWordId, h]

theorem setLabelBits_reg (ls : List String) (v : List ℕ) (s : State)
    (hreg : ∀ lab ∈ ls, ∃ val, alookup lab s.labelToId = some val) :
    (setLabelBits v s ls).2 = s
      ∧ (setLabelBits v s ls).1.length = v.length
      ∧ (∀ b ∈ (setLabelBits v s ls).1, b ∈ v ∨ b = 1) := by
  induction ls generalizing v with
  | nil => exact ⟨rfl, rfl, fun b hb => Or.inl hb⟩
  | cons lab rest ih =>
    rcases hreg lab (List.mem_cons_self _ _) with ⟨val, hval⟩
    have hstep : setLabelBits v s (lab :: rest)
        = setLabelBits (v.set val 1) s rest := by
      show (let (i, s1) := getLabelId s lab; setLabelBits (v.set i 1) s1 rest) = _
      rw [getLabelId_reg s lab val hval]
    rw [hstep]
    have hrec := ih (v.set val 1)
      (fun lab2 h2 => hreg lab2 (List.mem_cons_of_mem _ h2))
    refine ⟨hrec.1, by rw [hrec.2.1, List.length_set], ?_⟩
    intro b hb
    rcases hrec.2.2 b hb with hmem | h1
    · rcases List.mem_or_eq_of_mem_set hmem with hmem2 | rfl
      · exact Or.inl hmem2
      · exact Or.inr rfl
    · exact Or.inr h1

theorem getLabelVector_reg (s : State) (ls : List String) (i0 : ℕ)
    (hreg : ∀ lab ∈ ls, ∃ val, alookup lab s.labelToId = some val)
    (hdef : alookup defaultLabel s.labelToId = some i0)
    (hi0 : i0 < s.labelCount) :
    (getLabelVector s ls).2 = s
      ∧ (getLabelVector s ls).1.length = s.labelCount
      ∧ (∀ b ∈ (getLabelVector s ls).1, b = 0 ∨ b = 1)
      ∧ (getLabelVector s ls).1.getD i0 0 = 1 := by
  by_cases hempty : ls.length = 0
  · rw [getLabelVector, if_pos hempty]
    refine ⟨rfl, List.length_replicate _ _, ?_, ?_⟩
    · intro b hb
      exact Or.inr (List.eq_of_mem_replicate hb)
    · rw [getD_replicate, if_pos hi0]
  · have hbits := setLabelBits_reg ls (List.replicate s.labelCount 0) s hreg
    have hstep : getLabelVector s ls
        = ((setLabelBits (List.replicate s.labelCount 0) s ls).1.set
            ((alookup defaultLabel
              (setLabelBits (List.replicate s.labelCount 0) s ls).2.labelToId).getD 0) 1,
           (setLabelBits (List.replicate s.labelCount 0) s ls).2) := by
      rw [getLabelVector, if_neg hempty]
    rw [hstep, hbits.1]
    have hlen : (setLabelBits (List.replicate s.labelCount 0) s ls).1.length
        = s.labelCount := by rw [hbits.2.1, List.length_replicate]
    refine ⟨rfl, by rw [List.length_set, hlen], ?_, ?_⟩
    · intro b hb
      rcases List.mem_or_eq_of_mem_set hb with hmem | rfl
      · rcases hbits.2.2 b hmem with hmem2 | h1
        · exact Or.inl (List.eq_of_mem_replicate hmem2)
        · exact Or.inr h1
      · exact Or.inr rfl
    · rw [hdef]
      show ((setLabelBits (List.replicate s.labelCount 0) s ls).1.set i0 1).getD i0 0 = 1
      rw [getD_set_eq _ _ _ _ (by rw [hlen]; exact hi0)]

theorem mapState_labelVectors (labelsList : List (List String)) (s : State)
    (i0 : ℕ)
    (hreg : ∀ ls ∈ labelsList, ∀ lab ∈ ls, ∃ val, alookup lab s.labelToId = some val)
    (hdef : alookup defaultLabel s.labelToId = some i0)
    (hi0 : i0 < s.labelCount) :
    (mapState getLabelVector s labelsList).2 = s
      ∧ (mapState getLabelVector s labelsList).1.length = labelsList.length
      ∧ ∀ vec ∈ (mapState getLabelVector s labelsList).1,
          vec.length = s.labelCount ∧ (∀ b ∈ vec, b = 0 ∨ b = 1)
            ∧ vec.getD i0 0 = 1 := by
  induction labelsList with
  | nil => exact ⟨rfl, rfl, fun vec hvec => absurd hvec (List.not_mem_nil _)⟩
  | cons ls rest ih =>
    have h1 := getLabelVector_reg s ls i0 (hreg ls (List.mem_cons_self _ _)) hdef hi0
    have hstep : mapState getLabelVector s (ls :: rest)
        = ((getLabelVector s ls).1 :: (mapState getLabelVector (getLabelVector s ls).2 rest).1,
           (mapState getLabelVector (getLabelVector s ls).2 rest).2) := rfl
    rw [hstep, h1.1]
    have hrec := ih (fun ls2 h2 => hreg ls2 (List.mem_cons_of_mem _ h2))
    refine ⟨hrec.1, by simp [hrec.2.1], ?_⟩
    intro vec hvec
    rcases List.mem_cons.1 hvec with rfl | hmem
    · exact ⟨h1.2.1, h1.2.2.1, h1.2.2.2⟩
    · exact hrec.2.2 vec hmem

theorem sameNonWord_refl (t : State) : SameNonWord t t :=
  ⟨rfl, rfl, rfl, rfl, rfl, rfl, rfl, rfl, rfl, rfl, rfl, rfl⟩

theorem sameNonWord_trans (a b c : State) (h1 : SameNonWord a b)
    (h2 : SameNonWord b c) : SameNonWord a c := by
  obtain ⟨x1, x2, x3, x4, x5, x6, x7, x8, x9, x10, x11, x12⟩ := h1
  obtain ⟨y1, y2, y3, y4, y5, y6, y7, y8, y9, y10, y11, y12⟩ := h2
  exact ⟨y1.trans x1, y2.trans x2, y3.trans x3, y4.trans x4, y5.trans x5,
    y6.trans x6, y7.trans x7, y8.trans x8, y9.trans x9, y10.trans x10,
    y11.trans x11, y12.trans x12⟩

theorem getWordId_nonword (s : State) (word : String) :
    SameNonWord s (getWordId s word).2 := by
  rw [getWordId]
  cases h : alookup word s.wordToId with
  | some v => exact sameNonWord_refl s
  | none => exact ⟨rfl, rfl, rfl, rfl, rfl, rfl, rfl, rfl, rfl, rfl, rfl, rfl⟩

theorem getWordId_mono (s : State) (word : String) :
    s.wordCount ≤ (getWordId s word).2.wordCount := by
  rw [getWordId]
  cases h : alookup word s.wordToId with
  | some v => exact le_rfl
  | none => exact Nat.le_succ _

theorem getWordId_lt (s : State) (word : String) (h : WordReg s) :
    (getWordId s word).1 < (getWordId s word).2.wordCount
      ∧ WordReg (getWordId s word).2 := by
  rw [getWordId]
  cases hl : alookup word s.wordToId with
  | some v =>
    constructor
    · rcases alookup_mem _ _ _ hl with ⟨p, hp, _, hp2⟩
      rw [← hp2]
      exact h p hp
    · exact h
  | none =>
    constructor
    · exact Nat.lt_succ_self _
    · intro p hp
      rcases List.mem_append.1 hp with hmem | hmem
      · exact Nat.lt_succ_of_lt (h p hmem)
      · rcases List.mem_singleton.1 hmem with rfl
        exact Nat.lt_succ_self _

theorem mapWords_spec (ws : List String) (s : State) (h : WordReg s) :
    SameNonWord s (mapState getWordId s ws).2
      ∧ s.wordCount ≤ (mapState getWordId s ws).2.wordCount
      ∧ WordReg (mapState getWordId s ws).2
      ∧ ∀ i ∈ (mapState getWordId s ws).1, i < (mapState getWordId s ws).2.wordCount := by
  induction ws generalizing s with
  | nil =>
    exact ⟨sameNonWord_refl s, le_rfl, h, fun i hi => absurd hi (List.not_mem_nil _)⟩
  | cons w ws ih =>
    have hstep : mapState getWordId s (w :: ws)
        = ((getWordId s w).1 :: (mapState getWordId (getWordId s w).2 ws).1,
           (mapState getWordId (getWordId s w).2 ws).2) := rfl
    rw [hstep]
    have h1 := getWordId_lt s w h
    have hrec := ih (getWordId s w).2 h1.2
    refine ⟨sameNonWord_trans _ _ _ (getWordId_nonword s w) hrec.1,
      le_trans (getWordId_mono s w) hrec.2.1, hrec.2.2.1, ?_⟩
    intro i hi
    rcases List.mem_cons.1 hi with rfl | hmem
    · exact lt_of_lt_of_le h1.1 hrec.2.1
    · exact hrec.2.2.2 i hmem

theorem mapDocs_spec (docs : List (List String)) (s : State) (h : WordReg s) :
    SameNonWord s (mapState (fun t doc => mapState getWordId t doc) s docs).2
      ∧ s.wordCount ≤ (mapState (fun t doc => mapState getWordId t doc) s docs).2.wordCount
      ∧ WordReg (mapState (fun t doc => mapState getWordId t doc) s docs).2
      ∧ (mapState (fun t doc => mapState getWordId t doc) s docs).1.length = docs.length
      ∧ ∀ row ∈ (mapState (fun t doc => mapState getWordId t doc) s docs).1,
          ∀ i ∈ row,
            i < (mapState (fun t doc => mapState getWordId t doc) s docs).2.wordCount := by
  induction docs generalizing s with
  | nil =>
    exact ⟨sameNonWord_refl s, le_rfl, h, rfl,
      fun row hrow => absurd hrow (List.not_mem_nil _)⟩
  | cons doc docs ih =>
    have hstep : mapState (fun t doc => mapState getWordId t doc) s (doc :: docs)
        = ((mapState getWordId s doc).1
            :: (mapState (fun t doc => mapState getWordId t doc)
                (mapState getWordId s doc).2 docs).1,
           (mapState (fun t doc => mapState getWordId t doc)
                (mapState getWordId s doc).2 docs).2) := rfl
    rw [hstep]
    have h1 := mapWords_spec doc s h
    have hrec := ih (mapState getWordId s doc).2 h1.2.2.1
    refine ⟨sameNonWord_trans _ _ _ h1.1 hrec.1,
      le_trans h1.2.1 hrec.2.1, hrec.2.2.1, by simp [hrec.2.2.2.1], ?_⟩
    intro row hrow i hi
    rcases List.mem_cons.1 hrow with rfl | hmem
    · exact lt_of_lt_of_le (h1.2.2.2 i hi) hrec.2.1
    · exact hrec.2.2.2.2 row hmem i hi

/-! ### load_examples establishes the invariant -/

theorem loadExamples_eq (s : State) (examples : List TrainExample) (its : ℕ) :
    loadExamples s examples its
      = trainDocs (initDocs true (loadSetup s examples)
          (List.range (loadSetup s examples).docCount)) its
          (List.range (loadSetup s examples).docCount) := rfl

theorem fresh_invUpTo (s3 : State) (bList wList : List (List ℕ)) (n L : ℕ)
    (halpha : 0 < s3.alpha) (hbeta : 0 < s3.beta) (hLpos : 0 < L)
    (hlc : s3.labelCount = L) (hdc : s3.docCount = n)
    (hreg : LabelReg s3) (hwreg : WordReg s3)
    (hdef : alookup defaultLabel s3.labelToId = some 0)
    (hblen : bList.length = n)
    (hbrow : ∀ vec ∈ bList,
      vec.length = L ∧ (∀ b ∈ vec, b = 0 ∨ b = 1) ∧ vec.getD 0 0 = 1)
    (hwlen : wList.length = n)
    (hwlt : ∀ row ∈ wList, ∀ i ∈ row, i < s3.wordCount) :
    InvUpTo ({ s3 with
      b_dl := bList
      w_dc := wList
      l_dc := ([] : List (List ℕ))
      c_dl := (List.replicate n (List.replicate L (0 : ℤ)))
      c_lw := (List.replicate L (List.replicate s3.wordCount (0 : ℤ)))
      c_l := (List.replicate L (0 : ℤ)) }) 0 := by
  refine ⟨halpha, hbeta, by show 0 < s3.labelCount; rw [hlc]; exact hLpos, ?_,
    hwreg, ⟨0, hdef⟩, ?_,
    by show wList.length = s3.docCount; rw [hwlen, hdc],
    by show bList.length = s3.docCount; rw [hblen, hdc], ?_, ?_,
    rfl, Nat.zero_le _, ?_, ?_, ?_, ?_, ?_, ?_, ?_, ?_, ?_, ?_, ?_⟩
  · intro p hp
    show p.2 < s3.labelCount
    exact hreg p hp
  · intro d hd
    rw [hdef]
    show getN bList d 0 = 1
    have hdb : d < bList.length := by rw [hblen]; rw [hdc] at hd; exact hd
    exact (hbrow _ (getD_mem _ _ _ hdb)).2.2
  · intro row hrow
    rw [hlc]
    exact (hbrow row hrow).1
  · intro row hrow
    exact (hbrow row hrow).2.1
  · intro d hd
    exact absurd hd (Nat.not_lt_zero d)
  · exact hwlt
  · intro d a ha
    simp at ha
  · show (List.replicate n (List.replicate L (0 : ℤ))).length = s3.docCount
    rw [List.length_replicate, hdc]
  · intro row hrow
    show row.length = s3.labelCount
    rw [List.eq_of_mem_replicate hrow, List.length_replicate, hlc]
  · show (List.replicate L (List.replicate s3.wordCount (0 : ℤ))).length = s3.labelCount
    rw [List.length_replicate, hlc]
  · intro row hrow
    show row.length = s3.wordCount
    rw [List.eq_of_mem_replicate hrow, List.length_replicate]
  · show (List.replicate L (0 : ℤ)).length = s3.labelCount
    rw [List.length_replicate, hlc]
  · intro d l
    show getZ (List.replicate n (List.replicate L (0 : ℤ))) d l = histDL [] d l
    rw [getZ, getD_replicate]
    by_cases hdn : d < n
    · rw [if_pos hdn, getD_replicate]
      by_cases hl : l < L
      · rw [if_pos hl]; rfl
      · rw [if_neg hl]; rfl
    · rw [if_neg hdn]; rfl
  · intro l w
    show getZ (List.replicate L (List.replicate s3.wordCount (0 : ℤ))) l w
      = histLW wList [] l w
    rw [getZ, getD_replicate]
    have hz : histLW wList [] l w = 0 := by simp [histLW]
    rw [hz]
    by_cases hl : l < L
    · rw [if_pos hl, getD_replicate]
      by_cases hw : w < s3.wordCount
      · rw [if_pos hw]
      · rw [if_neg hw]
    · rw [if_neg hl]; rfl
  · intro l
    show (List.replicate L (0 : ℤ)).getD l 0 = histL [] l
    rw [getD_replicate]
    have hz : histL [] l = 0 := by simp [histL]
    rw [hz]
    by_cases hl : l < L
    · rw [if_pos hl]
    · rw [if_neg hl]

theorem loadSetup_eq2 (s : State) (examples : List TrainExample) :
    loadSetup s examples = { loadS3 s examples with
      b_dl := (loadBList s examples)
      w_dc := (loadWList s examples)
      l_dc := ([] : List (List ℕ))
      c_dl := (List.replicate (parseExamples examples).1.length
        (List.replicate (loadLabelSet examples).length (0 : ℤ)))
      c_lw := (List.replicate (loadLabelSet examples).length
        (List.replicate (loadS3 s examples).wordCount (0 : ℤ)))
      c_l := (List.replicate (loadLabelSet examples).length (0 : ℤ)) } := rfl

theorem loadLabelSet_cons (examples : List TrainExample) :
    loadLabelSet examples
      = defaultLabel :: (dedupFirst
          ((parseExamples examples).2.foldr (· ++ ·) [])).filter
          (fun y => y ≠ defaultLabel) := by
  rw [loadLabelSet, dedupFirst]

theorem loadLabelSet_pos (examples : List TrainExample) :
    0 < (loadLabelSet examples).length := by
  rw [loadLabelSet_cons]
  simp

theorem loadS1_default (s : State) (examples : List TrainExample) :
    alookup defaultLabel (loadS1 s examples).labelToId = some 0 := by
  show alookup defaultLabel
    ((loadLabelSet examples).enum.map (fun p => (p.2, p.1))) = some 0
  rw [loadLabelSet_cons]
  exact alookup_enum_head _ _

theorem loadS1_reg (s : State) (examples : List TrainExample) :
    ∀ ls ∈ (parseExamples examples).2, ∀ lab ∈ ls,
      ∃ val, alookup lab (loadS1 s examples).labelToId = some val := by
  intro ls hls lab hlab
  refine alookup_exists _ _ (mem_enum_swap _ _ ?_)
  exact mem_dedupFirst _ lab (List.mem_cons_of_mem _
    (mem_foldr_append _ ls lab hls hlab))

theorem loadSetup_inv (s : State) (examples : List TrainExample)
    (ha : 0 < s.alpha) (hb : 0 < s.beta) :
    InvUpTo (loadSetup s examples) 0 := by
  have hLpos := loadLabelSet_pos examples
  have hdef1 := loadS1_default s examples
  have hreg1 := loadS1_reg s examples
  have hB := mapState_labelVectors (parseExamples examples).2 (loadS1 s examples)
    0 hreg1 hdef1 hLpos
  have hs2 : loadS2 s examples = loadS1 s examples := hB.1
  have hwreg2 : WordReg (loadS2 s examples) := by
    rw [hs2]
    intro p hp
    exact absurd hp (List.not_mem_nil p)
  have hW := mapDocs_spec (parseExamples examples).1 (loadS2 s examples) hwreg2
  obtain ⟨w1, w2, w3, w4, w5, w6, w7, w8, w9, w10, w11, w12⟩ := hW.1
  have e1 : (loadS3 s examples).alpha = (loadS2 s examples).alpha := w1
  have e2 : (loadS3 s examples).beta = (loadS2 s examples).beta := w2
  have e3 : (loadS3 s examples).labelCount = (loadS2 s examples).labelCount := w3
  have e4 : (loadS3 s examples).labelToId = (loadS2 s examples).labelToId := w4
  have e5 : (loadS3 s examples).docCount = (loadS2 s examples).docCount := w5
  rw [loadSetup_eq2]
  refine fresh_invUpTo (loadS3 s examples) (loadBList s examples)
    (loadWList s examples) (parseExamples examples).1.length
    (loadLabelSet examples).length ?_ ?_ hLpos ?_ ?_ ?_ hW.2.2.1 ?_ ?_ ?_ ?_ ?_
  · rw [e1, hs2]; exact ha
  · rw [e2, hs2]; exact hb
  · rw [e3, hs2]; rfl
  · rw [e5, hs2]; rfl
  · intro p hp
    rw [e4, hs2] at hp
    show p.2 < (loadS3 s examples).labelCount
    rw [e3, hs2]
    exact enum_swap_lt (loadLabelSet examples) p hp
  · show alookup defaultLabel (loadS3 s examples).labelToId = some 0
    rw [e4, hs2]
    exact hdef1
  · have e6 : (loadBList s examples).length = (parseExamples examples).2.length :=
      hB.2.1
    rw [e6]
    exact (parse_lengths examples).symm
  · intro vec hvec
    exact hB.2.2 vec hvec
  · exact hW.2.2.2.1
  · exact hW.2.2.2.2

theorem loadExamples_inv (s : State) (examples : List TrainExample) (its : ℕ)
    (ha : 0 < s.alpha) (hb : 0 < s.beta) :
    Inv (loadExamples s examples its) := by
  have h0 : InvUpTo (loadSetup s examples) 0 := loadSetup_inv s examples ha hb
  rw [loadExamples_eq]
  have hinit := initDocs_range_inv true (loadSetup s examples).docCount
    (loadSetup s examples) 0 h0 (by omega)
  rw [← List.range_eq_range'] at hinit
  have hinv5 : InvUpTo (initDocs true (loadSetup s examples)
      (List.range (loadSetup s examples).docCount))
      (loadSetup s examples).docCount := by
    have := hinit.1
    simpa using this
  have hdc5 : (initDocs true (loadSetup s examples)
      (List.range (loadSetup s examples).docCount)).docCount
      = (loadSetup s examples).docCount := sameCore_docCount _ _ hinit.2
  have htr := trainDocs_inv its _ (List.range (loadSetup s examples).docCount)
    (loadSetup s examples).docCount hinv5
    (fun d hd => List.mem_range.1 hd)
  have hdcf := sameCore_docCount _ _ htr.2
  show InvUpTo _ _
  rw [hdcf, hdc5]
  exact htr.1

/-! ### add_examples establishes the invariant -/

theorem addExamples_eq (s : State) (examples : List TrainExample) (its : ℕ) :
    addExamples s examples its
      = (addS11 s examples its,
         List.range' s.docCount ((addS11 s examples its).docCount - s.docCount)) := rfl

theorem zip_append_left_of_le (xs ys : List α) (zs : List β)
    (h : zs.length ≤ xs.length) : (xs ++ ys).zip zs = xs.zip zs := by
  induction xs generalizing zs with
  | nil =>
    cases zs with
    | nil => simp
    | cons z zs => simp at h
  | cons x xs ih =>
    cases zs with
    | nil => simp
    | cons z zs =>
      simp only [List.cons_append, List.zip_cons_cons]
      rw [ih zs (by simpa using h)]

theorem histDL_zero_of_ge (ldc : List (List ℕ)) (L d l : ℕ)
    (ha : ∀ a ∈ ldc.getD d [], a < L) (hl : L ≤ l) : histDL ldc d l = 0 := by
  unfold histDL
  have hfil : (ldc.getD d []).filter (fun a => a = l) = [] := by
    rw [List.filter_eq_nil_iff]
    intro a hmem
    have := ha a hmem
    simp only [decide_eq_true_eq]
    omega
  rw [hfil]
  rfl

theorem histLW_zero_of_word_ge (wdc ldc : List (List ℕ)) (W l w : ℕ)
    (hW : ∀ row ∈ wdc, ∀ x ∈ row, x < W) (hw : W ≤ w) :
    histLW wdc ldc l w = 0 := by
  unfold histLW
  have hz : ∀ p ∈ wdc.zip ldc,
      ((((p.1.zip p.2).filter (fun q => q.1 = w ∧ q.2 = l)).length : ℕ) : ℤ) = 0 := by
    intro p hp
    have hfil : (p.1.zip p.2).filter (fun q => q.1 = w ∧ q.2 = l) = [] := by
      rw [List.filter_eq_nil_iff]
      intro q hq
      have hq1 : q.1 ∈ p.1 := (List.of_mem_zip hq).1
      have hp1 : p.1 ∈ wdc := (List.of_mem_zip hp).1
      have := hW p.1 hp1 q.1 hq1
      simp only [decide_eq_true_eq, not_and]
      intro h1
      omega
    rw [hfil]
    rfl
  rw [List.map_congr_left hz]
  simp

theorem histLW_zero_of_label_ge (wdc ldc : List (List ℕ)) (L l w : ℕ)
    (ha : ∀ d, ∀ a ∈ ldc.getD d [], a < L) (hl : L ≤ l) :
    histLW wdc ldc l w = 0 := by
  unfold histLW
  have hz : ∀ p ∈ wdc.zip ldc,
      ((((p.1.zip p.2).filter (fun q => q.1 = w ∧ q.2 = l)).length : ℕ) : ℤ) = 0 := by
    intro p hp
    rcases List.mem_iff_getElem.1 hp with ⟨n, hn, hget⟩
    have hn2 : n < ldc.length := by
      rw [List.length_zip] at hn
      exact lt_of_lt_of_le hn (min_le_right _ _)
    have hp2 : p.2 = ldc.getD n [] := by
      rw [List.getD_eq_getElem _ _ hn2, ← hget]
      simp [List.getElem_zip]
    have hfil : (p.1.zip p.2).filter (fun q => q.1 = w ∧ q.2 = l) = [] := by
      rw [List.filter_eq_nil_iff]
      intro q hq
      have hq2 : q.2 ∈ p.2 := (List.of_mem_zip hq).2
      rw [hp2] at hq2
      have := ha n q.2 hq2
      simp only [decide_eq_true_eq, not_and]
      intro h1
      omega
    rw [hfil]
    rfl
  rw [List.map_congr_left hz]
  simp

theorem alookup_append_none (k : String) (xs ys : List (String × β))
    (h : alookup k xs = none) : alookup k (xs ++ ys) = alookup k ys := by
  induction xs with
  | nil => rfl
  | cons p ps ih =>
    by_cases hp : p.1 = k
    · simp [alookup, hp] at h
    · show alookup k ((p :: ps) ++ ys) = alookup k ys
      rw [List.cons_append]
      show (if p.1 = k then some p.2 else alookup k (ps ++ ys)) = alookup k ys
      rw [if_neg hp]
      simp only [alookup, if_neg hp] at h
      exact ih h

theorem sameNonLabel_refl (t : State) : SameNonLabel t t :=
  ⟨rfl, rfl, rfl, rfl, rfl, rfl, rfl, rfl, rfl, rfl, rfl, rfl⟩

theorem sameNonLabel_trans (a b c : State) (h1 : SameNonLabel a b)
    (h2 : SameNonLabel b c) : SameNonLabel a c := by
  obtain ⟨x1, x2, x3, x4, x5, x6, x7, x8, x9, x10, x11, x12⟩ := h1
  obtain ⟨y1, y2, y3, y4, y5, y6, y7, y8, y9, y10, y11, y12⟩ := h2
  exact ⟨y1.trans x1, y2.trans x2, y3.trans x3, y4.trans x4, y5.trans x5,
    y6.trans x6, y7.trans x7, y8.trans x8, y9.trans x9, y10.trans x10,
    y11.trans x11, y12.trans x12⟩

theorem getLabelId_unreg (s : State) (lab : String)
    (h : alookup lab s.labelToId = none) :
    getLabelId s lab = (s.labelCount,
      { s with labelToId := (s.labelToId ++ [(lab, s.labelCount)])
               labelCount := (s.labelCount + 1) }) := by
  simp [getLabelId, h]

theorem getLabelId_step (s : State) (lab : String) (h : LabelReg s) :
    SameNonLabel s (getLabelId s lab).2
      ∧ s.labelCount ≤ (getLabelId s lab).2.labelCount
      ∧ LabelReg (getLabelId s lab).2
      ∧ (∀ x v, alookup x s.labelToId = some v →
          alookup x (getLabelId s lab).2.labelToId = some v)
      ∧ (∃ v, alookup lab (getLabelId s lab).2.labelToId = some v) := by
  cases hl : alookup lab s.labelToId with
  | some v =>
    rw [getLabelId_reg s lab v hl]
    exact ⟨sameNonLabel_refl s, le_rfl, h, fun x v2 hx => hx, ⟨v, hl⟩⟩
  | none =>
    rw [getLabelId_unreg s lab hl]
    refine ⟨⟨rfl, rfl, rfl, rfl, rfl, rfl, rfl, rfl, rfl, rfl, rfl, rfl⟩,
      Nat.le_succ _, ?_, ?_, ?_⟩
    · intro p hp
      show p.2 < s.labelCount + 1
      rcases List.mem_append.1 hp with hmem | hmem
      · exact Nat.lt_succ_of_lt (h p hmem)
      · rcases List.mem_singleton.1 hmem with rfl
        exact Nat.lt_succ_self _
    · intro x v hx
      exact alookup_append_some x _ _ v hx
    · refine ⟨s.labelCount, ?_⟩
      show alookup lab (s.labelToId ++ [(lab, s.labelCount)]) = some s.labelCount
      rw [alookup_append_none _ _ _ hl]
      simp [alookup]

theorem labelFold_spec (ls : List String) (t : State) (h : LabelReg t) :
    SameNonLabel t (ls.foldl (fun u lab => (getLabelId u lab).2) t)
      ∧ t.labelCount ≤ (ls.foldl (fun u lab => (getLabelId u lab).2) t).labelCount
      ∧ LabelReg (ls.foldl (fun u lab => (getLabelId u lab).2) t)
      ∧ (∀ x v, alookup x t.labelToId = some v →
          alookup x (ls.foldl (fun u lab => (getLabelId u lab).2) t).labelToId = some v)
      ∧ (∀ lab ∈ ls, ∃ v,
          alookup lab (ls.foldl (fun u lab => (getLabelId u lab).2) t).labelToId = some v) := by
  induction ls generalizing t with
  | nil =>
    exact ⟨sameNonLabel_refl t, le_rfl, h, fun x v hx => hx,
      fun lab hl => absurd hl (List.not_mem_nil _)⟩
  | cons lab rest ih =>
    have h1 := getLabelId_step t lab h
    have hrec := ih (getLabelId t lab).2 h1.2.2.1
    rw [List.foldl_cons]
    refine ⟨sameNonLabel_trans _ _ _ h1.1 hrec.1,
      le_trans h1.2.1 hrec.2.1, hrec.2.2.1,
      fun x v hx => hrec.2.2.2.1 x v (h1.2.2.2.1 x v hx), ?_⟩
    intro lab2 hl2
    rcases List.mem_cons.1 hl2 with rfl | hmem
    · rcases h1.2.2.2.2 with ⟨v, hv⟩
      exact ⟨v, hrec.2.2.2.1 _ v hv⟩
    · exact hrec.2.2.2.2 lab2 hmem

theorem labelFoldAll_spec (lss : List (List String)) (t : State) (h : LabelReg t) :
    SameNonLabel t (lss.foldl (fun u ls => ls.foldl (fun u2 lab => (getLabelId u2 lab).2) u) t)
      ∧ t.labelCount
          ≤ (lss.foldl (fun u ls => ls.foldl (fun u2 lab => (getLabelId u2 lab).2) u) t).labelCount
      ∧ LabelReg (lss.foldl (fun u ls => ls.foldl (fun u2 lab => (getLabelId u2 lab).2) u) t)
      ∧ (∀ x v, alookup x t.labelToId = some v →
          alookup x (lss.foldl
            (fun u ls => ls.foldl (fun u2 lab => (getLabelId u2 lab).2) u) t).labelToId = some v)
      ∧ (∀ ls ∈ lss, ∀ lab ∈ ls, ∃ v,
          alookup lab (lss.foldl
            (fun u ls => ls.foldl (fun u2 lab => (getLabelId u2 lab).2) u) t).labelToId
            = some v) := by
  induction lss generalizing t with
  | nil =>
    exact ⟨sameNonLabel_refl t, le_rfl, h, fun x v hx => hx,
      fun ls hls => absurd hls (List.not_mem_nil _)⟩
  | cons ls rest ih =>
    have h1 := labelFold_spec ls t h
    have hrec := ih (ls.foldl (fun u2 lab => (getLabelId u2 lab).2) t) h1.2.2.1
    rw [List.foldl_cons]
    refine ⟨sameNonLabel_trans _ _ _ h1.1 hrec.1,
      le_trans h1.2.1 hrec.2.1, hrec.2.2.1,
      fun x v hx => hrec.2.2.2.1 x v (h1.2.2.2.1 x v hx), ?_⟩
    intro ls2 hls2 lab hlab
    rcases List.mem_cons.1 hls2 with rfl | hmem
    · rcases h1.2.2.2.2 lab hlab with ⟨v, hv⟩
      exact ⟨v, hrec.2.2.2.1 _ v hv⟩
    · exact hrec.2.2.2.2 ls2 hmem lab hlab

theorem addS1_spec (s : State) (examples : List TrainExample) (h : LabelReg s) :
    SameNonLabel s (addS1 s examples)
      ∧ s.labelCount ≤ (addS1 s examples).labelCount
      ∧ LabelReg (addS1 s examples)
      ∧ (∀ x v, alookup x s.labelToId = some v →
          alookup x (addS1 s examples).labelToId = some v)
      ∧ (∀ ls ∈ (parseExamples examples).2, ∀ lab ∈ ls, ∃ v,
          alookup lab (addS1 s examples).labelToId = some v) :=
  labelFoldAll_spec (parseExamples examples).2 s h

theorem addS10_inv (s : State) (examples : List TrainExample) (hv : Inv s) :
    InvUpTo (addS10 s examples) s.docCount
      ∧ (addS10 s examples).docCount
          = s.docCount + (parseExamples examples).1.length
      ∧ (addS10 s examples).l_dc = s.l_dc
      ∧ s.labelCount ≤ (addS10 s examples).labelCount := by
  have hv' : InvUpTo s s.docCount := hv
  have hA1 := addS1_spec s examples hv'.labelReg
  obtain ⟨w1, w2, w3, w4, w5, w6, w7, w8, w9, w10, w11, w12⟩ := hA1.1
  have hmono : s.labelCount ≤ (addS1 s examples).labelCount := hA1.2.1
  have hreg1 : LabelReg (addS1 s examples) := hA1.2.2.1
  obtain ⟨i0, hi0⟩ := hv'.defaultIdSome
  have hi0lt : i0 < s.labelCount := by
    rcases alookup_mem _ _ _ hi0 with ⟨p, hp, hp1, hp2⟩
    rw [← hp2]
    exact hv'.labelReg p hp
  have hdef1 : alookup defaultLabel (addS1 s examples).labelToId = some i0 :=
    hA1.2.2.2.1 defaultLabel i0 hi0
  have hreg3 : ∀ ls ∈ (parseExamples examples).2, ∀ lab ∈ ls,
      ∃ val, alookup lab (addS3 s examples).labelToId = some val := hA1.2.2.2.2
  have hdef3 : alookup defaultLabel (addS3 s examples).labelToId = some i0 := hdef1
  have hi0lt3 : i0 < (addS3 s examples).labelCount := lt_of_lt_of_le hi0lt hmono
  have hB := mapState_labelVectors (parseExamples examples).2 (addS3 s examples)
    i0 hreg3 hdef3 hi0lt3
  have hs4 : addS4 s examples = addS3 s examples := hB.1
  have hwreg5 : WordReg (addS5 s examples) := by
    intro p hp
    show p.2 < (addS5 s examples).wordCount
    have e1 : (addS5 s examples).wordToId = s.wordToId := by
      show (addS4 s examples).wordToId = s.wordToId
      rw [hs4]
      exact w4
    have e2 : (addS5 s examples).wordCount = s.wordCount := by
      show (addS4 s examples).wordCount = s.wordCount
      rw [hs4]
      exact w3
    rw [e2]
    rw [e1] at hp
    exact hv'.wordReg p hp
  have hW := mapDocs_spec (parseExamples examples).1 (addS5 s examples) hwreg5
  have hWreg6 : WordReg (addS6 s examples) := hW.2.2.1
  obtain ⟨v1, v2, v3, v4, v5, v6, v7, v8, v9, v10, v11, v12⟩ := hW.1
  have f1 : (addS6 s examples).alpha = (addS5 s examples).alpha := v1
  have f2 : (addS6 s examples).beta = (addS5 s examples).beta := v2
  have f3 : (addS6 s examples).labelCount = (addS5 s examples).labelCount := v3
  have f4 : (addS6 s examples).labelToId = (addS5 s examples).labelToId := v4
  have f5 : (addS6 s examples).docCount = (addS5 s examples).docCount := v5
  have f6 : (addS6 s examples).w_dc = (addS5 s examples).w_dc := v6
  have f7 : (addS6 s examples).b_dl = (addS5 s examples).b_dl := v7
  have f8 : (addS6 s examples).l_dc = (addS5 s examples).l_dc := v8
  have f9 : (addS6 s examples).c_dl = (addS5 s examples).c_dl := v9
  have f10 : (addS6 s examples).c_lw = (addS5 s examples).c_lw := v10
  have f11 : (addS6 s examples).c_l = (addS5 s examples).c_l := v11
  have hwmono : s.wordCount ≤ (addS6 s examples).wordCount := by
    have hle : (addS5 s examples).wordCount ≤ (addS6 s examples).wordCount := hW.2.1
    have e2 : (addS5 s examples).wordCount = s.wordCount := by
      show (addS4 s examples).wordCount = s.wordCount
      rw [hs4]
      exact w3
    rw [e2] at hle
    exact hle
  have hWlen : (addWList s examples).length = (parseExamples examples).1.length :=
    hW.2.2.2.1
  have hWlt : ∀ row ∈ addWList s examples, ∀ i ∈ row,
      i < (addS6 s examples).wordCount := hW.2.2.2.2
  have g5alpha : (addS5 s examples).alpha = s.alpha := by
    simp only [addS5]
    rw [hs4]
    simp only [addS3, addS2]
    exact w1
  have g5beta : (addS5 s examples).beta = s.beta := by
    simp only [addS5]
    rw [hs4]
    simp only [addS3, addS2]
    exact w2
  have g5lc : (addS5 s examples).labelCount = (addS1 s examples).labelCount := by
    simp only [addS5]
    rw [hs4]
    simp only [addS3, addS2]
  have g5lid : (addS5 s examples).labelToId = (addS1 s examples).labelToId := by
    simp only [addS5]
    rw [hs4]
    simp only [addS3, addS2]
  have g5dc : (addS5 s examples).docCount
      = s.docCount + (parseExamples examples).1.length := by
    simp only [addS5]
    rw [hs4]
    simp only [addS3, addS2]
    rw [w5]
  have g5bdl : (addS5 s examples).b_dl
      = ((s.b_dl.map (fun row => row ++ List.replicate
            ((addS1 s examples).labelCount - s.labelCount) 0))
         ++ addBList s examples) := by
    simp only [addS5]
    rw [hs4]
    simp only [addS3, addS2]
    rw [w7]
  have g5wdc : (addS5 s examples).w_dc = s.w_dc := by
    simp only [addS5]
    rw [hs4]
    simp only [addS3, addS2]
    exact w6
  have g5ldc : (addS5 s examples).l_dc = s.l_dc := by
    simp only [addS5]
    rw [hs4]
    simp only [addS3, addS2]
    exact w8
  have g5cdl : (addS5 s examples).c_dl = s.c_dl := by
    simp only [addS5]
    rw [hs4]
    simp only [addS3, addS2]
    exact w9
  have g5clw : (addS5 s examples).c_lw = s.c_lw := by
    simp only [addS5]
    rw [hs4]
    simp only [addS3, addS2]
    exact w10
  have g5cl : (addS5 s examples).c_l = s.c_l := by
    simp only [addS5]
    rw [hs4]
    simp only [addS3, addS2]
    exact w11
  have eA : (addS10 s examples).alpha = s.alpha := by
    simp only [addS10, addS9, addS8, addS7]
    rw [f1, g5alpha]
  have eB : (addS10 s examples).beta = s.beta := by
    simp only [addS10, addS9, addS8, addS7]
    rw [f2, g5beta]
  have eL : (addS10 s examples).labelCount = (addS1 s examples).labelCount := by
    simp only [addS10, addS9, addS8, addS7]
    rw [f3, g5lc]
  have eLid : (addS10 s examples).labelToId = (addS1 s examples).labelToId := by
    simp only [addS10, addS9, addS8, addS7]
    rw [f4, g5lid]
  have eD : (addS10 s examples).docCount
      = s.docCount + (parseExamples examples).1.length := by
    simp only [addS10, addS9, addS8, addS7]
    rw [f5, g5dc]
  have eLdc : (addS10 s examples).l_dc = s.l_dc := by
    simp only [addS10, addS9, addS8, addS7]
    rw [f8, g5ldc]
  have eBdl : (addS10 s examples).b_dl
      = ((s.b_dl.map (fun row => row ++ List.replicate
            ((addS1 s examples).labelCount - s.labelCount) 0))
         ++ addBList s examples) := by
    simp only [addS10, addS9, addS8, addS7]
    rw [f7, g5bdl]
  have eWdc : (addS10 s examples).w_dc = (s.w_dc ++ addWList s examples) := by
    simp only [addS10, addS9, addS8, addS7]
    rw [f6, g5wdc]
  have eCdl : (addS10 s examples).c_dl
      = ((s.c_dl.map (fun row => row ++ List.replicate
            ((addS1 s examples).labelCount - s.labelCount) (0 : ℤ)))
         ++ List.replicate (parseExamples examples).1.length
             (List.replicate ((addS1 s examples).labelCount) (0 : ℤ))) := by
    simp only [addS10, addS9, addS8, addS7]
    rw [f9, g5cdl, f3, g5lc, f5, g5dc, Nat.add_sub_cancel_left]
  have eClw : (addS10 s examples).c_lw
      = ((s.c_lw.map (fun row => row ++ List.replicate
            ((addS6 s examples).wordCount - s.wordCount) (0 : ℤ)))
         ++ List.replicate ((addS1 s examples).labelCount - s.labelCount)
             (List.replicate ((addS6 s examples).wordCount) (0 : ℤ))) := by
    simp only [addS10, addS9, addS8, addS7]
    rw [f10, g5clw, f3, g5lc]
  have eCl : (addS10 s examples).c_l
      = (s.c_l ++ List.replicate
          ((addS1 s examples).labelCount - s.labelCount) (0 : ℤ)) := by
    simp only [addS10, addS9, addS8, addS7]
    rw [f11, g5cl, f3, g5lc]
  have eWcnt : (addS10 s examples).wordCount = (addS6 s examples).wordCount := by
    simp only [addS10, addS9, addS8, addS7]
  have eWid : (addS10 s examples).wordToId = (addS6 s examples).wordToId := by
    simp only [addS10, addS9, addS8, addS7]
  have hBlen : (addBList s examples).length = (parseExamples examples).1.length := by
    have h1 : (addBList s examples).length = (parseExamples examples).2.length :=
      hB.2.1
    rw [h1, ← parse_lengths examples]
  have hBrow : ∀ vec ∈ addBList s examples,
      vec.length = (addS1 s examples).labelCount
        ∧ (∀ b ∈ vec, b = 0 ∨ b = 1) ∧ vec.getD i0 0 = 1 := by
    intro vec hvec
    exact hB.2.2 vec hvec
  refine ⟨⟨?_, ?_, ?_, ?_, ?_, ?_, ?_, ?_, ?_, ?_, ?_, ?_, ?_, ?_, ?_, ?_, ?_,
    ?_, ?_, ?_, ?_, ?_, ?_, ?_⟩, eD, eLdc, by rw [eL]; exact hmono⟩
  · rw [eA]
    exact hv'.alphaPos
  · rw [eB]
    exact hv'.betaPos
  · rw [eL]
    exact lt_of_lt_of_le hv'.labelPos hmono
  · intro p hp
    rw [eLid] at hp
    rw [eL]
    exact hreg1 p hp
  · intro p hp
    rw [eWid] at hp
    rw [eWcnt]
    exact hWreg6 p hp
  · exact ⟨i0, by rw [eLid]; exact hdef1⟩
  · intro d hd
    rw [eD] at hd
    rw [eBdl, eLid, hdef1]
    show getN _ d i0 = 1
    rw [getN]
    by_cases hdD : d < s.docCount
    · rw [getD_append_lt _ _ _ _ (by rw [List.length_map, hv'.bdlLen]; exact hdD)]
      rw [getD_map_lt _ _ _ _ ([] : List ℕ) (by rw [hv'.bdlLen]; exact hdD)]
      rw [getD_append_lt _ _ _ _ (by
        rw [hv'.bdlRow _ (getD_mem _ _ _ (by rw [hv'.bdlLen]; exact hdD))]
        exact hi0lt)]
      have hdb := hv'.defaultBit d hdD
      rw [hi0] at hdb
      exact hdb
    · rw [getD_append_ge _ _ _ _ (by rw [List.length_map, hv'.bdlLen]; omega)]
      rw [List.length_map, hv'.bdlLen]
      have hmem := getD_mem (addBList s examples) (d - s.docCount) []
        (by rw [hBlen]; omega)
      exact (hBrow _ hmem).2.2
  · rw [eWdc, eD, List.length_append, hv'.wdcLen, hWlen]
  · rw [eBdl, eD, List.length_append, List.length_map, hv'.bdlLen, hBlen]
  · intro row hrow
    rw [eBdl] at hrow
    rw [eL]
    rcases List.mem_append.1 hrow with hmem | hmem
    · rcases List.mem_map.1 hmem with ⟨orig, horig, rfl⟩
      rw [List.length_append, List.length_replicate, hv'.bdlRow orig horig]
      omega
    · exact (hBrow row hmem).1
  · intro row hrow
    rw [eBdl] at hrow
    rcases List.mem_append.1 hrow with hmem | hmem
    · rcases List.mem_map.1 hmem with ⟨orig, horig, rfl⟩
      intro b hb
      rcases List.mem_append.1 hb with hb2 | hb2
      · exact hv'.bdl01 orig horig b hb2
      · exact Or.inl (List.eq_of_mem_replicate hb2)
    · exact (hBrow row hmem).2.1
  · rw [eLdc]
    exact hv'.ldcLen
  · rw [eD]
    omega
  · intro d hd
    rw [eLdc, eWdc]
    rw [getD_append_lt _ _ _ _ (by rw [hv'.wdcLen]; exact hd)]
    exact hv'.ldcRow d hd
  · intro row hrow
    rw [eWdc] at hrow
    rw [eWcnt]
    rcases List.mem_append.1 hrow with hmem | hmem
    · intro w hw
      exact lt_of_lt_of_le (hv'.wordsLt row hmem w hw) hwmono
    · exact hWlt row hmem
  · intro d a ha
    rw [eLdc] at ha
    rw [eL]
    exact lt_of_lt_of_le (hv'.assignLt d a ha) hmono
  · rw [eCdl, eD, List.length_append, List.length_map, List.length_replicate,
      hv'.cdlLen]
  · intro row hrow
    rw [eCdl] at hrow
    rw [eL]
    rcases List.mem_append.1 hrow with hmem | hmem
    · rcases List.mem_map.1 hmem with ⟨orig, horig, rfl⟩
      rw [List.length_append, List.length_replicate, hv'.cdlRow orig horig]
      omega
    · rw [List.eq_of_mem_replicate hmem, List.length_replicate]
  · rw [eClw, eL, List.length_append, List.length_map, List.length_replicate,
      hv'.clwLen]
    omega
  · intro row hrow
    rw [eClw] at hrow
    rw [eWcnt]
    rcases List.mem_append.1 hrow with hmem | hmem
    · rcases List.mem_map.1 hmem with ⟨orig, horig, rfl⟩
      rw [List.length_append, List.length_replicate, hv'.clwRow orig horig]
      omega
    · rw [List.eq_of_mem_replicate hmem, List.length_replicate]
  · rw [eCl, eL, List.length_append, List.length_replicate, hv'.clLen]
    omega
  · intro d l
    rw [eCdl, eLdc, getZ]
    by_cases hdD : d < s.docCount
    · rw [getD_append_lt _ _ _ _ (by rw [List.length_map, hv'.cdlLen]; exact hdD)]
      rw [getD_map_lt _ _ _ _ ([] : List ℤ) (by rw [hv'.cdlLen]; exact hdD)]
      by_cases hlL : l < s.labelCount
      · rw [getD_append_lt _ _ _ _ (by
          rw [hv'.cdlRow _ (getD_mem _ _ _ (by rw [hv'.cdlLen]; exact hdD))]
          exact hlL)]
        exact hv'.cdlEq d l
      · rw [getD_append_ge _ _ _ _ (by
          rw [hv'.cdlRow _ (getD_mem _ _ _ (by rw [hv'.cdlLen]; exact hdD))]
          omega)]
        rw [histDL_zero_of_ge s.l_dc s.labelCount d l (hv'.assignLt d) (by omega)]
        rw [getD_replicate]
        split <;> rfl
    · rw [getD_append_ge _ _ _ _ (by rw [List.length_map, hv'.cdlLen]; omega)]
      rw [histDL_zero_of_le s.l_dc d l (by rw [hv'.ldcLen]; omega)]
      rw [List.length_map, hv'.cdlLen, getD_replicate]
      by_cases hrange : d - s.docCount < (parseExamples examples).1.length
      · rw [if_pos hrange, getD_replicate]
        split <;> rfl
      · rw [if_neg hrange]
        rfl
  · intro l w
    rw [eClw, eWdc, eLdc, getZ]
    have hzip : histLW (s.w_dc ++ addWList s examples) s.l_dc l w
        = histLW s.w_dc s.l_dc l w := by
      unfold histLW
      rw [zip_append_left_of_le _ _ _
        (le_of_eq (by rw [hv'.ldcLen, hv'.wdcLen]))]
    rw [hzip]
    by_cases hlL : l < s.labelCount
    · rw [getD_append_lt _ _ _ _ (by rw [List.length_map, hv'.clwLen]; exact hlL)]
      rw [getD_map_lt _ _ _ _ ([] : List ℤ) (by rw [hv'.clwLen]; exact hlL)]
      by_cases hwW : w < s.wordCount
      · rw [getD_append_lt _ _ _ _ (by
          rw [hv'.clwRow _ (getD_mem _ _ _ (by rw [hv'.clwLen]; exact hlL))]
          exact hwW)]
        exact hv'.clwEq l w
      · rw [getD_append_ge _ _ _ _ (by
          rw [hv'.clwRow _ (getD_mem _ _ _ (by rw [hv'.clwLen]; exact hlL))]
          omega)]
        rw [histLW_zero_of_word_ge s.w_dc s.l_dc s.wordCount l w hv'.wordsLt
          (by omega)]
        rw [getD_replicate]
        split <;> rfl
    · rw [getD_append_ge _ _ _ _ (by rw [List.length_map, hv'.clwLen]; omega)]
      rw [histLW_zero_of_label_ge s.w_dc s.l_dc s.labelCount l w hv'.assignLt
        (by omega)]
      rw [List.length_map, hv'.clwLen, getD_replicate]
      by_cases hrange : l - s.labelCount
          < (addS1 s examples).labelCount - s.labelCount
      · rw [if_pos hrange, getD_replicate]
        split <;> rfl
      · rw [if_neg hrange]
        rfl
  · intro l
    rw [eCl, eLdc]
    by_cases hlL : l < s.labelCount
    · rw [getD_append_lt _ _ _ _ (by rw [hv'.clLen]; exact hlL)]
      exact hv'.clEq l
    · rw [getD_append_ge _ _ _ _ (by rw [hv'.clLen]; omega)]
      rw [histL_zero_of_ge s.l_dc s.labelCount l hv'.assignLt (by omega)]
      rw [hv'.clLen, getD_replicate]
      split <;> rfl

theorem inferToken_ldc_ne (s : State) (d c d' : ℕ) (h : d' ≠ d) :
    (inferToken s d c).1.l_dc.getD d' [] = s.l_dc.getD d' [] := by
  show ((s.l_dc.set d _).getD d' []) = s.l_dc.getD d' []
  exact getD_set_ne _ _ _ _ _ (fun hc => h hc.symm)

theorem inferPositions_ldc (d : ℕ) (cs : List ℕ) (s : State) (st : ℕ × ℕ)
    (d' : ℕ) (h : d' ≠ d) :
    (inferPositions d s st cs).1.l_dc.getD d' [] = s.l_dc.getD d' [] := by
  induction cs generalizing s st with
  | nil => rfl
  | cons c cs ih =>
    rw [inferPositions_cons]
    rw [ih (inferToken s d c).1 _]
    exact inferToken_ldc_ne s d c d' h

theorem inferDoc_ldc (s : State) (st : ℕ × ℕ) (d d' : ℕ) (h : d' ≠ d) :
    (inferDoc s st d).1.l_dc.getD d' [] = s.l_dc.getD d' [] :=
  inferPositions_ldc d _ s st d' h

theorem inferFold_ldc (ds : List ℕ) (s : State) (st : ℕ × ℕ) (d' : ℕ)
    (h : ∀ d ∈ ds, d' ≠ d) :
    (ds.foldl (fun acc d => inferDoc acc.1 acc.2 d) (s, st)).1.l_dc.getD d' []
      = s.l_dc.getD d' [] := by
  induction ds generalizing s st with
  | nil => rfl
  | cons d ds ih =>
    rw [List.foldl_cons]
    have hstep : (inferDoc s st d).1.l_dc.getD d' [] = s.l_dc.getD d' [] :=
      inferDoc_ldc s st d d' (h d (List.mem_cons_self _ _))
    have hrec := ih (inferDoc s st d).1 (inferDoc s st d).2
      (fun x hx => h x (List.mem_cons_of_mem _ hx))
    have hpair : ((inferDoc s st d).1, (inferDoc s st d).2) = inferDoc s st d := rfl
    rw [hpair] at hrec
    rw [hrec, hstep]

theorem inferDocs_ldc (s : State) (ds : List ℕ) (d' : ℕ)
    (h : ∀ d ∈ ds, d' ≠ d) :
    (inferDocs s ds).1.l_dc.getD d' [] = s.l_dc.getD d' [] :=
  inferFold_ldc ds s (0, 0) d' h

theorem trainDocs_ldc (its : ℕ) (s : State) (ds : List ℕ) (d' : ℕ)
    (h : ∀ d ∈ ds, d' ≠ d) :
    (trainDocs s its ds).l_dc.getD d' [] = s.l_dc.getD d' [] := by
  induction its generalizing s with
  | zero => rfl
  | succ n ih =>
    rw [trainDocs]
    rw [ih (inferDocs s ds).1]
    exact inferDocs_ldc s ds d' h

theorem foldUpdate_ldc (ps : List (ℕ × ℕ)) (t : State) (d : ℕ) :
    (ps.foldl (fun u p => updateCountingMatrices u d p.1 p.2 1) t).l_dc
      = t.l_dc := by
  induction ps generalizing t with
  | nil => rfl
  | cons p ps ih =>
    rw [List.foldl_cons, ih]
    rfl

theorem initDoc_ldc (b : Bool) (s : State) (d d' : ℕ)
    (h : d' < s.l_dc.length) :
    (initDoc b s d).l_dc.getD d' [] = s.l_dc.getD d' [] := by
  rw [initDoc_eq, foldUpdate_ldc]
  show (s.l_dc ++ [(initDraw b s d).1]).getD d' [] = _
  exact getD_append_lt _ _ _ _ h

theorem addLoop_inv (its m : ℕ) (t : State) (k : ℕ)
    (hv : InvUpTo t k) (hkm : k + m ≤ t.docCount) :
    InvUpTo ((List.range' k m).foldl
        (fun u d => trainDocs (initDoc false u d) its [d]) t) (k + m)
      ∧ SameCore t ((List.range' k m).foldl
          (fun u d => trainDocs (initDoc false u d) its [d]) t)
      ∧ ∀ d' < k, ((List.range' k m).foldl
          (fun u d => trainDocs (initDoc false u d) its [d]) t).l_dc.getD d' []
            = t.l_dc.getD d' [] := by
  induction m generalizing t k with
  | zero =>
    refine ⟨by simpa using hv, sameCore_refl t, ?_⟩
    intro d' hd'
    rfl
  | succ n ih =>
    have hk : k < t.docCount := by omega
    have h1 := initDoc_inv false t k hv hk
    have h2 := trainDocs_inv its (initDoc false t k) [k] (k + 1) h1.1
      (by intro d hd; rcases List.mem_singleton.1 hd with rfl; omega)
    have hdc1 : (initDoc false t k).docCount = t.docCount := sameCore_docCount _ _ h1.2
    have hdc2 : (trainDocs (initDoc false t k) its [k]).docCount = t.docCount := by
      rw [sameCore_docCount _ _ h2.2, hdc1]
    have hsteps : (List.range' k (n + 1)).foldl
        (fun u d => trainDocs (initDoc false u d) its [d]) t
        = (List.range' (k + 1) n).foldl
            (fun u d => trainDocs (initDoc false u d) its [d])
            (trainDocs (initDoc false t k) its [k]) := rfl
    rw [hsteps]
    have hrec := ih (trainDocs (initDoc false t k) its [k]) (k + 1) h2.1
      (by rw [hdc2]; omega)
    have hadd : k + 1 + n = k + (n + 1) := by omega
    refine ⟨?_,
      sameCore_trans _ _ _ (sameCore_trans _ _ _ h1.2 h2.2) hrec.2.1, ?_⟩
    · have hIU := hrec.1
      rw [hadd] at hIU
      exact hIU
    · intro d' hd'
      rw [hrec.2.2 d' (by omega), trainDocs_ldc its (initDoc false t k) [k] d'
        (by intro d hd; rcases List.mem_singleton.1 hd with rfl; omega)]
      exact initDoc_ldc false t k d' (by rw [hv.ldcLen]; omega)

theorem addS11_inv (s : State) (examples : List TrainExample) (its : ℕ)
    (hv : Inv s) :
    Inv (addS11 s examples its)
      ∧ (addS11 s examples its).docCount = (addS10 s examples).docCount
      ∧ (∀ d' < s.docCount,
          (addS11 s examples its).l_dc.getD d' [] = s.l_dc.getD d' []) := by
  have h10 := addS10_inv s examples hv
  have hdc := h10.2.1
  have hkm : s.docCount + ((addS10 s examples).docCount - s.docCount)
      ≤ (addS10 s examples).docCount := by omega
  have hloop := addLoop_inv its ((addS10 s examples).docCount - s.docCount)
    (addS10 s examples) s.docCount h10.1 hkm
  have hk : s.docCount + ((addS10 s examples).docCount - s.docCount)
      = (addS10 s examples).docCount := by omega
  have hIU := hloop.1
  rw [hk] at hIU
  have hdc11 : (addS11 s examples its).docCount = (addS10 s examples).docCount :=
    sameCore_docCount _ _ hloop.2.1
  refine ⟨?_, hdc11, ?_⟩
  · show InvUpTo (addS11 s examples its) (addS11 s examples its).docCount
    rw [hdc11]
    exact hIU
  · intro d' hd'
    have h1 : (addS11 s examples its).l_dc.getD d' []
        = (addS10 s examples).l_dc.getD d' [] := hloop.2.2 d' hd'
    rw [h1, h10.2.2.1]

theorem addExamples_inv (s : State) (examples : List TrainExample) (its : ℕ)
    (hv : Inv s) : Inv (addExamples s examples its).1 := by
  have h := (addS11_inv s examples its hv).1
  rw [addExamples_eq]
  exact h

theorem reachable_inv (s : State) (h : Reachable s) : Inv s := by
  induction h with
  | load ex its =>
    exact loadExamples_inv init ex its (by norm_num [init, defaultAlpha])
      (by norm_num [init, defaultBeta])
  | loadAgain s0 ex its _ ih =>
    exact loadExamples_inv s0 ex its (InvUpTo.alphaPos ih) (InvUpTo.betaPos ih)
  | add s0 ex its _ ih => exact addExamples_inv s0 ex its ih
  | infer s0 ds _ hds ih =>
    have h1 := inferDocs_inv s0 ds s0.docCount ih hds
    show InvUpTo (inferDocs s0 ds).1 (inferDocs s0 ds).1.docCount
    rw [sameCore_docCount _ _ h1.2]
    exact h1.1

/-! ### Frame of add_examples on old doc-label counts -/

theorem addExamples_cdl_frame (s : State) (examples : List TrainExample)
    (its : ℕ) (hv : Inv s) (d : ℕ) (hd : d < s.docCount) (l : ℕ) :
    getZ (addExamples s examples its).1.c_dl d l
      = (if l < s.labelCount then getZ s.c_dl d l else 0) := by
  have h11 := addS11_inv s examples its hv
  have hv' : InvUpTo s s.docCount := hv
  have hIU : InvUpTo (addS11 s examples its) (addS11 s examples its).docCount :=
    h11.1
  have hcdl : getZ (addS11 s examples its).c_dl d l
      = histDL (addS11 s examples its).l_dc d l := hIU.cdlEq d l
  have hldc : (addS11 s examples its).l_dc.getD d [] = s.l_dc.getD d [] :=
    h11.2.2 d hd
  have hhist : histDL (addS11 s examples its).l_dc d l = histDL s.l_dc d l := by
    unfold histDL
    rw [hldc]
  rw [addExamples_eq]
  show getZ (addS11 s examples its).c_dl d l = _
  rw [hcdl, hhist]
  by_cases hl : l < s.labelCount
  · rw [if_pos hl]
    exact (hv'.cdlEq d l).symm
  · rw [if_neg hl]
    exact histDL_zero_of_ge s.l_dc s.labelCount d l (hv'.assignLt d) (by omega)

/-! ### The Gibbs step of the code equals the step the spec describes -/

theorem claimGibbsStep_eq (s : State) (d c : ℕ) :
    claimGibbsStep s d c
      = updateCountingMatrices
          { inferMid s d c with
            l_dc := ((inferMid s d c).l_dc.set d
              (((inferMid s d c).l_dc.getD d []).set c (claimNewL s d c)))
            rng := ((nextRand (inferMid s d c).rng).2) }
          d (inferW s d c) (claimNewL s d c) 1 := rfl

theorem claimProb_eq_inferProb (s : State) (d c : ℕ) (hv : Inv s)
    (hd : d < s.docCount) (hc : c < (s.w_dc.getD d []).length) :
    claimProb s d c = inferProb s d c := by
  have hv' : InvUpTo s s.docCount := hv
  have hlrow : (s.l_dc.getD d []).length = (s.w_dc.getD d []).length :=
    hv'.ldcRow d hd
  have hcl : c < (s.l_dc.getD d []).length := by rw [hlrow]; exact hc
  have hllt : inferL s d c < s.labelCount :=
    hv'.assignLt d _ (getD_mem _ c 0 hcl)
  have hwdcd : d < s.w_dc.length := by rw [hv'.wdcLen]; exact hd
  have hwlt : inferW s d c < s.wordCount :=
    hv'.wordsLt _ (getD_mem _ d [] hwdcd) _ (getD_mem _ c 0 hc)
  have hlw2 : inferL s d c < s.c_lw.length := by rw [hv'.clwLen]; exact hllt
  have hroww : (s.c_lw.getD (inferL s d c) []).length = s.wordCount :=
    hv'.clwRow _ (getD_mem _ _ _ hlw2)
  have hwlen2 : inferW s d c < (s.c_lw.getD (inferL s d c) []).length := by
    rw [hroww]; exact hwlt
  have hcll : inferL s d c < s.c_l.length := by rw [hv'.clLen]; exact hllt
  have hmid : ∀ i, rowSumZ (inferMid s d c).c_lw i
      = (inferMid s d c).c_l.getD i 0 := by
    intro i
    have h1 := updateCM_rowSum_clw s d (inferW s d c) (inferL s d c) (-1) i
      hlw2 hwlen2
    have h2 := updateCM_c_l s d (inferW s d c) (inferL s d c) (-1) i hcll
    show rowSumZ (updateCountingMatrices s d (inferW s d c) (inferL s d c)
      (-1)).c_lw i = _
    rw [h1]
    show _ = (updateCountingMatrices s d (inferW s d c) (inferL s d c)
      (-1)).c_l.getD i 0
    rw [h2]
    rw [inv_clw_rowSum_eq_cl s s.docCount hv' i]
  simp only [claimProb, inferProb, gibbsProb]
  refine List.map_congr_left ?_
  intro i hi
  rw [← hmid i]
  simp only [div_eq_mul_inv, one_div]
  ring

theorem inferToken_eq_claimGibbs (s : State) (d c : ℕ) (hv : Inv s)
    (hd : d < s.docCount) (hc : c < (s.w_dc.getD d []).length) :
    (inferToken s d c).1 = claimGibbsStep s d c := by
  have hP : claimProb s d c = inferProb s d c :=
    claimProb_eq_inferProb s d c hv hd hc
  have hN : claimNewL s d c = inferNewL s d c := by
    unfold claimNewL inferNewL
    rw [hP]
  rw [claimGibbsStep_eq, inferToken_eq, hN]
  rfl

/-! ### Column sums of the doc-label counts -/

theorem col_sum_eq_histL (cdl : Mat) (ldc : List (List ℕ)) (l : ℕ)
    (hlen : cdl.length = ldc.length)
    (heq : ∀ d, getZ cdl d l = histDL ldc d l) :
    (cdl.map (fun row => row.getD l 0)).sum = histL ldc l := by
  induction cdl generalizing ldc with
  | nil =>
    cases ldc with
    | nil => simp [histL]
    | cons r rs => simp at hlen
  | cons row M ih =>
    cases ldc with
    | nil => simp at hlen
    | cons lrow lds =>
      rw [List.map_cons, List.sum_cons]
      have hrest : ∀ d, getZ M d l = histDL lds d l := by
        intro d
        exact heq (d + 1)
      rw [ih lds (by simpa using hlen) hrest]
      have hcons : histL (lrow :: lds) l
          = (((lrow.filter (fun a => a = l)).length : ℕ) : ℤ) + histL lds l := by
        unfold histL
        rw [List.map_cons, List.sum_cons]
      have h0' : row.getD l 0
          = (((lrow.filter (fun a => a = l)).length : ℕ) : ℤ) := heq 0
      rw [h0', hcons]

/-! ### The serialization round trip -/

theorem fromDict_toDict (s0 m : State) (h : s0.rng = m.rng) :
    fromDict s0 (toDict m) = m := by
  cases m with
  | mk a b lc lid wc wid dc w bd ld cd cw cl r =>
    cases s0 with
    | mk a0 b0 lc0 lid0 wc0 wid0 dc0 w0 bd0 ld0 cd0 cw0 cl0 r0 =>
      have h' : r0 = r := h
      simp only [fromDict, toDict]
      rw [h']

/-! ### The claims -/

/-- C1: in every Gibbs sampling step of infer, for the token at position c
of document d, the sampler decrements the doc-label, label-word and
label-total counts for (d, w, l), computes the unnormalized probability of
each label as mask[d,l'] times (c_dl[d,l']+alpha)/(rowsum+L*alpha) times
(c_lw[l',w]+beta)/(labelTotal[l']+W*beta), draws the new label from the
normalized vector, and re-increments the three counts for (d, w, new
label): the code's step (whose second denominator is the recomputed row
sum of c_lw) equals the claim's step (whose second denominator is the
cached label total c_l) on every reachable state. -/
theorem c1_gibbs_step (s : State) (d c : ℕ) (hs : Reachable s)
    (hd : d < s.docCount) (hc : c < (s.w_dc.getD d []).length) :
    (inferToken s d c).1 = claimGibbsStep s d c :=
  inferToken_eq_claimGibbs s d c (reachable_inv s hs) hd hc

theorem c1_gibbs_step_witness :
    Reachable c1model ∧ 0 < c1model.docCount
      ∧ 0 < (c1model.w_dc.getD 0 []).length
      ∧ (inferToken c1model 0 0).1 = claimGibbsStep c1model 0 0 :=
  ⟨Reachable.load [("a b", ["x"])] 0, by with_unfolding_all decide,
   by with_unfolding_all decide,
   c1_gibbs_step c1model 0 0 (Reachable.load [("a b", ["x"])] 0)
     (by with_unfolding_all decide) (by with_unfolding_all decide)⟩

/-- C2: in every reachable state (any sequence of load, add and infer
calls), for every label l, the sum over words of row l of the label-word
count matrix equals the cached label total for l, which equals the sum
over all documents of the doc-label count entries at column l. -/
theorem c2_count_invariant (s : State) (l : ℕ) (hs : Reachable s) :
    rowSumZ s.c_lw l = s.c_l.getD l 0
      ∧ s.c_l.getD l 0 = (s.c_dl.map (fun row => row.getD l 0)).sum := by
  have hv : InvUpTo s s.docCount := reachable_inv s hs
  refine ⟨inv_clw_rowSum_eq_cl s s.docCount hv l, ?_⟩
  rw [hv.clEq l]
  rw [col_sum_eq_histL s.c_dl s.l_dc l (by rw [hv.cdlLen, hv.ldcLen])
    (fun d => hv.cdlEq d l)]

theorem c2_count_invariant_witness :
    Reachable c2model
      ∧ (rowSumZ c2model.c_lw 0 = c2model.c_l.getD 0 0
          ∧ c2model.c_l.getD 0 0
              = (c2model.c_dl.map (fun row => row.getD 0 0)).sum) :=
  ⟨Reachable.load [("a b", ["x"])] 0,
   c2_count_invariant c2model 0 (Reachable.load [("a b", ["x"])] 0)⟩

/-- C3: in every reachable state, for every document d, the sum over
labels of the doc-label count row of d equals the number of word-id tokens
of document d. -/
theorem c3_doc_rowsum (s : State) (d : ℕ) (hs : Reachable s)
    (hd : d < s.docCount) :
    rowSumZ s.c_dl d = ((s.w_dc.getD d []).length : ℤ) := by
  have hv : InvUpTo s s.docCount := reachable_inv s hs
  rw [inv_cdl_rowSum s s.docCount hv d, hv.ldcRow d hd]

theorem c3_doc_rowsum_witness :
    Reachable c3model ∧ 0 < c3model.docCount
      ∧ rowSumZ c3model.c_dl 0 = ((c3model.w_dc.getD 0 []).length : ℤ) :=
  ⟨Reachable.load [("a b", ["x"])] 0, by with_unfolding_all decide,
   c3_doc_rowsum c3model 0 (Reachable.load [("a b", ["x"])] 0)
     (by with_unfolding_all decide)⟩

/-- C4: from_dict(to_dict(m)) on a receiving instance whose generator
state matches m's yields a model with identical predict_label output for
every document id and threshold, and identical add_examples behavior on
any further examples (the generator is numpy's global one and is not part
of the serialized dictionary, which is why the receiver's generator state
appears as a hypothesis). -/
theorem c4_roundtrip (m s0 : State) (h : s0.rng = m.rng) :
    (∀ d t, predictLabel (fromDict s0 (toDict m)) d t = predictLabel m d t)
      ∧ (∀ ex its, addExamples (fromDict s0 (toDict m)) ex its
          = addExamples m ex its) := by
  rw [fromDict_toDict s0 m h]
  exact ⟨fun d t => rfl, fun ex its => rfl⟩

theorem c4_roundtrip_witness :
    (∀ d t, predictLabel (fromDict c4model (toDict c4model)) d t
        = predictLabel c4model d t)
      ∧ (∀ ex its, addExamples (fromDict c4model (toDict c4model)) ex its
          = addExamples c4model ex its) :=
  c4_roundtrip c4model c4model rfl

/-- C5: the code does NOT guard the division by (1 - default_prob) in
_predict. On a model trained only on unlabeled examples the whole
probability mass of document 0 sits on the default label (its probability
is exactly 1), yet _predict silently computes default_prob /
(1 - default_prob) and returns a prediction instead of reporting a
degenerate-input failure (in the rational model the unguarded division by
zero takes Lean's 0 convention; in the numpy float code it produces
inf/nan, equally silently). -/
theorem c5_degenerate_unguarded :
    getProbabilities c5model 0 = some [1]
      ∧ predict c5model 0 (1/2) = some (defaultLabel, 0, [(defaultLabel, 1)])
      ∧ predictLabel c5model 0 (1/2) = some defaultLabel :=
  ⟨by with_unfolding_all decide, by with_unfolding_all decide,
   by with_unfolding_all decide⟩

/-- C6: for every reachable model and every add_examples call, every
pre-existing document's doc-label count entries at label indices that
existed before the add are unchanged, and its entries at all other label
indices (in particular the newly introduced columns) are zero. -/
theorem c6_add_frame (s : State) (examples : List TrainExample) (its : ℕ)
    (d l : ℕ) (hs : Reachable s) (hd : d < s.docCount) :
    getZ (addExamples s examples its).1.c_dl d l
      = (if l < s.labelCount then getZ s.c_dl d l else 0) :=
  addExamples_cdl_frame s examples its (reachable_inv s hs) d hd l

theorem c6_add_frame_witness :
    Reachable c6model ∧ 0 < c6model.docCount
      ∧ getZ (addExamples c6model [("c", ["y"])] 0).1.c_dl 0 0
          = (if 0 < c6model.labelCount then getZ c6model.c_dl 0 0 else 0) :=
  ⟨Reachable.load [("a b", ["x"])] 0, by with_unfolding_all decide,
   c6_add_frame c6model [("c", ["y"])] 0 0 0
     (Reachable.load [("a b", ["x"])] 0) (by with_unfolding_all decide)⟩

/-- C7: two engines constructed with the same fixed seed (the seeded
generator state of init) and given the identical example sequence produce
identical models under load_examples, hence identical predict_label
results on every document id and threshold. -/
theorem c7_determinism (ex : List TrainExample) (its : ℕ) (d : ℤ) (t : ℚ)
    (s1 s2 : State) (h1 : s1 = loadExamples init ex its)
    (h2 : s2 = loadExamples init ex its) :
    predictLabel s1 d t = predictLabel s2 d t := by
  rw [h1, h2]

theorem c7_determinism_witness :
    loadExamples init [("a b", ["x"])] 0 = loadExamples init [("a b", ["x"])] 0
      ∧ predictLabel (loadExamples init [("a b", ["x"])] 0) 0 (1/2)
          = predictLabel (loadExamples init [("a b", ["x"])] 0) 0 (1/2) :=
  ⟨rfl, c7_determinism [("a b", ["x"])] 0 0 (1/2) _ _ rfl rfl⟩

/-- C8 (amended): predict_label on a reachable model returns a result
exactly for -doc_count ≤ d < doc_count and raises IndexError otherwise:
numpy's integer indexing accepts negative indices down to -doc_count
(wrapping from the end), so ids in [-doc_count, 0) do NOT fail as the
original claim asserts. -/
theorem c8_predict_range (s : State) (d : ℤ) (t : ℚ) (hs : Reachable s) :
    (predictLabel s d t).isSome = true
      ↔ (-(s.docCount : ℤ) ≤ d ∧ d < (s.docCount : ℤ)) := by
  have hv : InvUpTo s s.docCount := reachable_inv s hs
  have hcdl : s.c_dl.length = s.docCount := hv.cdlLen
  have hbdl : s.b_dl.length = s.docCount := hv.bdlLen
  constructor
  · intro hsome
    by_contra hrange
    have hnone : npIndex s.docCount d = none := by
      rw [npIndex, if_neg (by omega), if_neg (by omega)]
    have hrc : getRow s.c_dl d = none := by
      rw [getRow, hcdl, hnone]
      rfl
    have hrb : getRow s.b_dl d = none := by
      rw [getRow, hbdl, hnone]
      rfl
    have hpnone : predictLabel s d t = none := by
      rw [predictLabel, predict, getProbabilitiesWithLabel, getProbabilities,
        hrc, hrb]
      rfl
    rw [hpnone] at hsome
    simp at hsome
  · intro hrange
    have hj : ∃ j, npIndex s.docCount d = some j := by
      rw [npIndex]
      by_cases h0 : 0 ≤ d
      · exact ⟨d.toNat, by rw [if_pos ⟨h0, hrange.2⟩]⟩
      · refine ⟨(d + (s.docCount : ℤ)).toNat, ?_⟩
        rw [if_neg (by omega), if_pos ⟨hrange.1, by omega⟩]
    rcases hj with ⟨j, hj⟩
    have hrc : getRow s.c_dl d = some (s.c_dl.getD j []) := by
      rw [getRow, hcdl, hj]
      rfl
    have hrb : getRow s.b_dl d = some (s.b_dl.getD j []) := by
      rw [getRow, hbdl, hj]
      rfl
    rw [predictLabel, predict, getProbabilitiesWithLabel, getProbabilities,
      hrc, hrb]
    rfl

theorem c8_predict_range_witness :
    Reachable c8model
      ∧ ((predictLabel c8model (-1) (1/2)).isSome = true
          ↔ (-(c8model.docCount : ℤ) ≤ -1 ∧ (-1 : ℤ) < (c8model.docCount : ℤ))) :=
  ⟨Reachable.load [("a b", ["x"])] 0,
   c8_predict_range c8model (-1) (1/2) (Reachable.load [("a b", ["x"])] 0)⟩

/-- C8 counterexample to the original claim: document id -1 lies outside
[0, doc_count), yet predict_label returns a label for it (numpy negative
indexing silently wraps to the last document) instead of failing. -/
theorem c8_counterexample :
    (predictLabel c8model (-1) (1/2)).isSome = true
      ∧ ¬ (0 ≤ (-1 : ℤ) ∧ (-1 : ℤ) < (c8model.docCount : ℤ)) :=
  ⟨by with_unfolding_all decide, by with_unfolding_all decide⟩

/-- C9 is false of the source. In Python 2 load_examples builds b_dl with
dtype=int, so _init_docs's labels / labels.sum() is integer floor
division: for any mask with two or more set bits it yields the all-zeros
vector, and numpy.random.multinomial(1, pvals) treats the last entry as
the remainder 1 - sum(pvals[:-1]) = 1, deterministically assigning every
token the LAST label index whether or not its mask bit is set. On the
two-example model document 0's mask bit for label index 2 is 0, yet both
of its tokens are assigned label 2: its doc-label count there is 2 and the
predictor gives that masked-out label probability 10/11 rather than 0. -/
theorem c9_mask_violated :
    getN c9model.b_dl 0 2 = 0
      ∧ getZ c9model.c_dl 0 2 = 2
      ∧ getProbabilities c9model 0 = some [1/22, 1/22, 10/11] :=
  ⟨by with_unfolding_all decide, by with_unfolding_all decide,
   by with_unfolding_all decide⟩

/-- C10: in every reachable state, every document's mask has its default
bit set to 1 (so at least one bit is set), hence the initializer's
normalizing divisor labels.sum() is positive and the sampler's
normalizing divisor prob_l.sum() is positive: neither division divides by
zero. -/
theorem c10_mask_safety (s : State) (d : ℕ) (hs : Reachable s)
    (hd : d < s.docCount) :
    getN s.b_dl d ((alookup defaultLabel s.labelToId).getD 0) = 1
      ∧ 0 < (s.b_dl.getD d []).sum
      ∧ (∀ c, c < (s.w_dc.getD d []).length → 0 < (inferProb s d c).sum) := by
  have hv : InvUpTo s s.docCount := reachable_inv s hs
  obtain ⟨i0, hi0⟩ := hv.defaultIdSome
  have hi0lt : i0 < s.labelCount := by
    rcases alookup_mem _ _ _ hi0 with ⟨p, hp, hp1, hp2⟩
    rw [← hp2]
    exact hv.labelReg p hp
  have hrowlen : (s.b_dl.getD d []).length = s.labelCount :=
    hv.bdlRow _ (getD_mem _ _ _ (by rw [hv.bdlLen]; exact hd))
  have hbit := hv.defaultBit d hd
  refine ⟨hbit, ?_, fun c hc => (inferProb_spec s s.docCount d c hv hd hc).2.1⟩
  have hmem : (1 : ℕ) ∈ s.b_dl.getD d [] := by
    have hidx : (alookup defaultLabel s.labelToId).getD 0
        < (s.b_dl.getD d []).length := by
      rw [hrowlen]
      rw [hi0]
      exact hi0lt
    have hmem0 := getD_mem (s.b_dl.getD d [])
      ((alookup defaultLabel s.labelToId).getD 0) 0 hidx
    rw [← hbit]
    exact hmem0
  calc (0 : ℕ) < 1 := Nat.one_pos
    _ ≤ (s.b_dl.getD d []).sum :=
        List.single_le_sum (fun x _ => Nat.zero_le x) 1 hmem

theorem c10_mask_safety_witness :
    Reachable c10model ∧ 0 < c10model.docCount
      ∧ (getN c10model.b_dl 0
            ((alookup defaultLabel c10model.labelToId).getD 0) = 1
          ∧ 0 < (c10model.b_dl.getD 0 []).sum
          ∧ (∀ c, c < (c10model.w_dc.getD 0 []).length →
              0 < (inferProb c10model 0 c).sum)) :=
  ⟨Reachable.load [("a b", ["x"])] 0, by with_unfolding_all decide,
   c10_mask_safety c10model 0 (Reachable.load [("a b", ["x"])] 0)
     (by with_unfolding_all decide)⟩

end StringClassifier
